import Mathlib

/-!
A shallow embedding of `graph.go` from the generic-graph package.

The Go package keeps a directed graph in two hash maps (`nodes`, `edges`) plus
an identity counter; every node record carries two further hash maps
(`IncomingConnections`, `OutgoingConnections`).  The embedding below follows
the unexported methods (`addNode`, `addEdge`, `removeEdge`, `removeNode`,
`clone`, `TopologicalSort`); the exported wrappers only take the lock and
delegate, so they are not modelled separately.

Modelling decisions

* A Go map is an association list with at most one entry per key.  `mget` is
  `m[k]`, `mset` is `m[k] = v`, `mdel` is `delete(m, k)`, `mmod` is an update of
  the record a stored pointer refers to.
* `range` over a map visits the entries in an arbitrary order.  Every loop over
  a map takes an `IterOrder`: a function that rearranges the entry list into
  some permutation of itself.  Quantifying over all `IterOrder`s covers every
  iteration order.
* A method mutates its receiver: it is a function from the graph before to the
  graph after, paired with the returned values.
* The `From`/`To` pointers of an edge refer to the node records registered
  under `id.From`/`id.To`; they are resolved through the node map.
* `panic` and nil dereference end the computation with an `Abort`.
* Sharing between a graph and its clone cannot be seen in a model of values.
  For the one statement that is about sharing, namespace `Ptr` repeats
  `addNode`, `addEdge`, `removeEdge`, `NewGraphFrom`, `clone` and
  `TopologicalSort` over a heap of cells.
-/

namespace GenericGraph

/-! ## Go maps as association lists -/

section MapOps

variable {K V : Type} [DecidableEq K]

/-- Lookup `m[k]`. -/
def mget : List (K × V) → K → Option V
  | [], _ => none
  | (k', v) :: r, k => if k' = k then some v else mget r k

/-- Removal `delete(m, k)`. -/
def mdel (m : List (K × V)) (k : K) : List (K × V) :=
  m.filter (fun p => decide (p.1 ≠ k))

/-- Assignment `m[k] = v`. -/
def mset (m : List (K × V)) (k : K) (v : V) : List (K × V) :=
  (k, v) :: mdel m k

/-- In-place update of the record stored under `k` (mutation through a pointer). -/
def mmod (m : List (K × V)) (k : K) (f : V → V) : List (K × V) :=
  m.map (fun p => if p.1 = k then (p.1, f p.2) else p)

/-- The keys of a map, in storage order. -/
def mkeys (m : List (K × V)) : List K := m.map Prod.fst

end MapOps

/-- An iteration order for `range`: a rearrangement of the entries. -/
structure IterOrder (α : Type) where
  apply : List α → List α
  perm : ∀ l, (apply l).Perm l

/-- The iteration order that visits entries in storage order. -/
def IterOrder.storage (α : Type) : IterOrder α := ⟨fun l => l, fun l => List.Perm.refl l⟩

/-- The iteration order that visits entries in reverse storage order. -/
def IterOrder.reversed (α : Type) : IterOrder α := ⟨List.reverse, List.reverse_perm⟩

/-! ## Data model -/

abbrev NodeId := Int

structure EdgeId where
  From : NodeId
  To : NodeId
deriving DecidableEq, Repr

structure Edge (E : Type) where
  id : EdgeId
  Data : E
deriving DecidableEq, Repr

structure Node (N E : Type) where
  id : NodeId
  Data : N
  IncomingConnections : List (NodeId × Edge E)
  OutgoingConnections : List (NodeId × Edge E)
deriving DecidableEq, Repr

structure Graph (N E : Type) where
  nodes : List (NodeId × Node N E)
  edges : List (EdgeId × Edge E)
  nodeIdIncr : Int
deriving DecidableEq, Repr

/-- The error values built with `fmt.Errorf`. -/
inductive Error where
  | nodeNotFound (id : NodeId)
  | nodeNotFoundToRemove (id : NodeId)
  | edgeAlreadyExists (src dst : NodeId)
  | cyclic
deriving DecidableEq, Repr

/-- Ways a call can end without returning. -/
inductive Abort where
  | nilDeref
  | over40
  | fuel
deriving DecidableEq, Repr

/-- The result of a call that may abort: the returned values, or the abort. -/
inductive Outcome (α : Type) where
  | ret (a : α)
  | abort (p : Abort)
deriving DecidableEq, Repr

variable {N E : Type}

/-! ## Operations -/

def NewGraph : Graph N E := { nodes := [], edges := [], nodeIdIncr := 0 }

def addNode (d : Graph N E) (n : N) : Graph N E × NodeId :=
  let id : NodeId := d.nodeIdIncr
  ({ d with
      nodes := mset d.nodes id
        { id := id, Data := n, IncomingConnections := [], OutgoingConnections := [] },
      nodeIdIncr := d.nodeIdIncr + 1 }, id)

def getNode (d : Graph N E) (id : NodeId) : Option (Node N E) := mget d.nodes id

def getEdge (d : Graph N E) (src dst : NodeId) : Option (Edge E) := mget d.edges ⟨src, dst⟩

def addEdge (d : Graph N E) (src dst : NodeId) (value : E) :
    Graph N E × EdgeId × Option Error :=
  match getNode d src, getNode d dst with
  | none, _ => (d, ⟨0, 0⟩, some (.nodeNotFound src))
  | some _, none => (d, ⟨0, 0⟩, some (.nodeNotFound dst))
  | some _, some _ =>
    let id : EdgeId := ⟨src, dst⟩
    if (mget d.edges id).isSome then (d, ⟨0, 0⟩, some (.edgeAlreadyExists src dst))
    else
      let edge : Edge E := ⟨id, value⟩
      let nodes1 := mmod d.nodes src
        (fun n => { n with OutgoingConnections := mset n.OutgoingConnections dst edge })
      let nodes2 := mmod nodes1 dst
        (fun n => { n with IncomingConnections := mset n.IncomingConnections src edge })
      ({ d with nodes := nodes2, edges := mset d.edges id edge }, id, none)

def removeEdge (d : Graph N E) (src dst : NodeId) : Graph N E × Option Error :=
  match getNode d src, getNode d dst with
  | none, _ => (d, some (.nodeNotFound src))
  | some _, none => (d, some (.nodeNotFound dst))
  | some _, some _ =>
    let edges1 := mdel d.edges ⟨src, dst⟩
    let nodes1 := mmod d.nodes src
      (fun n => { n with OutgoingConnections := mdel n.OutgoingConnections dst })
    let nodes2 := mmod nodes1 dst
      (fun n => { n with IncomingConnections := mdel n.IncomingConnections src })
    ({ d with nodes := nodes2, edges := edges1 }, none)

/-- The loop of `removeNode` over the keys of `d.edges`, in the order given. -/
def removeNodeLoop (id : NodeId) : List EdgeId → Graph N E → Graph N E × Option Error
  | [], d => (d, none)
  | edge :: rest, d =>
    if edge.From = id ∨ edge.To = id then
      match removeEdge d edge.From edge.To with
      | (d1, some err) => (d1, some err)
      | (d1, none) => removeNodeLoop id rest d1
    else removeNodeLoop id rest d

def removeNode (ord : IterOrder (EdgeId × Edge E)) (d : Graph N E) (id : NodeId) :
    Graph N E × Option Error :=
  match getNode d id with
  | none => (d, some (.nodeNotFoundToRemove id))
  | some _ =>
    match removeNodeLoop id (mkeys (ord.apply d.edges)) d with
    | (d1, some err) => (d1, some err)
    | (d1, none) => ({ d1 with nodes := mdel d1.nodes id }, none)

/-- First loop of `NewGraphFrom`. -/
def addNodes (d : Graph N E) : List N → Graph N E
  | [] => d
  | n :: rest => addNodes (addNode d n).1 rest

/-- Second loop of `NewGraphFrom`, over the entries in the order given. -/
def addEdges (d : Graph N E) : List (EdgeId × E) → Graph N E × Option Error
  | [] => (d, none)
  | (id, v) :: rest =>
    match addEdge d id.From id.To v with
    | (d1, _, some err) => (d1, some err)
    | (d1, _, none) => addEdges d1 rest

def NewGraphFrom (ord : IterOrder (EdgeId × E)) (nodes : List N) (edges : List (EdgeId × E)) :
    Graph N E × Option Error :=
  addEdges (addNodes NewGraph nodes) (ord.apply edges)

/-- Iteration orders used by `clone`. -/
structure CloneOrder (N E : Type) where
  nodes : IterOrder (NodeId × Node N E)
  edges : IterOrder (EdgeId × Edge E)
  built : IterOrder (EdgeId × E)

/-- Second loop of `clone`: payloads in ascending identity order. -/
def cloneNodes (d : Graph N E) : List NodeId → Outcome (List N)
  | [] => .ret []
  | id :: rest =>
    match getNode d id with
    | none => .abort .nilDeref
    | some n =>
      match cloneNodes d rest with
      | .abort p => .abort p
      | .ret ns => .ret (n.Data :: ns)

/-- Third loop of `clone`: the map from edge identity to payload. -/
def cloneEdges (d : Graph N E) :
    List (EdgeId × Edge E) → List (EdgeId × E) → Outcome (List (EdgeId × E))
  | [], acc => .ret acc
  | (_, e) :: rest, acc =>
    match getEdge d e.id.From e.id.To with
    | none => .abort .nilDeref
    | some e2 => cloneEdges d rest (mset acc e.id e2.Data)

def clone (o : CloneOrder N E) (d : Graph N E) : Outcome (Graph N E × Option Error) :=
  let nodeIds := ((o.nodes.apply d.nodes).map (fun p => p.2.id)).insertionSort (fun a b => a ≤ b)
  match cloneNodes d nodeIds with
  | .abort p => .abort p
  | .ret nodes =>
    match cloneEdges d (o.edges.apply d.edges) [] with
    | .abort p => .abort p
    | .ret edges => .ret (NewGraphFrom o.built nodes edges)

/-- Iteration orders used by `TopologicalSort`; `out k` is the order of the
inner loop in the `k`-th round of the outer loop. -/
structure SortOrder (N E : Type) where
  clone : CloneOrder N E
  seed : IterOrder (NodeId × Node N E)
  out : Nat → IterOrder (NodeId × Edge E)

/-- The inner loop of `TopologicalSort` over the outgoing edges of the dequeued node. -/
def sortInner : List (NodeId × Edge E) → Graph N E → List NodeId →
    Outcome (Graph N E × List NodeId)
  | [], d, noIncoming => .ret (d, noIncoming)
  | (_, e) :: rest, d, noIncoming =>
    let d1 := (removeEdge d e.id.From e.id.To).1
    match getNode d1 e.id.To with
    | none => .abort .nilDeref
    | some m =>
      sortInner rest d1
        (if m.IncomingConnections.length = 0 then noIncoming ++ [m.id] else noIncoming)

/-- The outer loop of `TopologicalSort`.  The first argument bounds the number
of rounds; `TopologicalSort` starts it at 42, which the `len(l) > 40` guard
never lets run out (`sortLoop_fuel`, `topologicalSort_fuel`). -/
def sortLoop (out : Nat → IterOrder (NodeId × Edge E)) :
    Nat → Graph N E → List NodeId → List NodeId → Outcome (List NodeId × Option Error)
  | _, d, [], l => .ret (if d.edges.length > 0 then ([], some .cyclic) else (l, none))
  | 0, _, _ :: _, _ => .abort .fuel
  | fuel + 1, d, a :: noIncoming, l =>
    if l.length > 40 then .abort .over40
    else
      match getNode d a with
      | none => .abort .nilDeref
      | some na =>
        match sortInner ((out l.length).apply na.OutgoingConnections) d noIncoming with
        | .abort p => .abort p
        | .ret (d1, q1) => sortLoop out fuel d1 q1 (l ++ [a])

/-- The seed of the work queue: nodes without incoming edges. -/
def seedQueue (nodes : List (NodeId × Node N E)) : List NodeId :=
  nodes.filterMap (fun p => if p.2.IncomingConnections.length = 0 then some p.2.id else none)

def TopologicalSort (o : SortOrder N E) (original : Graph N E) :
    Outcome (List NodeId × Option Error) :=
  match clone o.clone original with
  | .abort p => .abort p
  | .ret (_, some err) => .ret ([], some err)
  | .ret (d, none) => sortLoop o.out 42 d (seedQueue (o.seed.apply d.nodes)) []

/-! ## Views, well-formedness, reachability -/

/-- The entry for destination `t` in the outgoing map of node `f`, if any. -/
def outE (g : Graph N E) (f t : NodeId) : Option (Edge E) :=
  (getNode g f).bind (fun n => mget n.OutgoingConnections t)

/-- The entry for source `f` in the incoming map of node `t`, if any. -/
def inE (g : Graph N E) (t f : NodeId) : Option (Edge E) :=
  (getNode g t).bind (fun n => mget n.IncomingConnections f)

/-- The representation invariant: maps have one entry per key, records are
stored under their own identity, the three views of an edge agree and the
identity counter is above every node identity. -/
structure WF (g : Graph N E) : Prop where
  nodesNodup : (mkeys g.nodes).Nodup
  edgesNodup : (mkeys g.edges).Nodup
  inNodup : ∀ k n, getNode g k = some n → (mkeys n.IncomingConnections).Nodup
  outNodup : ∀ k n, getNode g k = some n → (mkeys n.OutgoingConnections).Nodup
  nodeId : ∀ k n, getNode g k = some n → n.id = k
  edgeId : ∀ f t e, getEdge g f t = some e → e.id = ⟨f, t⟩
  outView : ∀ f t, outE g f t = getEdge g f t
  inView : ∀ f t, inE g t f = getEdge g f t
  fresh : ∀ k : Int, (getNode g k).isSome = true → 0 ≤ k ∧ k < g.nodeIdIncr
  incrNonneg : 0 ≤ g.nodeIdIncr

/-- Graph `g'` has the same node identities, node payloads and identity
counter as `g`. -/
structure SameNodes (g g' : Graph N E) : Prop where
  data : ∀ k, (getNode g' k).map (fun n => (n.id, n.Data)) =
    (getNode g k).map (fun n => (n.id, n.Data))
  keys : mkeys g'.nodes = mkeys g.nodes
  incr : g'.nodeIdIncr = g.nodeIdIncr

/-- Graphs that a caller can build: `NewGraph()` followed by any calls of
`AddNode`, `AddEdge`, `RemoveEdge` and `RemoveNode`, whether they fail or not. -/
inductive Reachable : Graph N E → Prop
  | newGraph : Reachable NewGraph
  | addNode {g : Graph N E} (n : N) : Reachable g → Reachable (addNode g n).1
  | addEdge {g : Graph N E} (f t : NodeId) (v : E) : Reachable g → Reachable (addEdge g f t v).1
  | removeEdge {g : Graph N E} (f t : NodeId) : Reachable g → Reachable (removeEdge g f t).1
  | removeNode {g : Graph N E} (ord : IterOrder (EdgeId × Edge E)) (id : NodeId) :
      Reachable g → Reachable (removeNode ord g id).1

/-- One call of the mutating interface. -/
inductive Op (N E : Type) where
  | addNode (n : N)
  | addEdge (f t : NodeId) (v : E)
  | removeEdge (f t : NodeId)
  | removeNode (ord : IterOrder (EdgeId × Edge E)) (id : NodeId)

/-- Run a sequence of calls; the second component lists the identities that
the `AddNode` calls returned, in call order. -/
def run : List (Op N E) → Graph N E → Graph N E × List NodeId
  | [], g => (g, [])
  | .addNode n :: rest, g =>
    let r := addNode g n
    let s := run rest r.1
    (s.1, r.2 :: s.2)
  | .addEdge f t v :: rest, g => run rest (addEdge g f t v).1
  | .removeEdge f t :: rest, g => run rest (removeEdge g f t).1
  | .removeNode ord id :: rest, g => run rest (removeNode ord g id).1

/-- The edge relation of a graph. -/
def hasEdge (g : Graph N E) (u v : NodeId) : Prop := (getEdge g u v).isSome = true

/-- No directed cycle. -/
def Acyclic (g : Graph N E) : Prop := ∀ u, ¬ Relation.TransGen (hasEdge g) u u

/-- Element `u` occurs in `l` at a strictly smaller position than `v`. -/
def Before (l : List NodeId) (u v : NodeId) : Prop :=
  ∃ i j : Nat, i < j ∧ l[i]? = some u ∧ l[j]? = some v

/-- Node identities are exactly `0 .. n-1`, `n` the number of nodes. -/
def DenseIds (g : Graph N E) : Prop :=
  ∀ id : Int, (getNode g id).isSome = true ↔ 0 ≤ id ∧ id < (g.nodes.length : Int)

/-- Node `v` lies on a directed cycle or can be reached from one. -/
def Downstream (g : Graph N E) (v : NodeId) : Prop :=
  ∃ c, Relation.TransGen (hasEdge g) c c ∧ Relation.ReflTransGen (hasEdge g) c v

/-- At most `k` nodes of the graph are neither on a cycle nor reachable from
one: some list of length at most `k` holds them all. -/
def SortableAtMost (g : Graph N E) (k : Nat) : Prop :=
  ∃ S : List NodeId, S.length ≤ k ∧
    ∀ v, (getNode g v).isSome = true → ¬ Downstream g v → v ∈ S

/-- The loop invariant of `TopologicalSort`, relative to the working copy `d0`
as it was before the loop: `d` is `d0` without the edges that leave a node of
`l`; a node is in `l` or in the queue exactly when it has no incoming edge left;
no node is listed twice; and `l` lists the source of every edge of `d0` before
its destination. -/
structure SortInv (d0 d : Graph N E) (queue l : List NodeId) : Prop where
  wf : WF d
  same : SameNodes d0 d
  edges : ∀ x y, getEdge d x y = if x ∈ l then none else getEdge d0 x y
  ready : ∀ v, v ∈ l ++ queue ↔ ((getNode d0 v).isSome = true ∧ ∀ u, getEdge d u v = none)
  nodup : (l ++ queue).Nodup
  order : ∀ x y, hasEdge d0 x y → y ∈ l → Before l x y

/-! ## Concrete graphs used to instantiate the theorems -/

/-- Three nodes `0, 1, 2` with payloads `10, 11, 12` and no edges. -/
def threeNodes : Graph Nat Nat :=
  (addNode (addNode (addNode NewGraph 10).1 11).1 12).1

/-- The graph of the tests: edges `0 → 1`, `1 → 2`, `0 → 2`. -/
def triangle : Graph Nat Nat :=
  (addEdge (addEdge (addEdge threeNodes 0 1 101).1 1 2 112).1 0 2 102).1

/-- The triangle with the back edge `2 → 0`: a cycle through all three nodes. -/
def triangleCycle : Graph Nat Nat := (addEdge triangle 2 0 120).1

/-- Forty-two nodes `0 .. 41`, no edges. -/
def fortyTwo : Graph Nat Nat := addNodes NewGraph (List.replicate 42 0)

/-- Forty-three nodes `0 .. 42` and the self-loop `42 → 42`. -/
def fortyThreeLoop : Graph Nat Nat :=
  (addEdge (addNodes NewGraph (List.replicate 43 0)) 42 42 1).1

/-- Forty-two nodes `0 .. 41` and the self-loop `0 → 0`. -/
def fortyTwoLoop : Graph Nat Nat := (addEdge fortyTwo 0 0 1).1

/-- Forty-three nodes `0 .. 42` and the two-node cycle `41 → 42 → 41`. -/
def fortyThreeTwoCycle : Graph Nat Nat :=
  (addEdge (addEdge (addNodes NewGraph (List.replicate 43 0)) 41 42 1).1 42 41 2).1

/-- A ring of one hundred nodes: edges `i → i+1` for `i < 99` and `99 → 0`. -/
def hundredRing : Graph Nat Nat :=
  (List.range 100).foldl
    (fun g (i : Nat) => (addEdge g (i : Int) (((i + 1) % 100 : Nat) : Int) i).1)
    (addNodes NewGraph (List.replicate 100 0))

/-- Nodes `1, 2` left after node `0` was removed, with the edge `1 → 2`. -/
def gappedDag : Graph Nat Nat :=
  (addEdge (removeNode (IterOrder.storage _) threeNodes 0).1 1 2 5).1

/-- The graph `gappedDag` with the back edge `2 → 1`. -/
def gappedCycle : Graph Nat Nat := (addEdge gappedDag 2 1 6).1

/-- Two nodes added, the first removed: the only node is `1`. -/
def lastOnly : Graph Nat Nat :=
  (removeNode (IterOrder.storage _) (addNode (addNode NewGraph 10).1 11).1 0).1

/-- All loops visit their map in storage order. -/
def storageOrder : SortOrder Nat Nat :=
  { clone := { nodes := IterOrder.storage _, edges := IterOrder.storage _,
               built := IterOrder.storage _ },
    seed := IterOrder.storage _,
    out := fun _ => IterOrder.storage _ }

/-- The node identities of a graph in ascending order. -/
def sortedIds (g : Graph N E) : List NodeId :=
  (mkeys g.nodes).insertionSort (fun a b => a ≤ b)

/-- Identity `k` is a position of a node list of length `n`. -/
def inRange (n : Nat) (k : Int) : Prop := 0 ≤ k ∧ k < (n : Int)

/-- Four nodes `0 .. 3` with payloads `10 .. 13`, no edges. -/
def fourNodes : Graph Nat Nat := (addNode threeNodes 13).1

/-- Nodes `1, 2, 3` left after node `0` was removed, with the edge `1 → 2`. -/
def fourGap : Graph Nat Nat :=
  (addEdge (removeNode (IterOrder.storage _) fourNodes 0).1 1 2 5).1

/-- The graph `clone` builds from `fourGap`: nodes `0, 1, 2` carrying the
payloads of `1, 2, 3`, and the edge still keyed `1 → 2`. -/
def fourGapClone : Graph Nat Nat :=
  (NewGraphFrom (IterOrder.storage _) [11, 12, 13] [(⟨1, 2⟩, 5)]).1

/-- All loops visit their map in reverse storage order. -/
def reversedOrder : SortOrder Nat Nat :=
  { clone := { nodes := IterOrder.reversed _, edges := IterOrder.reversed _,
               built := IterOrder.reversed _ },
    seed := IterOrder.reversed _,
    out := fun _ => IterOrder.reversed _ }

/-! ## A pointer-level model

The model above treats a graph as a value.  Whether `Clone` and
`TopologicalSort` leave the graph they are called on untouched is a question
about sharing: the working copy must not reach any map or record of the
original.  The model below keeps every Go object that can be mutated in a
heap cell, so that the question can be asked.

* A heap is a list of cells; an address is a position in it.  `make`/`&T{}`
  appends a cell; a write replaces the cell at an address.
* There is a cell for each `Graph` struct, each map and each `Node` struct.  A
  `Graph` struct held in a local variable is a cell as well, since its methods
  take its address.
* `Edge` structs are never written after `addEdge` built them, so the maps hold
  them by value; their `From`/`To` fields are addresses of `Node` cells.
* Reading an address that does not hold the expected kind of object ends the
  call like a nil dereference.
-/

namespace Ptr

abbrev Addr := Nat

/-- The `Edge` struct; `From` and `To` point to `Node` structs. -/
structure EdgeRec (E : Type) where
  id : EdgeId
  Data : E
  From : Addr
  To : Addr
deriving DecidableEq, Repr

/-- The `Graph` struct; `nodes` and `edges` refer to map objects. -/
structure GraphRec where
  nodes : Addr
  edges : Addr
  nodeIdIncr : Int
deriving DecidableEq, Repr

/-- The `Node` struct; the two connection fields refer to map objects. -/
structure NodeRec (N : Type) where
  id : NodeId
  Data : N
  IncomingConnections : Addr
  OutgoingConnections : Addr
deriving DecidableEq, Repr

/-- A heap object. -/
inductive Cell (N E : Type) where
  | graph (g : GraphRec)
  | nodeMap (m : List (NodeId × Addr))
  | edgeMap (m : List (EdgeId × EdgeRec E))
  | adjMap (m : List (NodeId × EdgeRec E))
  | node (n : NodeRec N)
deriving DecidableEq, Repr

abbrev Heap (N E : Type) := List (Cell N E)

/-- A computation on the heap that returns a value or aborts. -/
def M (N E : Type) (α : Type) : Type := Heap N E → Outcome (α × Heap N E)

def M.pure {α : Type} (a : α) : M N E α := fun h => .ret (a, h)

def M.bind {α β : Type} (m : M N E α) (f : α → M N E β) : M N E β :=
  fun h =>
    match m h with
    | .ret (a, h1) => f a h1
    | .abort p => .abort p

instance : Monad (M N E) where
  pure := M.pure
  bind := M.bind

/-- End the call. -/
def fail {α : Type} (p : Abort) : M N E α := fun _ => .abort p

/-- Allocate a new object and return its address. -/
def alloc (c : Cell N E) : M N E Addr := fun h => .ret (h.length, h ++ [c])

/-- Overwrite the object at an address. -/
def store (a : Addr) (c : Cell N E) : M N E Unit := fun h => .ret ((), h.set a c)

def readGraph (a : Addr) : M N E GraphRec := fun h =>
  match h[a]? with
  | some (.graph g) => .ret (g, h)
  | _ => .abort .nilDeref

def readNodeMap (a : Addr) : M N E (List (NodeId × Addr)) := fun h =>
  match h[a]? with
  | some (.nodeMap m) => .ret (m, h)
  | _ => .abort .nilDeref

def readEdgeMap (a : Addr) : M N E (List (EdgeId × EdgeRec E)) := fun h =>
  match h[a]? with
  | some (.edgeMap m) => .ret (m, h)
  | _ => .abort .nilDeref

def readAdjMap (a : Addr) : M N E (List (NodeId × EdgeRec E)) := fun h =>
  match h[a]? with
  | some (.adjMap m) => .ret (m, h)
  | _ => .abort .nilDeref

def readNode (a : Addr) : M N E (NodeRec N) := fun h =>
  match h[a]? with
  | some (.node n) => .ret (n, h)
  | _ => .abort .nilDeref

/-! ### Operations, on the address of the `Graph` struct -/

def NewGraph : M N E Addr := do
  let nodes ← alloc (.nodeMap [])
  let edges ← alloc (.edgeMap [])
  alloc (.graph { nodes := nodes, edges := edges, nodeIdIncr := 0 })

def addNode (d : Addr) (n : N) : M N E NodeId := do
  let g ← readGraph d
  let id : NodeId := g.nodeIdIncr
  let inc ← alloc (.adjMap [])
  let out ← alloc (.adjMap [])
  let p ← alloc (.node { id := id, Data := n, IncomingConnections := inc,
                         OutgoingConnections := out })
  let m ← readNodeMap g.nodes
  store g.nodes (.nodeMap (mset m id p))
  let g2 ← readGraph d
  store d (.graph { g2 with nodeIdIncr := g2.nodeIdIncr + 1 })
  pure id

def getNode (d : Addr) (id : NodeId) : M N E (Option Addr) := do
  let g ← readGraph d
  let m ← readNodeMap g.nodes
  pure (mget m id)

def getEdge (d : Addr) (src dst : NodeId) : M N E (Option (EdgeRec E)) := do
  let g ← readGraph d
  let m ← readEdgeMap g.edges
  pure (mget m ⟨src, dst⟩)

def addEdge (d : Addr) (src dst : NodeId) (value : E) : M N E (EdgeId × Option Error) := do
  let fromNode ← getNode d src
  let toNode ← getNode d dst
  match fromNode, toNode with
  | none, _ => pure (⟨0, 0⟩, some (.nodeNotFound src))
  | some _, none => pure (⟨0, 0⟩, some (.nodeNotFound dst))
  | some pf, some pt =>
    let id : EdgeId := ⟨src, dst⟩
    let g ← readGraph d
    let edges ← readEdgeMap g.edges
    if (mget edges id).isSome then pure (⟨0, 0⟩, some (.edgeAlreadyExists src dst))
    else
      let edge : EdgeRec E := { id := id, Data := value, From := pf, To := pt }
      let nf ← readNode pf
      let outs ← readAdjMap nf.OutgoingConnections
      store nf.OutgoingConnections (.adjMap (mset outs dst edge))
      let nt ← readNode pt
      let ins ← readAdjMap nt.IncomingConnections
      store nt.IncomingConnections (.adjMap (mset ins src edge))
      let edges2 ← readEdgeMap g.edges
      store g.edges (.edgeMap (mset edges2 id edge))
      pure (id, none)

def removeEdge (d : Addr) (src dst : NodeId) : M N E (Option Error) := do
  let fromNode ← getNode d src
  let toNode ← getNode d dst
  match fromNode, toNode with
  | none, _ => pure (some (.nodeNotFound src))
  | some _, none => pure (some (.nodeNotFound dst))
  | some pf, some pt =>
    let g ← readGraph d
    let edges ← readEdgeMap g.edges
    store g.edges (.edgeMap (mdel edges ⟨src, dst⟩))
    let nf ← readNode pf
    let outs ← readAdjMap nf.OutgoingConnections
    store nf.OutgoingConnections (.adjMap (mdel outs dst))
    let nt ← readNode pt
    let ins ← readAdjMap nt.IncomingConnections
    store nt.IncomingConnections (.adjMap (mdel ins src))
    pure none

/-- First loop of `NewGraphFrom`. -/
def addNodes (d : Addr) : List N → M N E Unit
  | [] => pure ()
  | n :: rest => do
    let _ ← addNode d n
    addNodes d rest

/-- Second loop of `NewGraphFrom`. -/
def addEdges (d : Addr) : List (EdgeId × E) → M N E (Option Error)
  | [] => pure none
  | (id, v) :: rest => do
    let r ← addEdge d id.From id.To v
    match r.2 with
    | some err => pure (some err)
    | none => addEdges d rest

def NewGraphFrom (ord : IterOrder (EdgeId × E)) (nodes : List N) (edges : List (EdgeId × E)) :
    M N E (Addr × Option Error) := do
  let d ← NewGraph
  addNodes d nodes
  let err ← addEdges d (ord.apply edges)
  pure (d, err)

/-- Iteration orders used by `clone`. -/
structure CloneOrder (E : Type) where
  nodes : IterOrder (NodeId × Addr)
  edges : IterOrder (EdgeId × EdgeRec E)
  built : IterOrder (EdgeId × E)

/-- First loop of `clone`: the `id` field of every node record. -/
def cloneIds : List (NodeId × Addr) → M N E (List NodeId)
  | [] => pure []
  | (_, p) :: rest => do
    let n ← readNode p
    let ids ← cloneIds rest
    pure (n.id :: ids)

/-- Second loop of `clone`. -/
def cloneNodes (d : Addr) : List NodeId → M N E (List N)
  | [] => pure []
  | id :: rest => do
    let p ← getNode d id
    match p with
    | none => fail .nilDeref
    | some a =>
      let n ← readNode a
      let ns ← cloneNodes d rest
      pure (n.Data :: ns)

/-- Third loop of `clone`. -/
def cloneEdges (d : Addr) :
    List (EdgeId × EdgeRec E) → List (EdgeId × E) → M N E (List (EdgeId × E))
  | [], acc => pure acc
  | (_, e) :: rest, acc => do
    let e2 ← getEdge d e.id.From e.id.To
    match e2 with
    | none => fail .nilDeref
    | some r => cloneEdges d rest (mset acc e.id r.Data)

def clone (o : CloneOrder E) (d : Addr) : M N E (Addr × Option Error) := do
  let g ← readGraph d
  let nodesMap ← readNodeMap g.nodes
  let ids ← cloneIds (o.nodes.apply nodesMap)
  let nodeIds := ids.insertionSort (fun a b => a ≤ b)
  let nodes ← cloneNodes d nodeIds
  let edgesMap ← readEdgeMap g.edges
  let edges ← cloneEdges d (o.edges.apply edgesMap) []
  NewGraphFrom o.built nodes edges

/-- Iteration orders used by `TopologicalSort`. -/
structure SortOrder (E : Type) where
  clone : CloneOrder E
  seed : IterOrder (NodeId × Addr)
  out : Nat → IterOrder (NodeId × EdgeRec E)

/-- The seed of the work queue. -/
def seedQueue : List (NodeId × Addr) → M N E (List NodeId)
  | [] => pure []
  | (_, p) :: rest => do
    let node ← readNode p
    let ins ← readAdjMap node.IncomingConnections
    let q ← seedQueue rest
    pure (if ins.length = 0 then node.id :: q else q)

/-- The inner loop of `TopologicalSort`. -/
def sortInner (d : Addr) : List (NodeId × EdgeRec E) → List NodeId → M N E (List NodeId)
  | [], noIncoming => pure noIncoming
  | (_, e) :: rest, noIncoming => do
    let _ ← removeEdge d e.id.From e.id.To
    let m ← readNode e.To
    let ins ← readAdjMap m.IncomingConnections
    sortInner d rest (if ins.length = 0 then noIncoming ++ [m.id] else noIncoming)

/-- The outer loop of `TopologicalSort`, bounded like `GenericGraph.sortLoop`. -/
def sortLoop (out : Nat → IterOrder (NodeId × EdgeRec E)) (d : Addr) :
    Nat → List NodeId → List NodeId → M N E (List NodeId × Option Error)
  | _, [], l => do
    let g ← readGraph d
    let edges ← readEdgeMap g.edges
    pure (if edges.length > 0 then ([], some .cyclic) else (l, none))
  | 0, _ :: _, _ => fail .fuel
  | fuel + 1, a :: noIncoming, l =>
    if l.length > 40 then fail .over40
    else do
      let p ← getNode d a
      match p with
      | none => fail .nilDeref
      | some pa =>
        let na ← readNode pa
        let outs ← readAdjMap na.OutgoingConnections
        let q ← sortInner d ((out l.length).apply outs) noIncoming
        sortLoop out d fuel q (l ++ [a])

def TopologicalSort (o : SortOrder E) (original : Addr) :
    M N E (List NodeId × Option Error) := do
  let r ← clone o.clone original
  match r.2 with
  | some err => pure ([], some err)
  | none =>
    let g ← readGraph r.1
    let nodesMap ← readNodeMap g.nodes
    let noIncoming ← seedQueue (o.seed.apply nodesMap)
    sortLoop o.out r.1 42 noIncoming []

/-- The triangle of the tests built on an empty heap: nodes `0, 1, 2` with
payloads `10, 11, 12`, edges `0 → 1`, `1 → 2`, `0 → 2`.  Returns the address of
the graph. -/
def buildTriangle : M Nat Nat Addr := do
  let d ← NewGraph
  let a ← addNode d 10
  let b ← addNode d 11
  let c ← addNode d 12
  let _ ← addEdge d a b 101
  let _ ← addEdge d b c 112
  let _ ← addEdge d a c 102
  pure d

/-- All loops visit their map in storage order. -/
def storageOrder : SortOrder Nat :=
  { clone := { nodes := IterOrder.storage _, edges := IterOrder.storage _,
               built := IterOrder.storage _ },
    seed := IterOrder.storage _,
    out := fun _ => IterOrder.storage _ }

/-! ### Vocabulary for the frame argument -/

/-- Every address stored in the cell is at least `base`. -/
def Cell.ptrsOK (base : Nat) : Cell N E → Prop
  | .graph g => base ≤ g.nodes ∧ base ≤ g.edges
  | .nodeMap m => ∀ p ∈ m, base ≤ p.2
  | .edgeMap _ => True
  | .adjMap _ => True
  | .node n => base ≤ n.IncomingConnections ∧ base ≤ n.OutgoingConnections

/-- The part of the heap from `base` on exists and refers only to itself. -/
def Closed (base : Nat) (h : Heap N E) : Prop :=
  base ≤ h.length ∧ ∀ a c, base ≤ a → h[a]? = some c → c.ptrsOK base

/-- Heap `h2` agrees with heap `h` at every address below `base`. -/
def Frame (base : Nat) (h h2 : Heap N E) : Prop := ∀ a, a < base → h2[a]? = h[a]?

/-- Computation `m` writes only at or above `base`, keeps that part of the heap
closed, and returns a value satisfying `P`. -/
def Keeps {α : Type} (base : Nat) (m : M N E α) (P : α → Prop) : Prop :=
  ∀ h a h2, Closed base h → m h = .ret (a, h2) → Closed base h2 ∧ Frame base h h2 ∧ P a

/-- Computation `m` does not change the heap. -/
def ReadOnly {α : Type} (m : M N E α) : Prop :=
  ∀ h a h2, m h = .ret (a, h2) → h2 = h

/-- The heap a computation leaves behind (the heap itself if it aborts). -/
def heapAfter {α : Type} (m : M N E α) (h : Heap N E) : Heap N E :=
  match m h with
  | .ret (_, h2) => h2
  | .abort _ => h

/-- The heap holding the triangle; the graph is at address 2. -/
def triangleHeap : Heap Nat Nat := heapAfter buildTriangle []

/-- The heap holding the triangle with the back edge `2 → 0` added. -/
def cycleHeap : Heap Nat Nat := heapAfter (addEdge 2 2 0 120) triangleHeap

end Ptr

/-! ## Lemmas on association-list maps -/

section MapLemmas

variable {K V : Type} [DecidableEq K]

@[simp] theorem mget_nil (k : K) : mget ([] : List (K × V)) k = none := rfl

theorem mget_cons (a : K) (v : V) (r : List (K × V)) (k : K) :
    mget ((a, v) :: r) k = if a = k then some v else mget r k := rfl

@[simp] theorem mdel_nil (k : K) : mdel ([] : List (K × V)) k = [] := rfl

theorem mdel_cons (a : K) (v : V) (r : List (K × V)) (k : K) :
    mdel ((a, v) :: r) k = if a = k then mdel r k else (a, v) :: mdel r k := by
  by_cases h : a = k <;> simp [mdel, List.filter_cons, h]

theorem mget_mdel (m : List (K × V)) (k k' : K) :
    mget (mdel m k) k' = if k = k' then none else mget m k' := by
  induction m with
  | nil => simp
  | cons p r ih =>
    obtain ⟨a, v⟩ := p
    rw [mdel_cons]
    by_cases h : a = k
    · subst h
      by_cases h2 : a = k'
      · subst h2; simp [ih]
      · simp [ih, h2, mget_cons]
    · by_cases h2 : k = k'
      · subst h2; simp [h, mget_cons, ih]
      · simp [h, mget_cons, ih, h2]

theorem mget_mset (m : List (K × V)) (k : K) (v : V) (k' : K) :
    mget (mset m k v) k' = if k = k' then some v else mget m k' := by
  by_cases h : k = k' <;> simp [mset, mget_cons, mget_mdel, h]

theorem mget_mmod (m : List (K × V)) (k : K) (f : V → V) (k' : K) :
    mget (mmod m k f) k' = if k = k' then (mget m k').map f else mget m k' := by
  induction m with
  | nil => simp [mmod]
  | cons p r ih =>
    obtain ⟨a, v⟩ := p
    have hc : mmod ((a, v) :: r) k f = (if a = k then (a, f v) else (a, v)) :: mmod r k f := by
      simp [mmod]
    rw [hc]
    by_cases h : a = k
    · subst h
      by_cases h2 : a = k'
      · subst h2; simp [mget_cons]
      · simp [mget_cons, ih, h2]
    · by_cases h2 : k = k'
      · subst h2; simp [mget_cons, ih, h]
      · simp [mget_cons, ih, h, h2]

@[simp] theorem mkeys_mmod (m : List (K × V)) (k : K) (f : V → V) :
    mkeys (mmod m k f) = mkeys m := by
  induction m with
  | nil => rfl
  | cons p r ih =>
    simp only [mkeys, mmod, List.map_cons, List.map_map] at ih ⊢
    refine congrArg₂ _ ?_ ih
    by_cases h : p.1 = k <;> simp [h]

@[simp] theorem length_mmod (m : List (K × V)) (k : K) (f : V → V) :
    (mmod m k f).length = m.length := by
  simp [mmod]

theorem mem_mkeys_iff (m : List (K × V)) (k : K) :
    k ∈ mkeys m ↔ (mget m k).isSome = true := by
  induction m with
  | nil => simp [mkeys]
  | cons p r ih =>
    obtain ⟨a, v⟩ := p
    have hk : mkeys ((a, v) :: r) = a :: mkeys r := rfl
    rw [hk, List.mem_cons, mget_cons, ih]
    by_cases h : a = k
    · simp [h]
    · have h2 : ¬ k = a := fun e => h e.symm
      simp [h, h2]

theorem mget_none_iff (m : List (K × V)) (k : K) :
    mget m k = none ↔ k ∉ mkeys m := by
  rw [mem_mkeys_iff]
  cases mget m k <;> simp

theorem mkeys_mdel_sublist (m : List (K × V)) (k : K) :
    (mkeys (mdel m k)).Sublist (mkeys m) :=
  List.Sublist.map _ (List.filter_sublist m)

theorem nodup_mdel {m : List (K × V)} (h : (mkeys m).Nodup) (k : K) :
    (mkeys (mdel m k)).Nodup :=
  h.sublist (mkeys_mdel_sublist m k)

theorem nodup_mset {m : List (K × V)} (h : (mkeys m).Nodup) (k : K) (v : V) :
    (mkeys (mset m k v)).Nodup := by
  have hk : mkeys (mset m k v) = k :: mkeys (mdel m k) := rfl
  rw [hk, List.nodup_cons]
  refine ⟨?_, nodup_mdel h k⟩
  rw [← mget_none_iff, mget_mdel]
  simp

theorem mem_iff_mget {m : List (K × V)} (h : (mkeys m).Nodup) (k : K) (v : V) :
    (k, v) ∈ m ↔ mget m k = some v := by
  induction m with
  | nil => simp
  | cons p r ih =>
    obtain ⟨a, w⟩ := p
    have hk : mkeys ((a, w) :: r) = a :: mkeys r := rfl
    rw [hk, List.nodup_cons] at h
    rw [List.mem_cons, mget_cons, ih h.2]
    by_cases ha : a = k
    · subst ha
      have hn : mget r a = none := (mget_none_iff r a).2 h.1
      simp [hn]
      constructor
      · intro e; exact e.symm
      · intro e; exact e.symm
    · have h2 : ¬ k = a := fun e => ha e.symm
      simp [ha, h2]

theorem mget_of_mem {m : List (K × V)} (h : (mkeys m).Nodup) {k : K} {v : V}
    (hm : (k, v) ∈ m) : mget m k = some v :=
  (mem_iff_mget h k v).1 hm

theorem mdel_eq_self {m : List (K × V)} {k : K} (h : mget m k = none) : mdel m k = m := by
  rw [mget_none_iff] at h
  unfold mdel
  rw [List.filter_eq_self]
  intro p hp
  have : p.1 ∈ mkeys m := List.mem_map_of_mem _ hp
  have hne : p.1 ≠ k := fun e => h (e ▸ this)
  simp [hne]

theorem mmod_eq_self {m : List (K × V)} {k : K} {f : V → V}
    (h : ∀ p ∈ m, p.1 = k → f p.2 = p.2) : mmod m k f = m := by
  unfold mmod
  conv_rhs => rw [← List.map_id m]
  apply List.map_congr_left
  intro p hp
  by_cases hk : p.1 = k
  · simp [hk, h p hp hk]
    rw [← hk]
  · simp [hk]

theorem length_eq_zero_iff_mget (m : List (K × V)) :
    m.length = 0 ↔ ∀ k, mget m k = none := by
  cases m with
  | nil => simp
  | cons p r =>
    obtain ⟨a, v⟩ := p
    simp only [List.length_cons, Nat.succ_ne_zero, false_iff]
    intro h
    have := h a
    simp [mget_cons] at this

theorem length_mset_of_none {m : List (K × V)} {k : K} (h : mget m k = none) (v : V) :
    (mset m k v).length = m.length + 1 := by
  simp [mset, mdel_eq_self h]

end MapLemmas

/-! ## Effect of the operations on the views -/

section OpLemmas

theorem mget_mmod_mmod {K V : Type} [DecidableEq K] (m : List (K × V)) (f t k : K)
    (F1 F2 : V → V) :
    mget (mmod (mmod m f F1) t F2) k =
      (mget m k).map (fun n => (if t = k then F2 else id) ((if f = k then F1 else id) n)) := by
  rw [mget_mmod, mget_mmod]
  by_cases h1 : f = k <;> by_cases h2 : t = k <;> cases mget m k <;> simp [h1, h2]

theorem getNode_addNode (g : Graph N E) (n : N) (k : NodeId) :
    getNode (addNode g n).1 k =
      if g.nodeIdIncr = k then
        some { id := g.nodeIdIncr, Data := n, IncomingConnections := [],
               OutgoingConnections := [] }
      else getNode g k := by
  simp [getNode, addNode, mget_mset]

theorem addEdge_eq_of_ok {g : Graph N E} {f t : NodeId} (v : E)
    (hf : (getNode g f).isSome = true) (ht : (getNode g t).isSome = true)
    (he : getEdge g f t = none) :
    addEdge g f t v =
      ({ g with
          nodes := mmod (mmod g.nodes f
            (fun n => { n with OutgoingConnections := mset n.OutgoingConnections t ⟨⟨f, t⟩, v⟩ }))
            t (fun n => { n with IncomingConnections := mset n.IncomingConnections f ⟨⟨f, t⟩, v⟩ }),
          edges := mset g.edges ⟨f, t⟩ ⟨⟨f, t⟩, v⟩ }, ⟨f, t⟩, none) := by
  obtain ⟨nf, hnf⟩ := Option.isSome_iff_exists.1 hf
  obtain ⟨nt, hnt⟩ := Option.isSome_iff_exists.1 ht
  unfold getEdge at he
  unfold addEdge
  rw [hnf, hnt]
  simp [he]

theorem addEdge_eq_of_not_ok {g : Graph N E} {f t : NodeId} (v : E)
    (h : ¬ ((getNode g f).isSome = true ∧ (getNode g t).isSome = true ∧ getEdge g f t = none)) :
    (addEdge g f t v).1 = g ∧ (addEdge g f t v).2.2 ≠ none := by
  unfold addEdge
  cases hnf : getNode g f with
  | none => simp
  | some nf =>
    cases hnt : getNode g t with
    | none => simp
    | some nt =>
      cases he : mget g.edges ⟨f, t⟩ with
      | none => exact absurd ⟨by simp [hnf], by simp [hnt], he⟩ h
      | some e => simp [he]

theorem removeEdge_eq_of_ok {g : Graph N E} {f t : NodeId}
    (hf : (getNode g f).isSome = true) (ht : (getNode g t).isSome = true) :
    removeEdge g f t =
      ({ g with
          nodes := mmod (mmod g.nodes f
            (fun n => { n with OutgoingConnections := mdel n.OutgoingConnections t }))
            t (fun n => { n with IncomingConnections := mdel n.IncomingConnections f }),
          edges := mdel g.edges ⟨f, t⟩ }, none) := by
  obtain ⟨nf, hnf⟩ := Option.isSome_iff_exists.1 hf
  obtain ⟨nt, hnt⟩ := Option.isSome_iff_exists.1 ht
  unfold removeEdge
  rw [hnf, hnt]

theorem removeEdge_eq_of_not_ok {g : Graph N E} {f t : NodeId}
    (h : ¬ ((getNode g f).isSome = true ∧ (getNode g t).isSome = true)) :
    (removeEdge g f t).1 = g ∧ (removeEdge g f t).2 ≠ none := by
  unfold removeEdge
  cases hnf : getNode g f with
  | none => simp
  | some nf =>
    cases hnt : getNode g t with
    | none => simp
    | some nt => exact absurd ⟨by simp [hnf], by simp [hnt]⟩ h

theorem addEdge_eq_of_present {g : Graph N E} {f t : NodeId} (v : E)
    (hf : (getNode g f).isSome = true) (ht : (getNode g t).isSome = true)
    (he : (getEdge g f t).isSome = true) :
    (addEdge g f t v).2.2 = some (.edgeAlreadyExists f t) := by
  obtain ⟨nf, hnf⟩ := Option.isSome_iff_exists.1 hf
  obtain ⟨nt, hnt⟩ := Option.isSome_iff_exists.1 ht
  unfold getEdge at he
  unfold addEdge
  rw [hnf, hnt]
  simp [he]

/-- The node records after a successful `addEdge`. -/
theorem getNode_addEdge {g : Graph N E} {f t : NodeId} (v : E)
    (hf : (getNode g f).isSome = true) (ht : (getNode g t).isSome = true)
    (he : getEdge g f t = none) (k : NodeId) :
    getNode (addEdge g f t v).1 k =
      (getNode g k).map (fun n =>
        { id := n.id, Data := n.Data,
          IncomingConnections :=
            if t = k then mset n.IncomingConnections f ⟨⟨f, t⟩, v⟩ else n.IncomingConnections,
          OutgoingConnections :=
            if f = k then mset n.OutgoingConnections t ⟨⟨f, t⟩, v⟩ else n.OutgoingConnections }) := by
  rw [addEdge_eq_of_ok v hf ht he]
  simp only [getNode]
  rw [mget_mmod_mmod]
  congr 1
  funext n
  by_cases h1 : f = k <;> by_cases h2 : t = k <;> simp [h1, h2]

/-- The node records after a successful `removeEdge`. -/
theorem getNode_removeEdge {g : Graph N E} {f t : NodeId}
    (hf : (getNode g f).isSome = true) (ht : (getNode g t).isSome = true) (k : NodeId) :
    getNode (removeEdge g f t).1 k =
      (getNode g k).map (fun n =>
        { id := n.id, Data := n.Data,
          IncomingConnections :=
            if t = k then mdel n.IncomingConnections f else n.IncomingConnections,
          OutgoingConnections :=
            if f = k then mdel n.OutgoingConnections t else n.OutgoingConnections }) := by
  rw [removeEdge_eq_of_ok hf ht]
  simp only [getNode]
  rw [mget_mmod_mmod]
  congr 1
  funext n
  by_cases h1 : f = k <;> by_cases h2 : t = k <;> simp [h1, h2]

theorem getEdge_addEdge {g : Graph N E} {f t : NodeId} (v : E)
    (hf : (getNode g f).isSome = true) (ht : (getNode g t).isSome = true)
    (he : getEdge g f t = none) (a b : NodeId) :
    getEdge (addEdge g f t v).1 a b =
      if a = f ∧ b = t then some ⟨⟨f, t⟩, v⟩ else getEdge g a b := by
  rw [addEdge_eq_of_ok v hf ht he]
  simp only [getEdge, mget_mset]
  by_cases h : a = f ∧ b = t
  · obtain ⟨rfl, rfl⟩ := h; simp
  · have : ¬ (({ From := f, To := t } : EdgeId) = ⟨a, b⟩) := by
      intro e; injection e with e1 e2; exact h ⟨e1.symm, e2.symm⟩
    simp [h, this]

theorem getEdge_removeEdge {g : Graph N E} {f t : NodeId}
    (hf : (getNode g f).isSome = true) (ht : (getNode g t).isSome = true) (a b : NodeId) :
    getEdge (removeEdge g f t).1 a b = if a = f ∧ b = t then none else getEdge g a b := by
  rw [removeEdge_eq_of_ok hf ht]
  simp only [getEdge, mget_mdel]
  by_cases h : a = f ∧ b = t
  · obtain ⟨rfl, rfl⟩ := h; simp
  · have : ¬ (({ From := f, To := t } : EdgeId) = ⟨a, b⟩) := by
      intro e; injection e with e1 e2; exact h ⟨e1.symm, e2.symm⟩
    simp [h, this]

theorem outE_addEdge {g : Graph N E} {f t : NodeId} (v : E)
    (hf : (getNode g f).isSome = true) (ht : (getNode g t).isSome = true)
    (he : getEdge g f t = none) (a b : NodeId) :
    outE (addEdge g f t v).1 a b =
      if a = f ∧ b = t then some ⟨⟨f, t⟩, v⟩ else outE g a b := by
  unfold outE
  rw [getNode_addEdge v hf ht he]
  by_cases h1 : a = f
  · subst h1
    obtain ⟨nf, hnf⟩ := Option.isSome_iff_exists.1 hf
    by_cases h2 : b = t
    · subst h2; simp [hnf, mget_mset]
    · have h3 : ¬ t = b := fun e => h2 e.symm
      simp [hnf, mget_mset, h2, h3]
  · have h3 : ¬ f = a := fun e => h1 e.symm
    cases getNode g a <;> simp [h1, h3]

theorem inE_addEdge {g : Graph N E} {f t : NodeId} (v : E)
    (hf : (getNode g f).isSome = true) (ht : (getNode g t).isSome = true)
    (he : getEdge g f t = none) (a b : NodeId) :
    inE (addEdge g f t v).1 b a =
      if a = f ∧ b = t then some ⟨⟨f, t⟩, v⟩ else inE g b a := by
  unfold inE
  rw [getNode_addEdge v hf ht he]
  by_cases h1 : b = t
  · subst h1
    obtain ⟨nt, hnt⟩ := Option.isSome_iff_exists.1 ht
    by_cases h2 : a = f
    · subst h2; simp [hnt, mget_mset]
    · have h3 : ¬ f = a := fun e => h2 e.symm
      simp [hnt, mget_mset, h2, h3]
  · have h3 : ¬ t = b := fun e => h1 e.symm
    cases getNode g b <;> simp [h1, h3]

theorem outE_removeEdge {g : Graph N E} {f t : NodeId}
    (hf : (getNode g f).isSome = true) (ht : (getNode g t).isSome = true) (a b : NodeId) :
    outE (removeEdge g f t).1 a b = if a = f ∧ b = t then none else outE g a b := by
  unfold outE
  rw [getNode_removeEdge hf ht]
  by_cases h1 : a = f
  · subst h1
    by_cases h2 : b = t
    · subst h2; cases getNode g a <;> simp [mget_mdel]
    · have h3 : ¬ t = b := fun e => h2 e.symm
      cases getNode g a <;> simp [mget_mdel, h2, h3]
  · have h3 : ¬ f = a := fun e => h1 e.symm
    cases getNode g a <;> simp [h1, h3]

theorem inE_removeEdge {g : Graph N E} {f t : NodeId}
    (hf : (getNode g f).isSome = true) (ht : (getNode g t).isSome = true) (a b : NodeId) :
    inE (removeEdge g f t).1 b a = if a = f ∧ b = t then none else inE g b a := by
  unfold inE
  rw [getNode_removeEdge hf ht]
  by_cases h1 : b = t
  · subst h1
    by_cases h2 : a = f
    · subst h2; cases getNode g b <;> simp [mget_mdel]
    · have h3 : ¬ f = a := fun e => h2 e.symm
      cases getNode g b <;> simp [mget_mdel, h2, h3]
  · have h3 : ¬ t = b := fun e => h1 e.symm
    cases getNode g b <;> simp [h1, h3]

end OpLemmas

/-! ## The representation invariant is preserved -/

section WFLemmas

theorem wf_newGraph : WF (NewGraph : Graph N E) where
  nodesNodup := List.nodup_nil
  edgesNodup := List.nodup_nil
  inNodup := by intro k n h; simp [getNode, NewGraph] at h
  outNodup := by intro k n h; simp [getNode, NewGraph] at h
  nodeId := by intro k n h; simp [getNode, NewGraph] at h
  edgeId := by intro f t e h; simp [getEdge, NewGraph] at h
  outView := by intro f t; simp [outE, getNode, getEdge, NewGraph]
  inView := by intro f t; simp [inE, getNode, getEdge, NewGraph]
  fresh := by intro k h; simp [getNode, NewGraph] at h
  incrNonneg := by simp [NewGraph]

theorem WF.getNode_incr {g : Graph N E} (h : WF g) : getNode g g.nodeIdIncr = none := by
  cases hn : getNode g g.nodeIdIncr with
  | none => rfl
  | some n =>
    have := (h.fresh g.nodeIdIncr (by simp [hn])).2
    exact absurd this (lt_irrefl _)

theorem wf_addNode {g : Graph N E} (h : WF g) (n : N) : WF (addNode g n).1 where
  nodesNodup := nodup_mset h.nodesNodup _ _
  edgesNodup := h.edgesNodup
  inNodup := by
    intro k m hm
    rw [getNode_addNode] at hm
    split at hm
    · cases hm; exact List.nodup_nil
    · exact h.inNodup k m hm
  outNodup := by
    intro k m hm
    rw [getNode_addNode] at hm
    split at hm
    · cases hm; exact List.nodup_nil
    · exact h.outNodup k m hm
  nodeId := by
    intro k m hm
    rw [getNode_addNode] at hm
    split at hm
    · cases hm; assumption
    · exact h.nodeId k m hm
  edgeId := h.edgeId
  outView := by
    intro f t
    have hv := h.outView f t
    unfold outE at hv ⊢
    rw [getNode_addNode]
    split
    · rename_i hk
      subst hk
      rw [h.getNode_incr] at hv
      simpa using hv
    · exact hv
  inView := by
    intro f t
    have hv := h.inView f t
    unfold inE at hv ⊢
    rw [getNode_addNode]
    split
    · rename_i hk
      subst hk
      rw [h.getNode_incr] at hv
      simpa using hv
    · exact hv
  fresh := by
    intro k hk
    rw [getNode_addNode] at hk
    have h0 := h.incrNonneg
    show 0 ≤ k ∧ k < g.nodeIdIncr + 1
    split at hk
    · rename_i e; subst e; omega
    · have := h.fresh k hk; omega
  incrNonneg := by
    have h0 := h.incrNonneg
    show 0 ≤ g.nodeIdIncr + 1
    omega

theorem wf_addEdge {g : Graph N E} (h : WF g) (f t : NodeId) (v : E) :
    WF (addEdge g f t v).1 := by
  by_cases hok : (getNode g f).isSome = true ∧ (getNode g t).isSome = true ∧ getEdge g f t = none
  · obtain ⟨hf, ht, he⟩ := hok
    have hN := getNode_addEdge v hf ht he
    have hE := getEdge_addEdge v hf ht he
    have hO := outE_addEdge v hf ht he
    have hI := inE_addEdge v hf ht he
    have heq := addEdge_eq_of_ok v hf ht he
    refine ⟨?_, ?_, ?_, ?_, ?_, ?_, ?_, ?_, ?_, ?_⟩
    · rw [heq]; simpa using h.nodesNodup
    · rw [heq]; exact nodup_mset h.edgesNodup _ _
    · intro k m hm
      rw [hN, Option.map_eq_some'] at hm
      obtain ⟨n0, hn0, rfl⟩ := hm
      have := h.inNodup k n0 hn0
      dsimp only
      split
      · exact nodup_mset this _ _
      · exact this
    · intro k m hm
      rw [hN, Option.map_eq_some'] at hm
      obtain ⟨n0, hn0, rfl⟩ := hm
      have := h.outNodup k n0 hn0
      dsimp only
      split
      · exact nodup_mset this _ _
      · exact this
    · intro k m hm
      rw [hN, Option.map_eq_some'] at hm
      obtain ⟨n0, hn0, rfl⟩ := hm
      exact h.nodeId k n0 hn0
    · intro a b e hab
      rw [hE] at hab
      split at hab
      · rename_i hc
        obtain ⟨rfl, rfl⟩ := hc
        cases hab; rfl
      · exact h.edgeId a b e hab
    · intro a b
      rw [hO, hE, h.outView]
    · intro a b
      rw [hI, hE, h.inView]
    · intro k hk
      rw [hN] at hk
      have : (getNode g k).isSome = true := by simpa using hk
      rw [heq]
      exact h.fresh k this
    · rw [heq]; exact h.incrNonneg
  · rw [(addEdge_eq_of_not_ok v hok).1]; exact h

theorem wf_removeEdge {g : Graph N E} (h : WF g) (f t : NodeId) :
    WF (removeEdge g f t).1 := by
  by_cases hok : (getNode g f).isSome = true ∧ (getNode g t).isSome = true
  · obtain ⟨hf, ht⟩ := hok
    have hN := getNode_removeEdge (g := g) hf ht
    have hE := getEdge_removeEdge (g := g) hf ht
    have hO := outE_removeEdge (g := g) hf ht
    have hI := inE_removeEdge (g := g) hf ht
    have heq := removeEdge_eq_of_ok (g := g) hf ht
    refine ⟨?_, ?_, ?_, ?_, ?_, ?_, ?_, ?_, ?_, ?_⟩
    · rw [heq]; simpa using h.nodesNodup
    · rw [heq]; exact nodup_mdel h.edgesNodup _
    · intro k m hm
      rw [hN, Option.map_eq_some'] at hm
      obtain ⟨n0, hn0, rfl⟩ := hm
      have := h.inNodup k n0 hn0
      dsimp only
      split
      · exact nodup_mdel this _
      · exact this
    · intro k m hm
      rw [hN, Option.map_eq_some'] at hm
      obtain ⟨n0, hn0, rfl⟩ := hm
      have := h.outNodup k n0 hn0
      dsimp only
      split
      · exact nodup_mdel this _
      · exact this
    · intro k m hm
      rw [hN, Option.map_eq_some'] at hm
      obtain ⟨n0, hn0, rfl⟩ := hm
      exact h.nodeId k n0 hn0
    · intro a b e hab
      rw [hE] at hab
      split at hab
      · cases hab
      · exact h.edgeId a b e hab
    · intro a b
      rw [hO, hE, h.outView]
    · intro a b
      rw [hI, hE, h.inView]
    · intro k hk
      rw [hN] at hk
      have : (getNode g k).isSome = true := by simpa using hk
      rw [heq]
      exact h.fresh k this
    · rw [heq]; exact h.incrNonneg
  · rw [(removeEdge_eq_of_not_ok hok).1]; exact h

theorem SameNodes.refl (g : Graph N E) : SameNodes g g := ⟨fun _ => rfl, rfl, rfl⟩

theorem SameNodes.trans {g1 g2 g3 : Graph N E} (h12 : SameNodes g1 g2) (h23 : SameNodes g2 g3) :
    SameNodes g1 g3 :=
  ⟨fun k => (h23.data k).trans (h12.data k), h23.keys.trans h12.keys, h23.incr.trans h12.incr⟩

theorem SameNodes.isSome {g g' : Graph N E} (h : SameNodes g g') (k : NodeId) :
    (getNode g' k).isSome = (getNode g k).isSome := by
  have := congrArg Option.isSome (h.data k)
  simpa using this

theorem SameNodes.length {g g' : Graph N E} (h : SameNodes g g') :
    g'.nodes.length = g.nodes.length := by
  have := congrArg List.length h.keys
  simpa [mkeys] using this

theorem removeEdge_sameNodes (g : Graph N E) (f t : NodeId) :
    SameNodes g (removeEdge g f t).1 := by
  by_cases hok : (getNode g f).isSome = true ∧ (getNode g t).isSome = true
  · obtain ⟨hf, ht⟩ := hok
    refine ⟨?_, ?_, ?_⟩
    · intro k
      rw [getNode_removeEdge hf ht]
      cases getNode g k <;> simp
    · rw [removeEdge_eq_of_ok hf ht]; simp
    · rw [removeEdge_eq_of_ok hf ht]
  · rw [(removeEdge_eq_of_not_ok hok).1]; exact SameNodes.refl g

theorem addEdge_sameNodes (g : Graph N E) (f t : NodeId) (v : E) :
    SameNodes g (addEdge g f t v).1 := by
  by_cases hok : (getNode g f).isSome = true ∧ (getNode g t).isSome = true ∧ getEdge g f t = none
  · obtain ⟨hf, ht, he⟩ := hok
    refine ⟨?_, ?_, ?_⟩
    · intro k
      rw [getNode_addEdge v hf ht he]
      cases getNode g k <;> simp
    · rw [addEdge_eq_of_ok v hf ht he]; simp
    · rw [addEdge_eq_of_ok v hf ht he]
  · rw [(addEdge_eq_of_not_ok v hok).1]; exact SameNodes.refl g

/-- In a well-formed graph both endpoints of an edge are nodes. -/
theorem WF.endpoints {g : Graph N E} (h : WF g) {a b : NodeId}
    (he : (getEdge g a b).isSome = true) :
    (getNode g a).isSome = true ∧ (getNode g b).isSome = true := by
  constructor
  · rw [← h.outView] at he
    unfold outE at he
    cases hn : getNode g a with
    | none => rw [hn] at he; simp at he
    | some n => rfl
  · rw [← h.inView] at he
    unfold inE at he
    cases hn : getNode g b with
    | none => rw [hn] at he; simp at he
    | some n => rfl

theorem getEdge_removeEdge_wf {g : Graph N E} (h : WF g) (f t a b : NodeId) :
    getEdge (removeEdge g f t).1 a b = if a = f ∧ b = t then none else getEdge g a b := by
  by_cases hok : (getNode g f).isSome = true ∧ (getNode g t).isSome = true
  · exact getEdge_removeEdge hok.1 hok.2 a b
  · rw [(removeEdge_eq_of_not_ok hok).1]
    split
    · rename_i hc
      obtain ⟨rfl, rfl⟩ := hc
      cases he : getEdge g a b with
      | none => rfl
      | some e => exact absurd (h.endpoints (by simp [he])) hok
    · rfl

theorem removeNodeLoop_spec (id : NodeId) (L : List EdgeId) :
    ∀ d : Graph N E, WF d →
      (∀ k ∈ L, (getNode d k.From).isSome = true ∧ (getNode d k.To).isSome = true) →
      (removeNodeLoop id L d).2 = none ∧ WF (removeNodeLoop id L d).1 ∧
      SameNodes d (removeNodeLoop id L d).1 ∧
      (removeNodeLoop id L d).1.edges.length ≤ d.edges.length ∧
      ∀ a b, getEdge (removeNodeLoop id L d).1 a b =
        if (⟨a, b⟩ : EdgeId) ∈ L ∧ (a = id ∨ b = id) then none else getEdge d a b := by
  induction L with
  | nil =>
    intro d hd _
    exact ⟨rfl, hd, SameNodes.refl d, le_refl _, by intro a b; simp [removeNodeLoop]⟩
  | cons e rest ih =>
    intro d hd hL
    have hrest : ∀ k ∈ rest, (getNode d k.From).isSome = true ∧ (getNode d k.To).isSome = true :=
      fun k hk => hL k (List.mem_cons_of_mem _ hk)
    by_cases hc : e.From = id ∨ e.To = id
    · have hends := hL e (List.mem_cons_self _ _)
      have heq := removeEdge_eq_of_ok hends.1 hends.2
      have hsn := removeEdge_sameNodes d e.From e.To
      have hwf := wf_removeEdge hd e.From e.To
      have hlen : (removeEdge d e.From e.To).1.edges.length ≤ d.edges.length := by
        rw [heq]; exact List.length_filter_le _ _
      have hstep : removeNodeLoop id (e :: rest) d
          = removeNodeLoop id rest (removeEdge d e.From e.To).1 := by
        conv_lhs => unfold removeNodeLoop
        rw [if_pos hc, heq]
      rw [hstep]
      obtain ⟨h1, h2, h3, h5, h4⟩ := ih (removeEdge d e.From e.To).1 hwf
        (fun k hk => by rw [hsn.isSome, hsn.isSome]; exact hrest k hk)
      refine ⟨h1, h2, hsn.trans h3, le_trans h5 hlen, ?_⟩
      intro a b
      rw [h4, getEdge_removeEdge_wf hd]
      by_cases hab : (⟨a, b⟩ : EdgeId) = e
      · subst hab
        simp only [List.mem_cons, true_or, true_and, and_self, if_true]
        have hc2 : a = id ∨ b = id := hc
        simp [hc2]
      · have hne : ¬ (a = e.From ∧ b = e.To) := by
          intro hh; apply hab; cases e; simp_all
        simp [hab, hne]
    · have hstep : removeNodeLoop id (e :: rest) d = removeNodeLoop id rest d := by
        conv_lhs => unfold removeNodeLoop
        rw [if_neg hc]
      rw [hstep]
      obtain ⟨h1, h2, h3, h5, h4⟩ := ih d hd hrest
      refine ⟨h1, h2, h3, h5, ?_⟩
      intro a b
      rw [h4]
      by_cases hab : (⟨a, b⟩ : EdgeId) = e
      · subst hab
        have hc2 : ¬ (a = id ∨ b = id) := hc
        simp [hc2]
      · simp [hab]

/-- The edge keys visited by the loop of `removeNode` have both endpoints in the graph. -/
theorem WF.iter_endpoints {g : Graph N E} (h : WF g) (ord : IterOrder (EdgeId × Edge E)) :
    ∀ k ∈ mkeys (ord.apply g.edges),
      (getNode g k.From).isSome = true ∧ (getNode g k.To).isSome = true := by
  intro k hk
  have hk2 : k ∈ mkeys g.edges := by
    unfold mkeys at hk ⊢
    exact ((ord.perm g.edges).map Prod.fst).mem_iff.1 hk
  rw [mem_mkeys_iff] at hk2
  exact h.endpoints hk2

theorem removeNode_eq_of_present {g : Graph N E} (h : WF g) (ord : IterOrder (EdgeId × Edge E))
    {id : NodeId} (hid : (getNode g id).isSome = true) :
    removeNode ord g id =
      ({ (removeNodeLoop id (mkeys (ord.apply g.edges)) g).1 with
          nodes := mdel (removeNodeLoop id (mkeys (ord.apply g.edges)) g).1.nodes id }, none) := by
  obtain ⟨n, hn⟩ := Option.isSome_iff_exists.1 hid
  have hspec := removeNodeLoop_spec id (mkeys (ord.apply g.edges)) g h (h.iter_endpoints ord)
  unfold removeNode
  rw [hn]
  dsimp only
  have : removeNodeLoop id (mkeys (ord.apply g.edges)) g
      = ((removeNodeLoop id (mkeys (ord.apply g.edges)) g).1, none) := by
    rw [← hspec.1]
  rw [this]

theorem removeNode_eq_of_absent (ord : IterOrder (EdgeId × Edge E)) {g : Graph N E}
    {id : NodeId} (hid : getNode g id = none) :
    removeNode ord g id = (g, some (.nodeNotFoundToRemove id)) := by
  unfold removeNode
  rw [hid]

/-- The edge collection after a successful `removeNode`. -/
theorem getEdge_removeNode {g : Graph N E} (h : WF g) (ord : IterOrder (EdgeId × Edge E))
    {id : NodeId} (hid : (getNode g id).isSome = true) (a b : NodeId) :
    getEdge (removeNode ord g id).1 a b = if a = id ∨ b = id then none else getEdge g a b := by
  rw [removeNode_eq_of_present h ord hid]
  have hspec := removeNodeLoop_spec id (mkeys (ord.apply g.edges)) g h (h.iter_endpoints ord)
  have := hspec.2.2.2.2 a b
  unfold getEdge at this ⊢
  dsimp only
  rw [this]
  by_cases hc : a = id ∨ b = id
  · simp only [hc, and_true, if_true]
    split
    · rfl
    · rename_i hnm
      have hk2 : (⟨a, b⟩ : EdgeId) ∉ mkeys g.edges := by
        intro hm
        apply hnm
        unfold mkeys at hm ⊢
        exact ((ord.perm g.edges).map Prod.fst).mem_iff.2 hm
      exact ((mget_none_iff _ _).2 hk2)
  · simp [hc]

/-- The node records after a successful `removeNode`. -/
theorem getNode_removeNode {g : Graph N E} (h : WF g) (ord : IterOrder (EdgeId × Edge E))
    {id : NodeId} (hid : (getNode g id).isSome = true) (k : NodeId) :
    getNode (removeNode ord g id).1 k =
      if id = k then none
      else getNode (removeNodeLoop id (mkeys (ord.apply g.edges)) g).1 k := by
  rw [removeNode_eq_of_present h ord hid]
  simp only [getNode, mget_mdel]

theorem wf_removeNode {g : Graph N E} (h : WF g) (ord : IterOrder (EdgeId × Edge E))
    (id : NodeId) : WF (removeNode ord g id).1 := by
  cases hn : getNode g id with
  | none => rw [removeNode_eq_of_absent ord hn]; exact h
  | some n =>
    have hid : (getNode g id).isSome = true := by simp [hn]
    have hspec := removeNodeLoop_spec id (mkeys (ord.apply g.edges)) g h (h.iter_endpoints ord)
    obtain ⟨-, hwf, hsn, -, -⟩ := hspec
    have hN := getNode_removeNode h ord hid
    have hE := getEdge_removeNode h ord hid
    have heq := removeNode_eq_of_present h ord hid
    have hsub : ∀ k m, getNode (removeNode ord g id).1 k = some m →
        id ≠ k ∧ getNode (removeNodeLoop id (mkeys (ord.apply g.edges)) g).1 k = some m := by
      intro k m hm
      rw [hN] at hm
      split at hm
      · cases hm
      · rename_i hne; exact ⟨hne, hm⟩
    have hEloop : ∀ a b, getEdge (removeNode ord g id).1 a b
        = getEdge (removeNodeLoop id (mkeys (ord.apply g.edges)) g).1 a b := by
      intro a b; rw [heq]; rfl
    refine ⟨?_, ?_, ?_, ?_, ?_, ?_, ?_, ?_, ?_, ?_⟩
    · rw [heq]; exact nodup_mdel hwf.nodesNodup _
    · rw [heq]; exact hwf.edgesNodup
    · intro k m hm; exact hwf.inNodup k m (hsub k m hm).2
    · intro k m hm; exact hwf.outNodup k m (hsub k m hm).2
    · intro k m hm; exact hwf.nodeId k m (hsub k m hm).2
    · intro a b e hab; rw [hEloop] at hab; exact hwf.edgeId a b e hab
    · intro a b
      unfold outE
      rw [hN]
      by_cases hc : id = a
      · subst hc
        rw [hE]; simp
      · rw [if_neg hc, hEloop, ← hwf.outView]; rfl
    · intro a b
      unfold inE
      rw [hN]
      by_cases hc : id = b
      · subst hc
        rw [hE]; simp
      · rw [if_neg hc, hEloop, ← hwf.inView]; rfl
    · intro k hk
      rw [hN] at hk
      split at hk
      · simp at hk
      · rw [hsn.isSome] at hk
        rw [heq]
        show 0 ≤ k ∧ k < (removeNodeLoop id (mkeys (ord.apply g.edges)) g).1.nodeIdIncr
        rw [hsn.incr]
        exact h.fresh k hk
    · rw [heq]
      show 0 ≤ (removeNodeLoop id (mkeys (ord.apply g.edges)) g).1.nodeIdIncr
      rw [hsn.incr]
      exact h.incrNonneg

/-- Every reachable graph satisfies the representation invariant. -/
theorem Reachable.wf {g : Graph N E} (h : Reachable g) : WF g := by
  induction h with
  | newGraph => exact wf_newGraph
  | addNode n _ ih => exact wf_addNode ih n
  | addEdge f t v _ ih => exact wf_addEdge ih f t v
  | removeEdge f t _ ih => exact wf_removeEdge ih f t
  | removeNode ord id _ ih => exact wf_removeNode ih ord id

end WFLemmas

/-! ## Reachability of the concrete graphs -/

theorem reachable_threeNodes : Reachable threeNodes :=
  Reachable.addNode 12 (Reachable.addNode 11 (Reachable.addNode 10 Reachable.newGraph))

theorem reachable_triangle : Reachable triangle :=
  Reachable.addEdge 0 2 102 (Reachable.addEdge 1 2 112
    (Reachable.addEdge 0 1 101 reachable_threeNodes))

/-! ## Mutating operations: contracts -/

section Contracts

/-- C4: in every reachable graph the three views of an edge agree.  The edge
collection has an entry at `(f, t)` exactly when node `f` exists with an entry
at `t` in its outgoing map, exactly when node `t` exists with an entry at `f`
in its incoming map; the three entries are the same record (same key, same
payload), stored under its own key, and both endpoints are nodes. -/
theorem three_views_agree (g : Graph N E) (hr : Reachable g) (f t : NodeId) :
    ((getEdge g f t).isSome = true ↔
      ∃ n, getNode g f = some n ∧ (mget n.OutgoingConnections t).isSome = true) ∧
    ((getEdge g f t).isSome = true ↔
      ∃ n, getNode g t = some n ∧ (mget n.IncomingConnections f).isSome = true) ∧
    (∀ e, getEdge g f t = some e →
      e.id = ⟨f, t⟩ ∧
      (∃ nf, getNode g f = some nf ∧ mget nf.OutgoingConnections t = some e) ∧
      (∃ nt, getNode g t = some nt ∧ mget nt.IncomingConnections f = some e)) ∧
    (∀ nf e, getNode g f = some nf → mget nf.OutgoingConnections t = some e →
      getEdge g f t = some e) ∧
    (∀ nt e, getNode g t = some nt → mget nt.IncomingConnections f = some e →
      getEdge g f t = some e) := by
  have h := hr.wf
  have hO := h.outView f t
  have hI := h.inView f t
  unfold outE at hO
  unfold inE at hI
  refine ⟨?_, ?_, ?_, ?_, ?_⟩
  · rw [← hO]
    cases getNode g f <;> simp
  · rw [← hI]
    cases getNode g t <;> simp
  · intro e he
    refine ⟨h.edgeId f t e he, ?_, ?_⟩
    · rw [← hO] at he
      cases hn : getNode g f with
      | none => rw [hn] at he; simp at he
      | some n => rw [hn] at he; exact ⟨n, rfl, by simpa using he⟩
    · rw [← hI] at he
      cases hn : getNode g t with
      | none => rw [hn] at he; simp at he
      | some n => rw [hn] at he; exact ⟨n, rfl, by simpa using he⟩
  · intro nf e hn he
    rw [← hO, hn]
    simpa using he
  · intro nt e hn he
    rw [← hI, hn]
    simpa using he

theorem three_views_agree_witness :
    Reachable triangle ∧ (getEdge triangle 0 2).isSome = true ∧
    ∃ n, getNode triangle 0 = some n ∧ (mget n.OutgoingConnections 2).isSome = true :=
  ⟨reachable_triangle, by decide,
    (three_views_agree triangle reachable_triangle 0 2).1.1 (by decide)⟩

/-- C5: `addEdge` fails exactly when an endpoint is not a node or the edge is
already present (with the matching error); otherwise it returns
`EdgeId{from, to}` and afterwards `getEdge(from, to)` is an edge with payload
`v` that is also the entry at `to` of `from`'s outgoing map and the entry at
`from` of `to`'s incoming map. -/
theorem addEdge_contract (g : Graph N E) (f t : NodeId) (v : E) :
    ((addEdge g f t v).2.2 ≠ none ↔
      (getNode g f = none ∨ getNode g t = none ∨ (getEdge g f t).isSome = true)) ∧
    (getNode g f = none → (addEdge g f t v).2.2 = some (.nodeNotFound f)) ∧
    ((getNode g f).isSome = true → getNode g t = none →
      (addEdge g f t v).2.2 = some (.nodeNotFound t)) ∧
    ((getNode g f).isSome = true → (getNode g t).isSome = true →
      (getEdge g f t).isSome = true →
      (addEdge g f t v).2.2 = some (.edgeAlreadyExists f t)) ∧
    ((addEdge g f t v).2.2 = none →
      (addEdge g f t v).2.1 = ⟨f, t⟩ ∧
      ∃ e, getEdge (addEdge g f t v).1 f t = some e ∧ e.Data = v ∧
        (∃ nf, getNode (addEdge g f t v).1 f = some nf ∧
          mget nf.OutgoingConnections t = some e) ∧
        (∃ nt, getNode (addEdge g f t v).1 t = some nt ∧
          mget nt.IncomingConnections f = some e)) := by
  have hsucc : (addEdge g f t v).2.2 = none →
      (getNode g f).isSome = true ∧ (getNode g t).isSome = true ∧ getEdge g f t = none := by
    intro h0
    by_contra hc
    exact (addEdge_eq_of_not_ok v hc).2 h0
  refine ⟨?_, ?_, ?_, ?_, ?_⟩
  · constructor
    · intro hne
      by_contra hc
      apply hne
      have hf : (getNode g f).isSome = true := by
        cases hn : getNode g f with
        | none => exact absurd (Or.inl hn) hc
        | some n => rfl
      have ht : (getNode g t).isSome = true := by
        cases hn : getNode g t with
        | none => exact absurd (Or.inr (Or.inl hn)) hc
        | some n => rfl
      have he : getEdge g f t = none := by
        cases hn : getEdge g f t with
        | none => rfl
        | some e => exact absurd (Or.inr (Or.inr (by simp [hn]))) hc
      rw [addEdge_eq_of_ok v hf ht he]
    · intro hor h0
      obtain ⟨hf, ht, he⟩ := hsucc h0
      rcases hor with h1 | h1 | h1
      · rw [h1] at hf; simp at hf
      · rw [h1] at ht; simp at ht
      · rw [he] at h1; simp at h1
  · intro hf
    unfold addEdge
    rw [hf]
  · intro hf ht
    obtain ⟨nf, hnf⟩ := Option.isSome_iff_exists.1 hf
    unfold addEdge
    rw [hnf, ht]
  · intro hf ht he
    exact addEdge_eq_of_present v hf ht he
  · intro h0
    obtain ⟨hf, ht, he⟩ := hsucc h0
    refine ⟨by rw [addEdge_eq_of_ok v hf ht he], ⟨⟨f, t⟩, v⟩, ?_, rfl, ?_, ?_⟩
    · rw [getEdge_addEdge v hf ht he]; simp
    · have := outE_addEdge v hf ht he f t
      unfold outE at this
      cases hn : getNode (addEdge g f t v).1 f with
      | none => rw [hn] at this; simp at this
      | some n => rw [hn] at this; exact ⟨n, rfl, by simpa using this⟩
    · have := inE_addEdge v hf ht he f t
      unfold inE at this
      cases hn : getNode (addEdge g f t v).1 t with
      | none => rw [hn] at this; simp at this
      | some n => rw [hn] at this; exact ⟨n, rfl, by simpa using this⟩

theorem addEdge_contract_witness :
    (addEdge threeNodes 0 1 7).2.2 = none ∧ (addEdge threeNodes 0 1 7).2.1 = ⟨0, 1⟩ ∧
    ∃ e, getEdge (addEdge threeNodes 0 1 7).1 0 1 = some e ∧ e.Data = 7 ∧
      (∃ nf, getNode (addEdge threeNodes 0 1 7).1 0 = some nf ∧
        mget nf.OutgoingConnections 1 = some e) ∧
      (∃ nt, getNode (addEdge threeNodes 0 1 7).1 1 = some nt ∧
        mget nt.IncomingConnections 0 = some e) :=
  ⟨by decide, (addEdge_contract threeNodes 0 1 7).2.2.2.2 (by decide)⟩

/-- C6: when `addEdge(a, b, v)` succeeds, an immediately following
`addEdge(a, b, v2)` fails with the already-exists error and leaves the whole
graph as it was, the payload `v` of edge `(a, b)` included. -/
theorem addEdge_twice (g : Graph N E) (a b : NodeId) (v v2 : E)
    (h : (addEdge g a b v).2.2 = none) :
    (addEdge (addEdge g a b v).1 a b v2).2.2 = some (.edgeAlreadyExists a b) ∧
    (addEdge (addEdge g a b v).1 a b v2).1 = (addEdge g a b v).1 ∧
    (getEdge (addEdge (addEdge g a b v).1 a b v2).1 a b).map (fun e => e.Data) = some v := by
  have hok : (getNode g a).isSome = true ∧ (getNode g b).isSome = true ∧ getEdge g a b = none := by
    by_contra hc
    exact (addEdge_eq_of_not_ok v hc).2 h
  obtain ⟨hf, ht, he⟩ := hok
  have hsn := addEdge_sameNodes g a b v
  have hf1 : (getNode (addEdge g a b v).1 a).isSome = true := by rw [hsn.isSome]; exact hf
  have ht1 : (getNode (addEdge g a b v).1 b).isSome = true := by rw [hsn.isSome]; exact ht
  have he1 : getEdge (addEdge g a b v).1 a b = some ⟨⟨a, b⟩, v⟩ := by
    rw [getEdge_addEdge v hf ht he]; simp
  have hnot : ¬ ((getNode (addEdge g a b v).1 a).isSome = true ∧
      (getNode (addEdge g a b v).1 b).isSome = true ∧
      getEdge (addEdge g a b v).1 a b = none) := by
    rw [he1]; simp
  have hc := addEdge_eq_of_present v2 hf1 ht1 (by simp [he1])
  have hsame := (addEdge_eq_of_not_ok v2 hnot).1
  refine ⟨hc, hsame, ?_⟩
  rw [hsame, he1]
  rfl

theorem addEdge_twice_witness :
    (addEdge threeNodes 0 1 7).2.2 = none ∧
    (addEdge (addEdge threeNodes 0 1 7).1 0 1 8).2.2 = some (.edgeAlreadyExists 0 1) ∧
    (addEdge (addEdge threeNodes 0 1 7).1 0 1 8).1 = (addEdge threeNodes 0 1 7).1 ∧
    (getEdge (addEdge (addEdge threeNodes 0 1 7).1 0 1 8).1 0 1).map (fun e => e.Data) = some 7 :=
  ⟨by decide, addEdge_twice threeNodes 0 1 7 8 (by decide)⟩

/-- C7: after `removeNode(n)` on a reachable graph that has node `n`,
`getNode(n)` is absent, no key of the edge collection has `n` as source or
destination, and no remaining node has an entry keyed by `n` in its incoming or
outgoing map. -/
theorem removeNode_post (g : Graph N E) (hr : Reachable g) (ord : IterOrder (EdgeId × Edge E))
    (n : NodeId) (hn : (getNode g n).isSome = true) :
    (removeNode ord g n).2 = none ∧
    getNode (removeNode ord g n).1 n = none ∧
    (∀ k ∈ mkeys (removeNode ord g n).1.edges, k.From ≠ n ∧ k.To ≠ n) ∧
    (∀ p ∈ (removeNode ord g n).1.nodes,
      n ∉ mkeys p.2.IncomingConnections ∧ n ∉ mkeys p.2.OutgoingConnections) := by
  have h := hr.wf
  have hwf := wf_removeNode h ord n
  have hE := getEdge_removeNode h ord hn
  have hnone : ∀ a b, a = n ∨ b = n → getEdge (removeNode ord g n).1 a b = none := by
    intro a b hab; rw [hE, if_pos hab]
  refine ⟨by rw [removeNode_eq_of_present h ord hn], ?_, ?_, ?_⟩
  · rw [getNode_removeNode h ord hn]; simp
  · intro k hk
    rw [mem_mkeys_iff] at hk
    constructor
    · intro hc
      have := hnone k.From k.To (Or.inl hc)
      unfold getEdge at this
      rw [this] at hk; simp at hk
    · intro hc
      have := hnone k.From k.To (Or.inr hc)
      unfold getEdge at this
      rw [this] at hk; simp at hk
  · intro p hp
    have hget : getNode (removeNode ord g n).1 p.1 = some p.2 :=
      mget_of_mem hwf.nodesNodup hp
    constructor
    · intro hc
      rw [mem_mkeys_iff] at hc
      have hv := hwf.inView n p.1
      unfold inE at hv
      rw [hget, hnone n p.1 (Or.inl rfl)] at hv
      rw [Option.some_bind] at hv
      rw [hv] at hc; simp at hc
    · intro hc
      rw [mem_mkeys_iff] at hc
      have hv := hwf.outView p.1 n
      unfold outE at hv
      rw [hget, hnone p.1 n (Or.inr rfl)] at hv
      rw [Option.some_bind] at hv
      rw [hv] at hc; simp at hc

theorem removeNode_post_witness :
    Reachable triangle ∧ (getNode triangle 1).isSome = true ∧
    (removeNode (IterOrder.reversed _) triangle 1).2 = none ∧
    getNode (removeNode (IterOrder.reversed _) triangle 1).1 1 = none ∧
    (∀ k ∈ mkeys (removeNode (IterOrder.reversed _) triangle 1).1.edges,
      k.From ≠ 1 ∧ k.To ≠ 1) ∧
    (∀ p ∈ (removeNode (IterOrder.reversed _) triangle 1).1.nodes,
      (1 : NodeId) ∉ mkeys p.2.IncomingConnections ∧
      (1 : NodeId) ∉ mkeys p.2.OutgoingConnections) :=
  ⟨reachable_triangle, by decide,
    removeNode_post triangle reachable_triangle (IterOrder.reversed _) 1 (by decide)⟩

/-- C8: on a reachable graph `removeNode(id)` fails exactly when `id` is not a
node, and then the graph is unchanged; when `id` is a node, the loop that
removes its edges returns no error, so the call succeeds as a whole. -/
theorem removeNode_error_iff (g : Graph N E) (hr : Reachable g)
    (ord : IterOrder (EdgeId × Edge E)) (id : NodeId) :
    ((removeNode ord g id).2 ≠ none ↔ getNode g id = none) ∧
    (getNode g id = none →
      (removeNode ord g id).2 = some (.nodeNotFoundToRemove id) ∧
      (removeNode ord g id).1 = g) ∧
    ((getNode g id).isSome = true →
      (removeNodeLoop id (mkeys (ord.apply g.edges)) g).2 = none ∧
      (removeNode ord g id).2 = none) := by
  have h := hr.wf
  have hloop := (removeNodeLoop_spec id (mkeys (ord.apply g.edges)) g h (h.iter_endpoints ord)).1
  refine ⟨?_, ?_, ?_⟩
  · cases hn : getNode g id with
    | none => rw [removeNode_eq_of_absent ord hn]; simp
    | some n =>
      have hid : (getNode g id).isSome = true := by simp [hn]
      rw [removeNode_eq_of_present h ord hid]; simp
  · intro hn
    rw [removeNode_eq_of_absent ord hn]
    exact ⟨rfl, rfl⟩
  · intro hid
    refine ⟨hloop, ?_⟩
    rw [removeNode_eq_of_present h ord hid]

theorem removeNode_error_iff_witness :
    Reachable triangle ∧ getNode triangle 5 = none ∧
    (removeNode (IterOrder.storage _) triangle 5).2 = some (.nodeNotFoundToRemove 5) ∧
    (removeNode (IterOrder.storage _) triangle 5).1 = triangle :=
  ⟨reachable_triangle, by decide,
    (removeNode_error_iff triangle reachable_triangle (IterOrder.storage _) 5).2.1 (by decide)⟩

/-- C9: `removeEdge(from, to)` fails exactly when one of the two identities is
not a node; on a reachable graph with both nodes present and no edge
`(from, to)` it succeeds and the graph is left exactly as it was. -/
theorem removeEdge_contract (g : Graph N E) (hr : Reachable g) (f t : NodeId) :
    ((removeEdge g f t).2 ≠ none ↔ (getNode g f = none ∨ getNode g t = none)) ∧
    ((getNode g f).isSome = true → (getNode g t).isSome = true → getEdge g f t = none →
      (removeEdge g f t).2 = none ∧ (removeEdge g f t).1 = g) := by
  have h := hr.wf
  constructor
  · by_cases hok : (getNode g f).isSome = true ∧ (getNode g t).isSome = true
    · rw [removeEdge_eq_of_ok hok.1 hok.2]
      obtain ⟨nf, hnf⟩ := Option.isSome_iff_exists.1 hok.1
      obtain ⟨nt, hnt⟩ := Option.isSome_iff_exists.1 hok.2
      simp [hnf, hnt]
    · have := (removeEdge_eq_of_not_ok hok).2
      simp only [this, ne_eq, not_false_eq_true, true_iff]
      by_contra hc
      apply hok
      constructor
      · cases hn : getNode g f with
        | none => exact absurd (Or.inl hn) hc
        | some n => rfl
      · cases hn : getNode g t with
        | none => exact absurd (Or.inr hn) hc
        | some n => rfl
  · intro hf ht he
    rw [removeEdge_eq_of_ok hf ht]
    refine ⟨rfl, ?_⟩
    have h1 : mmod g.nodes f
        (fun n => { n with OutgoingConnections := mdel n.OutgoingConnections t }) = g.nodes := by
      apply mmod_eq_self
      intro p hp hpf
      have hget : getNode g p.1 = some p.2 := mget_of_mem h.nodesNodup hp
      have hv := h.outView p.1 t
      unfold outE at hv
      rw [hget, hpf, he, Option.some_bind] at hv
      rw [mdel_eq_self hv]
    have h2 : mmod g.nodes t
        (fun n => { n with IncomingConnections := mdel n.IncomingConnections f }) = g.nodes := by
      apply mmod_eq_self
      intro p hp hpt
      have hget : getNode g p.1 = some p.2 := mget_of_mem h.nodesNodup hp
      have hv := h.inView f p.1
      unfold inE at hv
      rw [hget, hpt, he, Option.some_bind] at hv
      rw [mdel_eq_self hv]
    have h3 : mdel g.edges ⟨f, t⟩ = g.edges := mdel_eq_self he
    simp only [h1, h2, h3]

theorem removeEdge_contract_witness :
    Reachable threeNodes ∧ (getNode threeNodes 0).isSome = true ∧
    (getNode threeNodes 2).isSome = true ∧ getEdge threeNodes 0 2 = none ∧
    (removeEdge threeNodes 0 2).2 = none ∧ (removeEdge threeNodes 0 2).1 = threeNodes :=
  ⟨reachable_threeNodes, by decide, by decide, by decide,
    (removeEdge_contract threeNodes reachable_threeNodes 0 2).2 (by decide) (by decide)
      (by decide)⟩

end Contracts

/-! ## Identity allocation -/

section Identities

theorem removeNodeLoop_incr (id : NodeId) (L : List EdgeId) :
    ∀ d : Graph N E, (removeNodeLoop id L d).1.nodeIdIncr = d.nodeIdIncr := by
  induction L with
  | nil => intro d; rfl
  | cons e rest ih =>
    intro d
    unfold removeNodeLoop
    split
    · have hsn := (removeEdge_sameNodes d e.From e.To).incr
      split
      · rename_i d1 err heq
        rw [heq] at hsn; exact hsn
      · rename_i d1 heq
        rw [heq] at hsn
        rw [ih d1]; exact hsn
    · exact ih d

theorem removeNode_incr (ord : IterOrder (EdgeId × Edge E)) (d : Graph N E) (id : NodeId) :
    (removeNode ord d id).1.nodeIdIncr = d.nodeIdIncr := by
  have hl := removeNodeLoop_incr id (mkeys (ord.apply d.edges)) d
  unfold removeNode
  split
  · rfl
  · split
    · rename_i d1 err heq
      rw [heq] at hl; exact hl
    · rename_i d1 heq
      rw [heq] at hl; exact hl

/-- From any graph, the identities handed out by a run of calls count up from
the identity counter. -/
theorem run_ids (ops : List (Op N E)) :
    ∀ g : Graph N E,
      (run ops g).2 = (List.range (run ops g).2.length).map (fun (i : Nat) => g.nodeIdIncr + (i : Int)) := by
  induction ops with
  | nil => intro g; rfl
  | cons op rest ih =>
    intro g
    cases op with
    | addNode n =>
      have hrun : run (Op.addNode n :: rest) g
          = ((run rest (addNode g n).1).1, g.nodeIdIncr :: (run rest (addNode g n).1).2) := rfl
      rw [hrun]
      have hi := ih (addNode g n).1
      have hincr : (addNode g n).1.nodeIdIncr = g.nodeIdIncr + 1 := rfl
      rw [hincr] at hi
      simp only [List.length_cons]
      rw [List.range_succ_eq_map, List.map_cons, List.map_map]
      congr 1
      · simp
      · conv_lhs => rw [hi]
        apply List.map_congr_left
        intro i _
        simp only [Function.comp, Nat.succ_eq_add_one, Nat.cast_add, Nat.cast_one]
        ring
    | addEdge f t v =>
      have hrun : run (Op.addEdge f t v :: rest) g = run rest (addEdge g f t v).1 := rfl
      rw [hrun, ← (addEdge_sameNodes g f t v).incr]
      exact ih _
    | removeEdge f t =>
      have hrun : run (Op.removeEdge f t :: rest) g = run rest (removeEdge g f t).1 := rfl
      rw [hrun, ← (removeEdge_sameNodes g f t).incr]
      exact ih _
    | removeNode ord id =>
      have hrun : run (Op.removeNode ord id :: rest) g = run rest (removeNode ord g id).1 := rfl
      rw [hrun, ← removeNode_incr ord g id]
      exact ih _

/-- C10: in any sequence of calls on a fresh graph, the `k`-th `AddNode`
returns `k-1`: the returned identities are `0, 1, 2, ...` in call order, hence
strictly increasing and pairwise distinct, whatever was removed in between. -/
theorem addNode_ids_increasing (ops : List (Op N E)) :
    (run ops (NewGraph : Graph N E)).2 =
      (List.range (run ops (NewGraph : Graph N E)).2.length).map (fun (i : Nat) => (i : Int)) ∧
    (run ops (NewGraph : Graph N E)).2.Pairwise (fun a b => a < b) ∧
    (run ops (NewGraph : Graph N E)).2.Nodup := by
  have h := run_ids ops (NewGraph : Graph N E)
  have h0 : (NewGraph : Graph N E).nodeIdIncr = 0 := rfl
  rw [h0] at h
  simp only [zero_add] at h
  have hp : (run ops (NewGraph : Graph N E)).2.Pairwise (fun a b => a < b) := by
    rw [h]
    rw [List.pairwise_map]
    exact (List.pairwise_lt_range _).imp (fun hab => by exact_mod_cast hab)
  refine ⟨h, hp, ?_⟩
  exact hp.imp (fun hab => ne_of_lt hab)

end Identities

/-! ## `NewGraphFrom` and `clone` on graphs with identities `0 .. n-1` -/

section CloneLemmas

theorem mget_perm {K V : Type} [DecidableEq K] {m m' : List (K × V)} (hp : m'.Perm m)
    (hn : (mkeys m).Nodup) (k : K) : mget m' k = mget m k := by
  have hn' : (mkeys m').Nodup := ((hp.map Prod.fst).nodup_iff).2 hn
  apply Option.ext
  intro v
  rw [Option.mem_def, Option.mem_def, ← mem_iff_mget hn', ← mem_iff_mget hn]
  exact hp.mem_iff

theorem mkeys_perm {K V : Type} {m m' : List (K × V)} (hp : m'.Perm m) :
    (mkeys m').Perm (mkeys m) :=
  hp.map Prod.fst

theorem reachable_addNodes (ns : List N) :
    ∀ d : Graph N E, Reachable d → Reachable (addNodes d ns) := by
  induction ns with
  | nil => intro d h; exact h
  | cons n rest ih => intro d h; exact ih _ (Reachable.addNode n h)

theorem addNodes_spec (ns : List N) :
    ∀ d : Graph N E, WF d →
      (addNodes d ns).edges = d.edges ∧
      (addNodes d ns).nodes.length = d.nodes.length + ns.length ∧
      (addNodes d ns).nodeIdIncr = d.nodeIdIncr + (ns.length : Int) ∧
      ∀ k : Int, (getNode (addNodes d ns) k).isSome = true ↔
        ((getNode d k).isSome = true ∨
          (d.nodeIdIncr ≤ k ∧ k < d.nodeIdIncr + (ns.length : Int))) := by
  induction ns with
  | nil =>
    intro d _
    refine ⟨rfl, rfl, by simp [addNodes], ?_⟩
    intro k
    simp only [addNodes, List.length_nil, Nat.cast_zero, add_zero]
    constructor
    · intro h; exact Or.inl h
    · rintro (h | h)
      · exact h
      · omega
  | cons n rest ih =>
    intro d hd
    have hwf := wf_addNode hd n
    obtain ⟨h1, h2, h3, h4⟩ := ih (addNode d n).1 hwf
    have hstep : addNodes d (n :: rest) = addNodes (addNode d n).1 rest := rfl
    have hlen : (addNode d n).1.nodes.length = d.nodes.length + 1 :=
      length_mset_of_none (show mget d.nodes d.nodeIdIncr = none from hd.getNode_incr) _
    have hincr : (addNode d n).1.nodeIdIncr = d.nodeIdIncr + 1 := rfl
    rw [hstep]
    refine ⟨h1, ?_, ?_, ?_⟩
    · rw [h2, hlen, List.length_cons]; omega
    · rw [h3, hincr, List.length_cons]; push_cast; ring
    · intro k
      rw [h4, getNode_addNode, hincr, List.length_cons]
      push_cast
      by_cases hk : d.nodeIdIncr = k
      · simp only [hk, if_true, Option.isSome_some, true_or, true_iff]
        right; omega
      · simp only [hk, if_false]
        constructor
        · rintro (h | h)
          · exact Or.inl h
          · right; omega
        · rintro (h | h)
          · exact Or.inl h
          · right; omega

theorem addEdges_spec (L : List (EdgeId × E)) :
    ∀ d : Graph N E, Reachable d → (mkeys L).Nodup →
      (∀ p ∈ L, (getNode d p.1.From).isSome = true ∧ (getNode d p.1.To).isSome = true ∧
        getEdge d p.1.From p.1.To = none) →
      (addEdges d L).2 = none ∧ Reachable (addEdges d L).1 ∧ SameNodes d (addEdges d L).1 ∧
      (∀ a b v, mget L ⟨a, b⟩ = some v → getEdge (addEdges d L).1 a b = some ⟨⟨a, b⟩, v⟩) ∧
      (∀ a b, mget L ⟨a, b⟩ = none → getEdge (addEdges d L).1 a b = getEdge d a b) := by
  induction L with
  | nil =>
    intro d hr _ _
    refine ⟨rfl, hr, SameNodes.refl d, ?_, ?_⟩
    · intro a b v h; simp at h
    · intro a b _; rfl
  | cons p rest ih =>
    intro d hr hnd hL
    obtain ⟨id, v⟩ := p
    have hk : mkeys ((id, v) :: rest) = id :: mkeys rest := rfl
    rw [hk, List.nodup_cons] at hnd
    obtain ⟨hf, ht, he⟩ := hL (id, v) (List.mem_cons_self _ _)
    have heq := addEdge_eq_of_ok v hf ht he
    have hsn := addEdge_sameNodes d id.From id.To v
    have hE := getEdge_addEdge v hf ht he
    have hstep : addEdges d ((id, v) :: rest) = addEdges (addEdge d id.From id.To v).1 rest := by
      conv_lhs => unfold addEdges
      rw [heq]
    rw [hstep]
    have hrest : ∀ p ∈ rest,
        (getNode (addEdge d id.From id.To v).1 p.1.From).isSome = true ∧
        (getNode (addEdge d id.From id.To v).1 p.1.To).isSome = true ∧
        getEdge (addEdge d id.From id.To v).1 p.1.From p.1.To = none := by
      intro p hp
      obtain ⟨h1, h2, h3⟩ := hL p (List.mem_cons_of_mem _ hp)
      refine ⟨by rw [hsn.isSome]; exact h1, by rw [hsn.isSome]; exact h2, ?_⟩
      rw [hE, h3]
      have hne : ¬ (p.1.From = id.From ∧ p.1.To = id.To) := by
        intro hc
        apply hnd.1
        have : p.1 = id := by
          cases hp1 : p.1; cases id; rw [hp1] at hc; simp_all
        rw [← this]
        exact List.mem_map_of_mem _ hp
      simp [hne]
    obtain ⟨i1, i2, i3, i4, i5⟩ := ih (addEdge d id.From id.To v).1 (Reachable.addEdge _ _ _ hr)
      hnd.2 hrest
    have hnone : mget rest id = none := (mget_none_iff rest id).2 hnd.1
    refine ⟨i1, i2, hsn.trans i3, ?_, ?_⟩
    · intro a b w hw
      rw [mget_cons] at hw
      by_cases hc : id = ⟨a, b⟩
      · rw [if_pos hc] at hw
        cases hw
        rw [i5 a b (by rw [← hc]; exact hnone), hE]
        subst hc
        simp
      · rw [if_neg hc] at hw
        exact i4 a b w hw
    · intro a b hw
      rw [mget_cons] at hw
      by_cases hc : id = ⟨a, b⟩
      · rw [if_pos hc] at hw; cases hw
      · rw [if_neg hc] at hw
        rw [i5 a b hw, hE]
        have hne : ¬ (a = id.From ∧ b = id.To) := by
          intro hh; apply hc; cases id; simp_all
        simp [hne]

theorem cloneNodes_ok (d : Graph N E) :
    ∀ L : List NodeId, (∀ id ∈ L, (getNode d id).isSome = true) →
      ∃ ns, cloneNodes d L = .ret ns ∧ ns.length = L.length := by
  intro L
  induction L with
  | nil => intro _; exact ⟨[], rfl, rfl⟩
  | cons id rest ih =>
    intro h
    obtain ⟨n, hn⟩ := Option.isSome_iff_exists.1 (h id (List.mem_cons_self _ _))
    obtain ⟨ns, hns, hlen⟩ := ih (fun k hk => h k (List.mem_cons_of_mem _ hk))
    refine ⟨n.Data :: ns, ?_, by simp [hlen]⟩
    unfold cloneNodes
    rw [hn, hns]

theorem cloneEdges_ok (d : Graph N E) :
    ∀ (L : List (EdgeId × Edge E)) (acc : List (EdgeId × E)),
      (∀ p ∈ L, getEdge d p.2.id.From p.2.id.To = some p.2 ∧ p.2.id = p.1) →
      (mkeys L).Nodup → (mkeys acc).Nodup →
      ∃ es, cloneEdges d L acc = .ret es ∧ (mkeys es).Nodup ∧
        ∀ k, mget es k = (mget L k).elim (mget acc k) (fun e => some e.Data) := by
  intro L
  induction L with
  | nil =>
    intro acc _ _ hacc
    exact ⟨acc, rfl, hacc, by intro k; rfl⟩
  | cons p rest ih =>
    intro acc hL hnd hacc
    obtain ⟨k0, e0⟩ := p
    have hk : mkeys ((k0, e0) :: rest) = k0 :: mkeys rest := rfl
    rw [hk, List.nodup_cons] at hnd
    obtain ⟨hg, hid⟩ := hL (k0, e0) (List.mem_cons_self _ _)
    obtain ⟨es, hes, hnes, hget⟩ := ih (mset acc e0.id e0.Data)
      (fun q hq => hL q (List.mem_cons_of_mem _ hq)) hnd.2 (nodup_mset hacc _ _)
    refine ⟨es, ?_, hnes, ?_⟩
    · conv_lhs => unfold cloneEdges
      rw [hg]
      exact hes
    · intro k
      rw [hget, mget_cons, mget_mset]
      have hid2 : e0.id = k0 := hid
      rw [hid2]
      by_cases hc : k0 = k
      · subst hc
        have hnone : mget rest k0 = none := (mget_none_iff rest k0).2 hnd.1
        simp [hnone]
      · simp [hc]

/-- On a well-formed graph whose node identities are `0 .. n-1`, `clone`
returns a reachable graph with the same nodes and the same edges. -/
theorem clone_dense (o : CloneOrder N E) (g : Graph N E) (h : WF g) (hd : DenseIds g) :
    ∃ d, clone o g = .ret (d, none) ∧ Reachable d ∧ d.nodes.length = g.nodes.length ∧
      (∀ k, (getNode d k).isSome = (getNode g k).isSome) ∧
      (∀ a b, getEdge d a b = (getEdge g a b).map (fun e => ⟨⟨a, b⟩, e.Data⟩)) := by
  -- the sorted identities are node identities
  have hids : ∀ id ∈ ((o.nodes.apply g.nodes).map (fun p => p.2.id)).insertionSort
      (fun a b => a ≤ b), (getNode g id).isSome = true := by
    intro id hid
    rw [(List.perm_insertionSort _ _).mem_iff, List.mem_map] at hid
    obtain ⟨p, hp, hpid⟩ := hid
    have hp2 : p ∈ g.nodes := (o.nodes.perm g.nodes).mem_iff.1 hp
    have hget : getNode g p.1 = some p.2 := mget_of_mem h.nodesNodup hp2
    have := h.nodeId p.1 p.2 hget
    rw [← hpid, this, hget]; rfl
  have hlenIds : (((o.nodes.apply g.nodes).map (fun p => p.2.id)).insertionSort
      (fun a b => a ≤ b)).length = g.nodes.length := by
    rw [(List.perm_insertionSort _ _).length_eq, List.length_map, (o.nodes.perm g.nodes).length_eq]
  obtain ⟨ns, hns, hnsLen⟩ := cloneNodes_ok g _ hids
  -- the edge payload map
  have hedges : ∀ p ∈ o.edges.apply g.edges,
      getEdge g p.2.id.From p.2.id.To = some p.2 ∧ p.2.id = p.1 := by
    intro p hp
    have hp2 : p ∈ g.edges := (o.edges.perm g.edges).mem_iff.1 hp
    have hget : mget g.edges p.1 = some p.2 := mget_of_mem h.edgesNodup hp2
    have hid : p.2.id = p.1 := h.edgeId p.1.From p.1.To p.2 hget
    refine ⟨?_, hid⟩
    rw [hid]; exact hget
  have hndE : (mkeys (o.edges.apply g.edges)).Nodup :=
    ((mkeys_perm (o.edges.perm g.edges)).nodup_iff).2 h.edgesNodup
  obtain ⟨es, hes, hnes, hget⟩ := cloneEdges_ok g _ [] hedges hndE List.nodup_nil
  have hgetE : ∀ k, mget es k = (mget g.edges k).map (fun e => e.Data) := by
    intro k
    rw [hget, mget_perm (o.edges.perm g.edges) h.edgesNodup]
    cases mget g.edges k <;> rfl
  -- the rebuilt graph
  have hwf0 : WF (NewGraph : Graph N E) := wf_newGraph
  obtain ⟨a1, a2, a3, a4⟩ := addNodes_spec ns (NewGraph : Graph N E) hwf0
  have hr0 : Reachable (addNodes (NewGraph : Graph N E) ns) :=
    reachable_addNodes ns _ Reachable.newGraph
  have hnodes0 : ∀ k : Int, (getNode (addNodes (NewGraph : Graph N E) ns) k).isSome = true ↔
      (getNode g k).isSome = true := by
    intro k
    rw [a4, hd k, hnsLen, hlenIds]
    have e0 : (NewGraph : Graph N E).nodeIdIncr = 0 := rfl
    have e1 : getNode (NewGraph : Graph N E) k = none := rfl
    rw [e0, e1]
    simp
  have hndB : (mkeys (o.built.apply es)).Nodup :=
    ((mkeys_perm (o.built.perm es)).nodup_iff).2 hnes
  have hpre : ∀ p ∈ o.built.apply es,
      (getNode (addNodes (NewGraph : Graph N E) ns) p.1.From).isSome = true ∧
      (getNode (addNodes (NewGraph : Graph N E) ns) p.1.To).isSome = true ∧
      getEdge (addNodes (NewGraph : Graph N E) ns) p.1.From p.1.To = none := by
    intro p hp
    have hp2 : p ∈ es := (o.built.perm es).mem_iff.1 hp
    have hg : mget es p.1 = some p.2 := mget_of_mem hnes hp2
    rw [hgetE] at hg
    have hsome : (getEdge g p.1.From p.1.To).isSome = true := by
      unfold getEdge
      cases hm : mget g.edges p.1 with
      | none => rw [hm] at hg; simp at hg
      | some e => rfl
    have hends := h.endpoints hsome
    refine ⟨(hnodes0 _).2 hends.1, (hnodes0 _).2 hends.2, ?_⟩
    unfold getEdge
    rw [a1]
    rfl
  obtain ⟨b1, b2, b3, b4, b5⟩ := addEdges_spec (o.built.apply es) _ hr0 hndB hpre
  refine ⟨(NewGraphFrom o.built ns es).1, ?_, b2, ?_, ?_, ?_⟩
  · unfold clone
    simp only [hns, hes]
    have : NewGraphFrom o.built ns es = ((NewGraphFrom o.built ns es).1, none) := by
      have : (NewGraphFrom o.built ns es).2 = none := b1
      rw [← this]
    rw [this]
  · show (addEdges (addNodes NewGraph ns) (o.built.apply es)).1.nodes.length = g.nodes.length
    rw [b3.length, a2, hnsLen, hlenIds]
    simp [NewGraph]
  · intro k
    show (getNode (addEdges (addNodes NewGraph ns) (o.built.apply es)).1 k).isSome = _
    rw [b3.isSome]
    have := hnodes0 k
    cases h1 : (getNode (addNodes (NewGraph : Graph N E) ns) k).isSome <;>
      cases h2 : (getNode g k).isSome <;> simp_all
  · intro a b
    show getEdge (addEdges (addNodes NewGraph ns) (o.built.apply es)).1 a b = _
    have hm : mget (o.built.apply es) ⟨a, b⟩ = (getEdge g a b).map (fun e => e.Data) := by
      rw [mget_perm (o.built.perm es) hnes, hgetE]; rfl
    cases hg : getEdge g a b with
    | none =>
      rw [hg] at hm
      rw [b5 a b hm]
      unfold getEdge
      rw [a1]; rfl
    | some e =>
      rw [hg] at hm
      rw [b4 a b e.Data hm]
      rfl

end CloneLemmas

/-! ## The loops of `TopologicalSort` -/

section SortLemmas

theorem Before.append_right {l : List NodeId} {u v : NodeId} (h : Before l u v)
    (r : List NodeId) : Before (l ++ r) u v := by
  obtain ⟨i, j, hij, hi, hj⟩ := h
  have hi' := (List.getElem?_eq_some.1 hi).1
  have hj' := (List.getElem?_eq_some.1 hj).1
  exact ⟨i, j, hij, by rw [List.getElem?_append_left hi']; exact hi,
    by rw [List.getElem?_append_left hj']; exact hj⟩

theorem Before.of_mem_snoc {l : List NodeId} {u : NodeId} (h : u ∈ l) (v : NodeId) :
    Before (l ++ [v]) u v := by
  obtain ⟨i, hi⟩ := List.mem_iff_getElem?.1 h
  have hi' := (List.getElem?_eq_some.1 hi).1
  refine ⟨i, l.length, hi', by rw [List.getElem?_append_left hi']; exact hi, ?_⟩
  rw [List.getElem?_append_right (le_refl _)]
  simp

theorem Before.chain {l : List NodeId} (hn : l.Nodup) {u v w : NodeId}
    (h1 : Before l u v) (h2 : Before l v w) : Before l u w := by
  obtain ⟨i, j, hij, hi, hj⟩ := h1
  obtain ⟨j2, k, hjk, hj2, hk⟩ := h2
  have hj' := (List.getElem?_eq_some.1 hj).1
  have : j = j2 := List.getElem?_inj hj' hn (by rw [hj, hj2])
  subst this
  exact ⟨i, k, lt_trans hij hjk, hi, hk⟩

theorem Before.irrefl {l : List NodeId} (hn : l.Nodup) (u : NodeId) : ¬ Before l u u := by
  rintro ⟨i, j, hij, hi, hj⟩
  have hi' := (List.getElem?_eq_some.1 hi).1
  have : i = j := List.getElem?_inj hi' hn (by rw [hi, hj])
  omega

/-- A node record has an empty incoming map exactly when no edge enters it. -/
theorem noIncoming_iff {d : Graph N E} (h : WF d) {t : NodeId} {m : Node N E}
    (hm : getNode d t = some m) :
    m.IncomingConnections.length = 0 ↔ ∀ u, getEdge d u t = none := by
  rw [length_eq_zero_iff_mget]
  have hv : ∀ u, mget m.IncomingConnections u = getEdge d u t := by
    intro u
    have := h.inView u t
    unfold inE at this
    rw [hm] at this
    exact this
  constructor
  · intro hh u; rw [← hv]; exact hh u
  · intro hh u; rw [hv]; exact hh u

/-- The entries of a node's outgoing map are the edges leaving it. -/
theorem out_entry {d : Graph N E} (h : WF d) {a : NodeId} {na : Node N E}
    (hna : getNode d a = some na) (t : NodeId) :
    mget na.OutgoingConnections t = getEdge d a t := by
  have := h.outView a t
  unfold outE at this
  rw [hna] at this
  exact this

theorem sortInner_spec (a : NodeId) (r : List (NodeId × Edge E)) :
    ∀ (d : Graph N E) (q : List NodeId), WF d → (mkeys r).Nodup →
      (∀ p ∈ r, p.2.id = ⟨a, p.1⟩ ∧ (getNode d p.1).isSome = true) →
      (getNode d a).isSome = true →
      ∃ d1 q2, sortInner r d q = .ret (d1, q ++ q2) ∧ WF d1 ∧ SameNodes d d1 ∧
        (∀ x y, getEdge d1 x y = if x = a ∧ y ∈ mkeys r then none else getEdge d x y) ∧
        q2.Sublist (mkeys r) ∧
        (∀ t, t ∈ q2 ↔ (t ∈ mkeys r ∧ ∀ u, getEdge d1 u t = none)) := by
  induction r with
  | nil =>
    intro d q hd _ _ _
    refine ⟨d, [], by simp [sortInner], hd, SameNodes.refl d, ?_, List.Sublist.refl _, ?_⟩
    · intro x y; simp [mkeys]
    · intro t; simp [mkeys]
  | cons p rest ih =>
    intro d q hd hnd hr ha
    obtain ⟨t, e⟩ := p
    have hk : mkeys ((t, e) :: rest) = t :: mkeys rest := rfl
    rw [hk, List.nodup_cons] at hnd
    obtain ⟨hid, ht⟩ := hr (t, e) (List.mem_cons_self _ _)
    have hid2 : e.id = ⟨a, t⟩ := hid
    have ht2 : (getNode d t).isSome = true := ht
    have hwf1 := wf_removeEdge hd a t
    have hsn1 := removeEdge_sameNodes d a t
    have hE1 := getEdge_removeEdge (g := d) ha ht2
    have ht1 : (getNode (removeEdge d a t).1 t).isSome = true := by rw [hsn1.isSome]; exact ht2
    obtain ⟨m, hm⟩ := Option.isSome_iff_exists.1 ht1
    have hmid : m.id = t := hwf1.nodeId t m hm
    have hcond := noIncoming_iff hwf1 hm
    obtain ⟨d1, q2, hret, hwf2, hsn2, hE2, hsub, hmem⟩ :=
      ih (removeEdge d a t).1
        (if m.IncomingConnections.length = 0 then q ++ [m.id] else q) hwf1 hnd.2
        (fun p hp => ⟨(hr p (List.mem_cons_of_mem _ hp)).1,
          by rw [hsn1.isSome]; exact (hr p (List.mem_cons_of_mem _ hp)).2⟩)
        (by rw [hsn1.isSome]; exact ha)
    have hstep : sortInner ((t, e) :: rest) d q
        = sortInner rest (removeEdge d a t).1
            (if m.IncomingConnections.length = 0 then q ++ [m.id] else q) := by
      conv_lhs => unfold sortInner
      simp only [hid2]
      rw [hm]
    have hK : (∀ u, getEdge d1 u t = none) ↔ m.IncomingConnections.length = 0 := by
      rw [hcond]
      constructor
      · intro hh u
        have := hh u
        rw [hE2] at this
        simpa [hnd.1] using this
      · intro hh u
        rw [hE2, hh u]; simp
    refine ⟨d1, (if m.IncomingConnections.length = 0 then [t] else []) ++ q2, ?_, hwf2,
      hsn1.trans hsn2, ?_, ?_, ?_⟩
    · rw [hstep, hret]
      by_cases hc : m.IncomingConnections.length = 0 <;> simp [hc, hmid]
    · intro x y
      rw [hE2, hE1, hk]
      by_cases hx : x = a
      · by_cases hy : y = t
        · simp [hx, hy]
        · by_cases hy2 : y ∈ mkeys rest <;> simp [hx, hy, hy2]
      · simp [hx]
    · rw [hk]
      by_cases hc : m.IncomingConnections.length = 0
      · simp only [hc, if_true, List.singleton_append]
        exact hsub.cons₂ t
      · simp only [hc, if_false, List.nil_append]
        exact hsub.cons t
    · intro t2
      rw [hk, List.mem_append, hmem, List.mem_cons]
      constructor
      · rintro (h1 | h1)
        · by_cases hc : m.IncomingConnections.length = 0
          · simp only [hc, if_true, List.mem_singleton] at h1
            subst h1
            exact ⟨Or.inl rfl, hK.2 hc⟩
          · simp [hc] at h1
        · exact ⟨Or.inr h1.1, h1.2⟩
      · rintro ⟨h1 | h1, h2⟩
        · subst h1
          left
          simp [hK.1 h2]
        · exact Or.inr ⟨h1, h2⟩

theorem SortInv.length_le {d0 d : Graph N E} {q l : List NodeId} (h : SortInv d0 d q l) :
    (l ++ q).length ≤ d0.nodes.length := by
  have hsub : l ++ q ⊆ mkeys d0.nodes :=
    fun v hv => (mem_mkeys_iff _ _).2 ((h.ready v).1 hv).1
  have := (List.subperm_of_subset h.nodup hsub).length_le
  simpa [mkeys] using this

/-- One round of the outer loop keeps the invariant. -/
theorem SortInv.step {d0 d : Graph N E} {a : NodeId} {q l : List NodeId}
    (h : SortInv d0 d (a :: q) l) (ord : IterOrder (NodeId × Edge E)) :
    ∃ na d1 q1, getNode d a = some na ∧
      sortInner (ord.apply na.OutgoingConnections) d q = .ret (d1, q1) ∧
      SortInv d0 d1 q1 (l ++ [a]) := by
  have hamem : a ∈ l ++ a :: q := by simp
  have ha0 := (h.ready a).1 hamem
  have ha : (getNode d a).isSome = true := by rw [h.same.isSome]; exact ha0.1
  obtain ⟨na, hna⟩ := Option.isSome_iff_exists.1 ha
  have hperm := ord.perm na.OutgoingConnections
  have hndOut := h.wf.outNodup a na hna
  have hnd : (mkeys (ord.apply na.OutgoingConnections)).Nodup :=
    ((mkeys_perm hperm).nodup_iff).2 hndOut
  have hkeys : ∀ t, t ∈ mkeys (ord.apply na.OutgoingConnections) ↔
      (getEdge d a t).isSome = true := by
    intro t
    rw [(mkeys_perm hperm).mem_iff, mem_mkeys_iff, out_entry h.wf hna]
  have hentries : ∀ p ∈ ord.apply na.OutgoingConnections,
      p.2.id = ⟨a, p.1⟩ ∧ (getNode d p.1).isSome = true := by
    intro p hp
    have hp2 : p ∈ na.OutgoingConnections := hperm.mem_iff.1 hp
    have hget : getEdge d a p.1 = some p.2 := by
      rw [← out_entry h.wf hna]; exact mget_of_mem hndOut hp2
    exact ⟨h.wf.edgeId a p.1 p.2 hget, (h.wf.endpoints (by rw [hget]; rfl)).2⟩
  obtain ⟨d1, q2, hret, hwf1, hsn1, hE1, hsub, hmem⟩ :=
    sortInner_spec a (ord.apply na.OutgoingConnections) d q h.wf hnd hentries ha
  have hanl : a ∉ l := by
    have := h.nodup
    rw [List.nodup_append] at this
    intro hc
    exact this.2.2 hc (List.mem_cons_self _ _)
  have hEd : ∀ x y, getEdge d1 x y = if x = a then none else getEdge d x y := by
    intro x y
    rw [hE1]
    by_cases hx : x = a
    · subst hx
      by_cases hy : y ∈ mkeys (ord.apply na.OutgoingConnections)
      · simp [hy]
      · have : getEdge d x y = none := by
          rw [hkeys] at hy
          cases hg : getEdge d x y with
          | none => rfl
          | some e => rw [hg] at hy; simp at hy
        simp [hy, this]
    · simp [hx]
  have hnoIn : ∀ v, (∀ u, getEdge d u v = none) → ∀ u, getEdge d1 u v = none := by
    intro v hv u
    rw [hEd, hv u]; simp
  refine ⟨na, d1, q ++ q2, hna, hret, ?_⟩
  refine ⟨hwf1, h.same.trans hsn1, ?_, ?_, ?_, ?_⟩
  · intro x y
    rw [hEd, h.edges]
    by_cases hx : x = a
    · simp [hx]
    · by_cases hxl : x ∈ l <;> simp [hx, hxl]
  · intro v
    constructor
    · intro hv
      have hv2 : v ∈ l ++ a :: q ∨ v ∈ q2 := by
        simp only [List.mem_append, List.mem_cons, List.mem_singleton] at hv ⊢
        tauto
      rcases hv2 with hv2 | hv2
      · have := (h.ready v).1 hv2
        exact ⟨this.1, hnoIn v this.2⟩
      · have := (hmem v).1 hv2
        refine ⟨?_, this.2⟩
        have he := (hkeys v).1 this.1
        rw [← h.same.isSome]
        exact (h.wf.endpoints he).2
    · rintro ⟨hv1, hv2⟩
      by_cases hold : ∀ u, getEdge d u v = none
      · have := (h.ready v).2 ⟨hv1, hold⟩
        simp only [List.mem_append, List.mem_cons, List.mem_singleton] at this ⊢
        tauto
      · rw [not_forall] at hold
        obtain ⟨u, hu⟩ := hold
        have hu2 := hv2 u
        rw [hEd] at hu2
        have hua : u = a := by
          by_contra hne
          rw [if_neg hne] at hu2
          exact hu hu2
        subst hua
        have hvk : v ∈ mkeys (ord.apply na.OutgoingConnections) := by
          rw [hkeys]
          cases hg : getEdge d u v with
          | none => exact absurd hg hu
          | some e => rfl
        have := (hmem v).2 ⟨hvk, hv2⟩
        simp only [List.mem_append]
        tauto
  · have hq2 : q2.Nodup := hsub.nodup hnd
    have hdisj : ∀ v, v ∈ l ++ a :: q → v ∈ q2 → False := by
      intro v hv1 hv2
      have h1 := ((h.ready v).1 hv1).2 a
      have h2 := (hkeys v).1 ((hmem v).1 hv2).1
      rw [h1] at h2
      simp at h2
    have hall : ((l ++ a :: q) ++ q2).Nodup :=
      List.nodup_append.2 ⟨h.nodup, hq2, fun v hv1 hv2 => hdisj v hv1 hv2⟩
    have heq : (l ++ [a]) ++ (q ++ q2) = (l ++ a :: q) ++ q2 := by simp
    rw [heq]; exact hall
  · intro x y hxy hy
    rw [List.mem_append, List.mem_singleton] at hy
    rcases hy with hy | hy
    · exact (h.order x y hxy hy).append_right _
    · subst hy
      have h1 := ha0.2 x
      rw [h.edges] at h1
      have hxl : x ∈ l := by
        by_contra hc
        rw [if_neg hc] at h1
        unfold hasEdge at hxy
        rw [h1] at hxy
        simp at hxy
      exact Before.of_mem_snoc hxl y

theorem sortLoop_spec (out : Nat → IterOrder (NodeId × Edge E)) {d0 : Graph N E}
    (hn : d0.nodes.length ≤ 41) :
    ∀ (fuel : Nat) (d : Graph N E) (q l : List NodeId), SortInv d0 d q l →
      42 ≤ fuel + l.length →
      ∃ d1 l1, SortInv d0 d1 [] l1 ∧
        sortLoop out fuel d q l =
          .ret (if d1.edges.length > 0 then ([], some .cyclic) else (l1, none)) := by
  intro fuel
  induction fuel with
  | zero =>
    intro d q l h hf
    cases q with
    | nil => exact ⟨d, l, h, rfl⟩
    | cons a q1 =>
      have := h.length_le
      simp only [List.length_append, List.length_cons] at this
      omega
  | succ fuel ih =>
    intro d q l h hf
    cases q with
    | nil => exact ⟨d, l, h, rfl⟩
    | cons a q1 =>
      have hle := h.length_le
      simp only [List.length_append, List.length_cons] at hle
      have h40 : ¬ l.length > 40 := by omega
      obtain ⟨na, d1, q2, hna, hret, hinv⟩ := h.step (out l.length)
      obtain ⟨d2, l2, hfin, hres⟩ := ih d1 q2 (l ++ [a]) hinv
        (by simp only [List.length_append, List.length_singleton]; omega)
      refine ⟨d2, l2, hfin, ?_⟩
      rw [← hres]
      conv_lhs => unfold sortLoop
      rw [if_neg h40]
      simp only [hna, hret]

theorem sortInner_abort (r : List (NodeId × Edge E)) :
    ∀ (d : Graph N E) (q : List NodeId) (p : Abort), sortInner r d q = .abort p → p = .nilDeref := by
  induction r with
  | nil => intro d q p h; simp [sortInner] at h
  | cons e rest ih =>
    intro d q p h
    unfold sortInner at h
    dsimp only at h
    split at h
    · cases h; rfl
    · exact ih _ _ p h

/-- The round bound of `sortLoop` is never what stops it: started with at
least one round and `fuel + len(l) ≥ 42`, the `len(l) > 40` guard fires first. -/
theorem sortLoop_fuel (out : Nat → IterOrder (NodeId × Edge E)) :
    ∀ (fuel : Nat) (d : Graph N E) (q l : List NodeId), 42 ≤ fuel + l.length → 1 ≤ fuel →
      sortLoop out fuel d q l ≠ .abort .fuel := by
  intro fuel
  induction fuel with
  | zero => intro d q l _ h1; omega
  | succ fuel ih =>
    intro d q l hf _
    cases q with
    | nil => intro h; simp [sortLoop] at h
    | cons a q1 =>
      unfold sortLoop
      split
      · intro h; cases h
      · rename_i h40
        split
        · intro h; cases h
        · rename_i na hna
          split
          · rename_i p hp
            intro h
            have := sortInner_abort _ _ _ p hp
            rw [this] at h
            cases h
          · rename_i d1 q2 hret
            exact ih d1 q2 (l ++ [a])
              (by simp only [List.length_append, List.length_singleton]; omega) (by omega)

theorem cloneNodes_abort (d : Graph N E) :
    ∀ (L : List NodeId) (p : Abort), cloneNodes d L = .abort p → p = .nilDeref := by
  intro L
  induction L with
  | nil => intro p h; simp [cloneNodes] at h
  | cons id rest ih =>
    intro p h
    unfold cloneNodes at h
    split at h
    · cases h; rfl
    · split at h
      · rename_i p2 hp2
        cases h
        exact ih _ hp2
      · cases h

theorem cloneEdges_abort (d : Graph N E) :
    ∀ (L : List (EdgeId × Edge E)) (acc : List (EdgeId × E)) (p : Abort),
      cloneEdges d L acc = .abort p → p = .nilDeref := by
  intro L
  induction L with
  | nil => intro acc p h; simp [cloneEdges] at h
  | cons e rest ih =>
    intro acc p h
    unfold cloneEdges at h
    split at h
    · cases h; rfl
    · exact ih _ p h

/-- The round bound is a device of the embedding only: `TopologicalSort` never
stops because of it, on any graph and for any iteration order. -/
theorem topologicalSort_fuel (o : SortOrder N E) (g : Graph N E) :
    TopologicalSort o g ≠ .abort .fuel := by
  unfold TopologicalSort
  split
  · rename_i p hp
    intro h
    have hp2 : p = .nilDeref := by
      unfold clone at hp
      dsimp only at hp
      split at hp
      · rename_i p2 hp2
        cases hp
        exact cloneNodes_abort _ _ _ hp2
      · split at hp
        · rename_i p2 hp2
          cases hp
          exact cloneEdges_abort _ _ _ _ hp2
        · cases hp
    rw [hp2] at h
    cases h
  · intro h; cases h
  · exact sortLoop_fuel o.out 42 _ _ [] (by simp) (by omega)

theorem seedQueue_sublist (L : List (NodeId × Node N E)) :
    (seedQueue L).Sublist (L.map (fun p => p.2.id)) := by
  induction L with
  | nil => exact List.Sublist.refl _
  | cons p rest ih =>
    unfold seedQueue at ih ⊢
    rw [List.filterMap_cons, List.map_cons]
    split
    · rename_i hnone
      exact ih.cons _
    · rename_i b hsome
      split at hsome
      · cases hsome
        exact ih.cons₂ _
      · cases hsome

theorem mem_seedQueue (L : List (NodeId × Node N E)) (v : NodeId) :
    v ∈ seedQueue L ↔ ∃ p ∈ L, p.2.IncomingConnections.length = 0 ∧ p.2.id = v := by
  unfold seedQueue
  rw [List.mem_filterMap]
  constructor
  · rintro ⟨p, hp, hf⟩
    split at hf
    · rename_i hc
      cases hf
      exact ⟨p, hp, hc, rfl⟩
    · cases hf
  · rintro ⟨p, hp, hc, hid⟩
    exact ⟨p, hp, by rw [if_pos hc, hid]⟩

/-- The invariant holds when the loop is entered. -/
theorem sortInv_init {d : Graph N E} (h : WF d) (ord : IterOrder (NodeId × Node N E)) :
    SortInv d d (seedQueue (ord.apply d.nodes)) [] := by
  have hentry : ∀ p ∈ ord.apply d.nodes, getNode d p.1 = some p.2 ∧ p.2.id = p.1 := by
    intro p hp
    have hp2 : p ∈ d.nodes := (ord.perm d.nodes).mem_iff.1 hp
    have hget : getNode d p.1 = some p.2 := mget_of_mem h.nodesNodup hp2
    exact ⟨hget, h.nodeId p.1 p.2 hget⟩
  refine ⟨h, SameNodes.refl d, ?_, ?_, ?_, ?_⟩
  · intro x y; simp
  · intro v
    rw [List.nil_append, mem_seedQueue]
    constructor
    · rintro ⟨p, hp, hc, hid⟩
      obtain ⟨hget, hid2⟩ := hentry p hp
      have hv : p.1 = v := by rw [← hid2, hid]
      rw [hv] at hget
      exact ⟨by rw [hget]; rfl, (noIncoming_iff h hget).1 hc⟩
    · rintro ⟨hv, hno⟩
      obtain ⟨m, hm⟩ := Option.isSome_iff_exists.1 hv
      have hmem : (v, m) ∈ d.nodes := (mem_iff_mget h.nodesNodup v m).2 hm
      exact ⟨(v, m), (ord.perm d.nodes).mem_iff.2 hmem, (noIncoming_iff h hm).2 hno,
        h.nodeId v m hm⟩
  · rw [List.nil_append]
    have hmap : (ord.apply d.nodes).map (fun p => p.2.id) = mkeys (ord.apply d.nodes) := by
      unfold mkeys
      apply List.map_congr_left
      intro p hp
      exact (hentry p hp).2
    have hnd : (mkeys (ord.apply d.nodes)).Nodup :=
      ((mkeys_perm (ord.perm d.nodes)).nodup_iff).2 h.nodesNodup
    have := seedQueue_sublist (ord.apply d.nodes)
    rw [hmap] at this
    exact this.nodup hnd
  · intro x y _ hy
    simp at hy

theorem edges_empty_iff (d : Graph N E) :
    d.edges.length = 0 ↔ ∀ x y, getEdge d x y = none := by
  rw [length_eq_zero_iff_mget]
  constructor
  · intro h x y; exact h ⟨x, y⟩
  · intro h k; cases k; exact h _ _

/-- When the loop ends on an acyclic graph, no edge is left. -/
theorem SortInv.final_acyclic {d0 d : Graph N E} {l : List NodeId} (h : SortInv d0 d [] l)
    (hac : Acyclic d0) : d.edges.length = 0 := by
  by_contra hne
  rw [edges_empty_iff] at hne
  push_neg at hne
  obtain ⟨x, y, hxy⟩ := hne
  have hnode : ∀ u v, getEdge d u v ≠ none → u ∈ mkeys d0.nodes := by
    intro u v huv
    rw [mem_mkeys_iff]
    have : (getEdge d u v).isSome = true := by
      cases hg : getEdge d u v with
      | none => exact absurd hg huv
      | some e => rfl
    have := (h.wf.endpoints this).1
    rw [h.same.isSome] at this
    exact this
  let r : {k // k ∈ mkeys d0.nodes} → {k // k ∈ mkeys d0.nodes} → Prop :=
    fun u v => Relation.TransGen (hasEdge d0) u.1 v.1
  haveI : IsTrans _ r := ⟨fun _ _ _ h1 h2 => Relation.TransGen.trans h1 h2⟩
  haveI : IsIrrefl _ r := ⟨fun a ha => hac a.1 ha⟩
  have hwf : WellFounded r := Finite.wellFounded_of_trans_of_irrefl r
  let S : Set {k // k ∈ mkeys d0.nodes} := {k | ∃ v, getEdge d k.1 v ≠ none}
  obtain ⟨m, hmS, hmin⟩ := hwf.has_min S ⟨⟨x, hnode x y hxy⟩, y, hxy⟩
  obtain ⟨v, hmv⟩ := hmS
  have hml : m.1 ∉ l := by
    intro hc
    apply hmv
    rw [h.edges, if_pos hc]
  have hnot : ¬ ((getNode d0 m.1).isSome = true ∧ ∀ u, getEdge d u m.1 = none) := by
    intro hc
    have := (h.ready m.1).2 hc
    simp only [List.append_nil] at this
    exact hml this
  have hmnode : (getNode d0 m.1).isSome = true := (mem_mkeys_iff _ _).1 m.2
  have hex : ∃ u, getEdge d u m.1 ≠ none := by
    by_contra hc
    push_neg at hc
    exact hnot ⟨hmnode, hc⟩
  obtain ⟨u, hu⟩ := hex
  have hu0 : hasEdge d0 u m.1 := by
    unfold hasEdge
    rw [h.edges] at hu
    split at hu
    · exact absurd rfl hu
    · cases hg : getEdge d0 u m.1 with
      | none => exact absurd hg hu
      | some e => rfl
  exact hmin ⟨u, hnode u m.1 hu⟩ ⟨m.1, hu⟩ (Relation.TransGen.single hu0)

/-- When the loop ends with no edge left, the output respects every edge. -/
theorem SortInv.final_order {d0 d : Graph N E} {l : List NodeId} (h : SortInv d0 d [] l)
    (h0 : WF d0) (hempty : d.edges.length = 0) :
    ∀ u v, hasEdge d0 u v → Before l u v := by
  rw [edges_empty_iff] at hempty
  intro u v huv
  have hv : v ∈ l := by
    have := (h.ready v).2 ⟨(h0.endpoints huv).2, fun u => hempty u v⟩
    simpa using this
  exact h.order u v huv hv

/-- When the loop ends on a graph with a cycle, some edge is left. -/
theorem SortInv.final_cyclic {d0 d : Graph N E} {l : List NodeId} (h : SortInv d0 d [] l)
    (h0 : WF d0) (hcyc : ¬ Acyclic d0) : d.edges.length > 0 := by
  by_contra hlen
  have hempty : d.edges.length = 0 := by omega
  have hord := h.final_order h0 hempty
  have hnd : l.Nodup := by simpa using h.nodup
  have htrans : ∀ u v, Relation.TransGen (hasEdge d0) u v → Before l u v := by
    intro u v huv
    induction huv with
    | single h1 => exact hord _ _ h1
    | tail _ h2 ih => exact ih.chain hnd (hord _ _ h2)
  unfold Acyclic at hcyc
  push_neg at hcyc
  obtain ⟨u, hu⟩ := hcyc
  exact Before.irrefl hnd u (htrans u u hu)

/-- The outcome of `TopologicalSort` on a reachable graph with identities
`0 .. n-1`, `n ≤ 41`: the loop ends in a state satisfying the invariant and
the result is read off that state. -/
theorem topologicalSort_outcome (o : SortOrder N E) (g : Graph N E) (hr : Reachable g)
    (hd : DenseIds g) (hn : g.nodes.length ≤ 41) :
    ∃ (d d1 : Graph N E) (l : List NodeId), WF d ∧ (∀ a b, hasEdge d a b ↔ hasEdge g a b) ∧
      SortInv d d1 [] l ∧
      TopologicalSort o g =
        .ret (if d1.edges.length > 0 then ([], some .cyclic) else (l, none)) := by
  obtain ⟨d, hclone, hrd, hlen, _, hedges⟩ := clone_dense o.clone g hr.wf hd
  have hwf := hrd.wf
  obtain ⟨d1, l, hinv, hres⟩ := @sortLoop_spec N E o.out d (by rw [hlen]; exact hn) 42 d
    (seedQueue (o.seed.apply d.nodes)) [] (sortInv_init hwf o.seed) (by simp)
  refine ⟨d, d1, l, hwf, ?_, hinv, ?_⟩
  · intro a b
    unfold hasEdge
    rw [hedges]
    cases getEdge g a b <;> simp
  · unfold TopologicalSort
    rw [hclone]
    exact hres

theorem acyclic_congr {d g : Graph N E} (h : ∀ a b, hasEdge d a b ↔ hasEdge g a b) :
    Acyclic d ↔ Acyclic g := by
  have : hasEdge d = hasEdge g := by
    funext a b; exact propext (h a b)
  unfold Acyclic
  rw [this]

end SortLemmas

/-! ## Facts about the concrete graphs -/

section Examples

theorem acyclic_of_no_edges {g : Graph N E} (h : g.edges = []) : Acyclic g := by
  have hno : ∀ u v, ¬ hasEdge g u v := by
    intro u v huv
    unfold hasEdge getEdge at huv
    rw [h] at huv
    simp at huv
  intro u hu
  cases hu with
  | single h1 => exact hno _ _ h1
  | tail _ h2 => exact hno _ _ h2

theorem acyclic_of_lt {g : Graph N E} (h : ∀ u v : Int, hasEdge g u v → u < v) : Acyclic g := by
  have htrans : ∀ u v : Int, Relation.TransGen (hasEdge g) u v → u < v := by
    intro u v huv
    induction huv with
    | single h1 => exact h _ _ h1
    | tail _ h2 ih => exact lt_trans ih (h _ _ h2)
  intro u hu
  exact lt_irrefl u (htrans u u hu)

theorem denseIds_of_keys {g : Graph N E} (n : Nat) (hlen : g.nodes.length = n)
    (hk : ∀ id : Int, id ∈ mkeys g.nodes ↔ 0 ≤ id ∧ id < (n : Int)) : DenseIds g := by
  intro id
  unfold getNode
  rw [← mem_mkeys_iff, hk, hlen]

theorem denseIds_triangle : DenseIds triangle := by
  apply denseIds_of_keys 3 (by decide)
  intro id
  have : mkeys triangle.nodes = [2, 1, 0] := by decide
  rw [this]
  simp only [List.mem_cons, List.mem_singleton, List.not_mem_nil, or_false]
  omega

theorem acyclic_triangle : Acyclic triangle := by
  apply acyclic_of_lt
  intro u v huv
  unfold hasEdge getEdge at huv
  have : triangle.edges =
      [(⟨0, 2⟩, ⟨⟨0, 2⟩, 102⟩), (⟨1, 2⟩, ⟨⟨1, 2⟩, 112⟩), (⟨0, 1⟩, ⟨⟨0, 1⟩, 101⟩)] := by decide
  rw [this] at huv
  simp only [mget_cons, mget_nil] at huv
  split at huv
  · rename_i hc; cases hc; decide
  · split at huv
    · rename_i hc; cases hc; decide
    · split at huv
      · rename_i hc; cases hc; decide
      · simp at huv

theorem denseIds_triangleCycle : DenseIds triangleCycle := by
  apply denseIds_of_keys 3 (by decide)
  intro id
  have : mkeys triangleCycle.nodes = [2, 1, 0] := by decide
  rw [this]
  simp only [List.mem_cons, List.mem_singleton, List.not_mem_nil, or_false]
  omega

theorem reachable_triangleCycle : Reachable triangleCycle :=
  Reachable.addEdge 2 0 120 reachable_triangle

theorem cyclic_triangleCycle : ¬ Acyclic triangleCycle := by
  intro h
  have h01 : hasEdge triangleCycle 0 1 := by
    show (getEdge triangleCycle 0 1).isSome = true
    decide
  have h12 : hasEdge triangleCycle 1 2 := by
    show (getEdge triangleCycle 1 2).isSome = true
    decide
  have h20 : hasEdge triangleCycle 2 0 := by
    show (getEdge triangleCycle 2 0).isSome = true
    decide
  exact h 0 (Relation.TransGen.tail (Relation.TransGen.tail (Relation.TransGen.single h01) h12) h20)

theorem reachable_fortyTwo : Reachable fortyTwo :=
  reachable_addNodes _ _ Reachable.newGraph

theorem acyclic_fortyTwo : Acyclic fortyTwo :=
  acyclic_of_no_edges (addNodes_spec _ _ wf_newGraph).1

theorem reachable_fortyThreeLoop : Reachable fortyThreeLoop :=
  Reachable.addEdge 42 42 1 (reachable_addNodes _ _ Reachable.newGraph)

theorem cyclic_fortyThreeLoop : ¬ Acyclic fortyThreeLoop := by
  intro h
  have hloop : hasEdge fortyThreeLoop 42 42 := by
    show (getEdge fortyThreeLoop 42 42).isSome = true
    decide
  exact h 42 (Relation.TransGen.single hloop)

theorem reachable_gappedDag : Reachable gappedDag :=
  Reachable.addEdge 1 2 5 (Reachable.removeNode _ 0 reachable_threeNodes)

theorem acyclic_gappedDag : Acyclic gappedDag := by
  apply acyclic_of_lt
  intro u v huv
  unfold hasEdge getEdge at huv
  have : gappedDag.edges = [(⟨1, 2⟩, ⟨⟨1, 2⟩, 5⟩)] := by decide
  rw [this] at huv
  simp only [mget_cons, mget_nil] at huv
  split at huv
  · rename_i hc; cases hc; decide
  · simp at huv

theorem reachable_gappedCycle : Reachable gappedCycle :=
  Reachable.addEdge 2 1 6 reachable_gappedDag

theorem cyclic_gappedCycle : ¬ Acyclic gappedCycle := by
  intro h
  have h12 : hasEdge gappedCycle 1 2 := by
    show (getEdge gappedCycle 1 2).isSome = true
    decide
  have h21 : hasEdge gappedCycle 2 1 := by
    show (getEdge gappedCycle 2 1).isSome = true
    decide
  exact h 1 (Relation.TransGen.tail (Relation.TransGen.single h12) h21)

theorem reachable_lastOnly : Reachable lastOnly :=
  Reachable.removeNode _ 0 (Reachable.addNode 11 (Reachable.addNode 10 Reachable.newGraph))

end Examples

/-! ## Graphs with a cycle: how many nodes the loop can output -/

section CyclicBound

/-- Every edge into a node that is queued or output starts at an output node. -/
theorem SortInv.pred_in {d0 d : Graph N E} {q l : List NodeId} (h : SortInv d0 d q l)
    {x v : NodeId} (hxv : hasEdge d0 x v) (hv : v ∈ l ++ q) : x ∈ l := by
  have h1 := ((h.ready v).1 hv).2 x
  rw [h.edges] at h1
  by_contra hc
  rw [if_neg hc] at h1
  unfold hasEdge at hxv
  rw [h1] at hxv
  simp at hxv

/-- Every ancestor of a node that is queued or output has been output. -/
theorem SortInv.ancestors_in {d0 d : Graph N E} {q l : List NodeId} (h : SortInv d0 d q l)
    {c v : NodeId} (hcv : Relation.TransGen (hasEdge d0) c v) (hv : v ∈ l ++ q) : c ∈ l := by
  induction hcv with
  | single h1 => exact h.pred_in h1 hv
  | tail _ h2 ih => exact ih (List.mem_append_left _ (h.pred_in h2 hv))

/-- The output lists every ancestor of an output node before it. -/
theorem SortInv.before_of_path {d0 d : Graph N E} {q l : List NodeId} (h : SortInv d0 d q l)
    {x y : NodeId} (hxy : Relation.TransGen (hasEdge d0) x y) (hy : y ∈ l) : Before l x y := by
  have hnd : l.Nodup := (List.nodup_append.1 h.nodup).1
  induction hxy with
  | single h1 => exact h.order _ _ h1 hy
  | tail _ h2 ih =>
    have hb := h.order _ _ h2 hy
    obtain ⟨i, j, _, hi, _⟩ := hb
    have hmem := List.mem_iff_getElem?.2 ⟨i, hi⟩
    exact (ih hmem).chain hnd (h.order _ _ h2 hy)

/-- No node on a cycle or reachable from one is ever queued or output. -/
theorem SortInv.not_downstream {d0 d : Graph N E} {q l : List NodeId} (h : SortInv d0 d q l)
    {v : NodeId} (hv : v ∈ l ++ q) : ¬ Downstream d0 v := by
  rintro ⟨c, hcyc, hreach⟩
  have hnd : l.Nodup := (List.nodup_append.1 h.nodup).1
  have hc : c ∈ l := by
    rcases Relation.reflTransGen_iff_eq_or_transGen.1 hreach with heq | htr
    · rw [heq] at hv
      exact h.ancestors_in hcyc hv
    · exact h.ancestors_in htr hv
  exact Before.irrefl hnd c (h.before_of_path hcyc hc)

theorem SortInv.length_le_of_sortable {d0 d : Graph N E} {q l : List NodeId}
    (h : SortInv d0 d q l) {k : Nat} (hs : SortableAtMost d0 k) : (l ++ q).length ≤ k := by
  obtain ⟨S, hlen, hcover⟩ := hs
  have hsub : l ++ q ⊆ S :=
    fun v hv => hcover v ((h.ready v).1 hv).1 (h.not_downstream hv)
  exact le_trans (List.subperm_of_subset h.nodup hsub).length_le hlen

/-- The loop ends without abort as soon as at most 41 nodes can be output. -/
theorem sortLoop_spec_bound (out : Nat → IterOrder (NodeId × Edge E)) {d0 : Graph N E}
    (hs : SortableAtMost d0 41) :
    ∀ (fuel : Nat) (d : Graph N E) (q l : List NodeId), SortInv d0 d q l →
      42 ≤ fuel + l.length →
      ∃ d1 l1, SortInv d0 d1 [] l1 ∧
        sortLoop out fuel d q l =
          .ret (if d1.edges.length > 0 then ([], some .cyclic) else (l1, none)) := by
  intro fuel
  induction fuel with
  | zero =>
    intro d q l h hf
    cases q with
    | nil => exact ⟨d, l, h, rfl⟩
    | cons a q1 =>
      have := h.length_le_of_sortable hs
      simp only [List.length_append, List.length_cons] at this
      omega
  | succ fuel ih =>
    intro d q l h hf
    cases q with
    | nil => exact ⟨d, l, h, rfl⟩
    | cons a q1 =>
      have hle := h.length_le_of_sortable hs
      simp only [List.length_append, List.length_cons] at hle
      have h40 : ¬ l.length > 40 := by omega
      obtain ⟨na, d1, q2, hna, hret, hinv⟩ := h.step (out l.length)
      obtain ⟨d2, l2, hfin, hres⟩ := ih d1 q2 (l ++ [a]) hinv
        (by simp only [List.length_append, List.length_singleton]; omega)
      refine ⟨d2, l2, hfin, ?_⟩
      rw [← hres]
      conv_lhs => unfold sortLoop
      rw [if_neg h40]
      simp only [hna, hret]

theorem downstream_congr {d g : Graph N E} (h : ∀ a b, hasEdge d a b ↔ hasEdge g a b)
    (v : NodeId) : Downstream d v ↔ Downstream g v := by
  have : hasEdge d = hasEdge g := by
    funext a b; exact propext (h a b)
  unfold Downstream
  rw [this]

/-- A graph with a cycle and `n` nodes has at most `n - 1` nodes off every
cycle and out of reach of every cycle. -/
theorem sortableAtMost_of_cyclic {g : Graph N E} (h : WF g) (hc : ¬ Acyclic g) {k : Nat}
    (hn : g.nodes.length ≤ k + 1) : SortableAtMost g k := by
  unfold Acyclic at hc
  push_neg at hc
  obtain ⟨c, hcyc⟩ := hc
  have hcnode : c ∈ mkeys g.nodes := by
    rw [mem_mkeys_iff]
    obtain ⟨b, hcb, _⟩ := Relation.TransGen.head'_iff.1 hcyc
    exact (h.endpoints hcb).1
  refine ⟨(mkeys g.nodes).erase c, ?_, ?_⟩
  · rw [List.length_erase_of_mem hcnode]
    have : (mkeys g.nodes).length = g.nodes.length := by simp [mkeys]
    omega
  · intro v hv hnd
    have hne : v ≠ c := by
      intro e
      exact hnd ⟨c, hcyc, by rw [e]⟩
    exact (List.mem_erase_of_ne hne).2 ((mem_mkeys_iff _ _).2 hv)

/-- The outcome of `TopologicalSort` on a well-formed graph with identities
`0 .. n-1` in which at most 41 nodes can be output. -/
theorem topologicalSort_outcome_bound (o : SortOrder N E) (g : Graph N E) (hw : WF g)
    (hd : DenseIds g) (hs : SortableAtMost g 41) :
    ∃ (d d1 : Graph N E) (l : List NodeId), WF d ∧
      (∀ a b, hasEdge d a b ↔ hasEdge g a b) ∧ SortInv d d1 [] l ∧
      TopologicalSort o g =
        .ret (if d1.edges.length > 0 then ([], some .cyclic) else (l, none)) := by
  obtain ⟨d, hclone, hrd, _, hnodes, hedges⟩ := clone_dense o.clone g hw hd
  have hwf := hrd.wf
  have hE : ∀ a b, hasEdge d a b ↔ hasEdge g a b := by
    intro a b
    unfold hasEdge
    rw [hedges]
    cases getEdge g a b <;> simp
  have hsd : SortableAtMost d 41 := by
    obtain ⟨S, hlen, hcover⟩ := hs
    refine ⟨S, hlen, ?_⟩
    intro v hv hnd
    rw [hnodes] at hv
    exact hcover v hv (fun hh => hnd ((downstream_congr hE v).2 hh))
  obtain ⟨d1, l, hinv, hres⟩ := sortLoop_spec_bound o.out hsd 42 d
    (seedQueue (o.seed.apply d.nodes)) [] (sortInv_init hwf o.seed) (by simp)
  refine ⟨d, d1, l, hwf, hE, hinv, ?_⟩
  unfold TopologicalSort
  rw [hclone]
  exact hres

/-- When the loop has emptied its queue, every node that is neither on a cycle
nor reachable from one has been output. -/
theorem SortInv.complete {d0 d : Graph N E} {l : List NodeId} (h : SortInv d0 d [] l)
    (hwf : WF d0) {v : NodeId} (hv : (getNode d0 v).isSome = true)
    (hnd : ¬ Downstream d0 v) : v ∈ l := by
  let P : NodeId → Prop := fun w => w ∈ mkeys d0.nodes ∧ ¬ Downstream d0 w
  have hfin : Finite {w // P w} :=
    Set.Finite.subset (List.finite_toSet (mkeys d0.nodes)) (fun w hw => hw.1)
  let r : {w // P w} → {w // P w} → Prop :=
    fun a b => Relation.TransGen (hasEdge d0) a.1 b.1
  have htrans : IsTrans {w // P w} r := ⟨fun a b c hab hbc => Relation.TransGen.trans hab hbc⟩
  have hirr : IsIrrefl {w // P w} r :=
    ⟨fun a haa => a.2.2 ⟨a.1, haa, Relation.ReflTransGen.refl⟩⟩
  have hwfr : WellFounded r := Finite.wellFounded_of_trans_of_irrefl r
  have key : ∀ a : {w // P w}, a.1 ∈ l := by
    intro a
    induction a using hwfr.induction with
    | _ a ih =>
      have hnode : (getNode d0 a.1).isSome = true := (mem_mkeys_iff _ _).1 a.2.1
      have hno : ∀ u, getEdge d u a.1 = none := by
        intro u
        rw [h.edges]
        by_cases hu : u ∈ l
        · rw [if_pos hu]
        · rw [if_neg hu]
          cases hE : getEdge d0 u a.1 with
          | none => rfl
          | some e =>
            exfalso
            have hua : hasEdge d0 u a.1 := by
              unfold hasEdge
              rw [hE]
              rfl
            have hPu : P u := by
              refine ⟨(mem_mkeys_iff _ _).2 (hwf.endpoints hua).1, ?_⟩
              rintro ⟨c, hcyc, hcu⟩
              exact a.2.2 ⟨c, hcyc, hcu.tail hua⟩
            exact hu (ih ⟨u, hPu⟩ (Relation.TransGen.single hua))
      have := (h.ready a.1).2 ⟨hnode, hno⟩
      simpa using this
  exact key ⟨v, (mem_mkeys_iff _ _).2 hv, hnd⟩

/-- The loop either stops with the ">40" abort or ends with at most 41 nodes
output. -/
theorem sortLoop_cases (out : Nat → IterOrder (NodeId × Edge E)) {d0 : Graph N E} :
    ∀ (fuel : Nat) (d : Graph N E) (q l : List NodeId), SortInv d0 d q l →
      l.length ≤ 41 → 42 ≤ fuel + l.length →
      sortLoop out fuel d q l = .abort .over40 ∨
      ∃ d1 l1, SortInv d0 d1 [] l1 ∧ l1.length ≤ 41 ∧
        sortLoop out fuel d q l =
          .ret (if d1.edges.length > 0 then ([], some .cyclic) else (l1, none)) := by
  intro fuel
  induction fuel with
  | zero =>
    intro d q l h hl hf
    cases q with
    | nil => exact Or.inr ⟨d, l, h, hl, rfl⟩
    | cons a q1 =>
      have h41 : l.length > 40 := by omega
      omega
  | succ fuel ih =>
    intro d q l h hl hf
    cases q with
    | nil => exact Or.inr ⟨d, l, h, hl, rfl⟩
    | cons a q1 =>
      by_cases h40 : l.length > 40
      · left
        unfold sortLoop
        rw [if_pos h40]
      · obtain ⟨na, d1, q2, hna, hret, hinv⟩ := h.step (out l.length)
        have hstep : sortLoop out (fuel + 1) d (a :: q1) l =
            sortLoop out fuel d1 q2 (l ++ [a]) := by
          conv_lhs => unfold sortLoop
          rw [if_neg h40]
          simp only [hna, hret]
        rw [hstep]
        exact ih d1 q2 (l ++ [a]) hinv
          (by simp only [List.length_append, List.length_singleton]; omega)
          (by simp only [List.length_append, List.length_singleton]; omega)

/-- The bound of 41 nodes that can be output is exact: with 42 or more of
them on a graph with identities `0 .. n-1`, `TopologicalSort` stops with the
">40" abort, for every iteration order. -/
theorem topologicalSort_over40 (o : SortOrder N E) (g : Graph N E) (hw : WF g)
    (hd : DenseIds g) (hs : ¬ SortableAtMost g 41) :
    TopologicalSort o g = .abort .over40 := by
  obtain ⟨d, hclone, hrd, _, hnodes, hedges⟩ := clone_dense o.clone g hw hd
  have hwf := hrd.wf
  have hE : ∀ a b, hasEdge d a b ↔ hasEdge g a b := by
    intro a b
    unfold hasEdge
    rw [hedges]
    cases getEdge g a b <;> simp
  have hrun : TopologicalSort o g =
      sortLoop o.out 42 d (seedQueue (o.seed.apply d.nodes)) [] := by
    unfold TopologicalSort
    rw [hclone]
  rw [hrun]
  rcases sortLoop_cases o.out 42 d (seedQueue (o.seed.apply d.nodes)) []
    (sortInv_init hwf o.seed) (by simp) (by simp) with h | ⟨d1, l1, hinv, hlen, _⟩
  · exact h
  · exfalso
    apply hs
    refine ⟨l1, hlen, ?_⟩
    intro v hv hnd
    rw [← hnodes] at hv
    exact hinv.complete hwf hv (fun hh => hnd ((downstream_congr hE v).1 hh))

theorem denseIds_addNodes (ns : List N) : DenseIds (addNodes (NewGraph : Graph N E) ns) := by
  obtain ⟨_, a2, _, a4⟩ := addNodes_spec ns (NewGraph : Graph N E) wf_newGraph
  intro id
  rw [a4, a2]
  have e0 : (NewGraph : Graph N E).nodeIdIncr = 0 := rfl
  have e1 : getNode (NewGraph : Graph N E) id = none := rfl
  have e2 : (NewGraph : Graph N E).nodes.length = 0 := rfl
  rw [e0, e1, e2]
  simp

theorem denseIds_addEdge {g : Graph N E} (hd : DenseIds g) (f t : NodeId) (v : E) :
    DenseIds (addEdge g f t v).1 := by
  have hsn := addEdge_sameNodes g f t v
  intro id
  rw [hsn.isSome, hsn.length]
  exact hd id

theorem reachable_fortyTwoLoop : Reachable fortyTwoLoop :=
  Reachable.addEdge 0 0 1 reachable_fortyTwo

theorem denseIds_fortyTwoLoop : DenseIds fortyTwoLoop :=
  denseIds_addEdge (denseIds_addNodes _) 0 0 1

theorem cyclic_fortyTwoLoop : ¬ Acyclic fortyTwoLoop := by
  intro h
  have hloop : hasEdge fortyTwoLoop 0 0 := by
    show (getEdge fortyTwoLoop 0 0).isSome = true
    decide
  exact h 0 (Relation.TransGen.single hloop)

theorem reachable_fortyThreeTwoCycle : Reachable fortyThreeTwoCycle :=
  Reachable.addEdge 42 41 2 (Reachable.addEdge 41 42 1
    (reachable_addNodes _ _ Reachable.newGraph))

theorem denseIds_fortyThreeTwoCycle : DenseIds fortyThreeTwoCycle :=
  denseIds_addEdge (denseIds_addEdge (denseIds_addNodes _) 41 42 1) 42 41 2

theorem cycle_fortyThreeTwoCycle :
    Relation.TransGen (hasEdge fortyThreeTwoCycle) 41 41 ∧ hasEdge fortyThreeTwoCycle 41 42 := by
  have h1 : hasEdge fortyThreeTwoCycle 41 42 := by
    show (getEdge fortyThreeTwoCycle 41 42).isSome = true
    decide
  have h2 : hasEdge fortyThreeTwoCycle 42 41 := by
    show (getEdge fortyThreeTwoCycle 42 41).isSome = true
    decide
  exact ⟨Relation.TransGen.tail (Relation.TransGen.single h1) h2, h1⟩

theorem cyclic_fortyThreeTwoCycle : ¬ Acyclic fortyThreeTwoCycle :=
  fun h => h 41 cycle_fortyThreeTwoCycle.1

/-- In `fortyThreeTwoCycle` only the 41 nodes `0 .. 40` are off the cycle. -/
theorem sortable_fortyThreeTwoCycle : SortableAtMost fortyThreeTwoCycle 41 := by
  refine ⟨(List.range 41).map (fun (i : Nat) => (i : Int)), by simp, ?_⟩
  intro (v : Int) hv hnd
  have hrange : 0 ≤ v ∧ v < ((fortyThreeTwoCycle.nodes.length : Nat) : Int) :=
    (denseIds_fortyThreeTwoCycle v).1 hv
  have hlen : fortyThreeTwoCycle.nodes.length = 43 := by decide
  rw [hlen] at hrange
  obtain ⟨hcyc, h1⟩ := cycle_fortyThreeTwoCycle
  have hv41 : v ≠ (41 : Int) := by
    intro e
    exact hnd ⟨41, hcyc, by rw [e]⟩
  have hv42 : v ≠ (42 : Int) := by
    intro e
    exact hnd ⟨41, hcyc, by rw [e]; exact Relation.ReflTransGen.single h1⟩
  rw [List.mem_map]
  refine ⟨v.toNat, List.mem_range.2 (by omega), ?_⟩
  show ((v.toNat : Nat) : Int) = v
  omega

theorem reachable_foldl_addEdge (f : Nat → NodeId × NodeId × E) (is : List Nat) :
    ∀ g : Graph N E, Reachable g →
      Reachable (is.foldl (fun g i => (addEdge g (f i).1 (f i).2.1 (f i).2.2).1) g) := by
  induction is with
  | nil => intro g h; exact h
  | cons i is ih => intro g h; exact ih _ (Reachable.addEdge _ _ _ h)

theorem denseIds_foldl_addEdge (f : Nat → NodeId × NodeId × E) (is : List Nat) :
    ∀ g : Graph N E, DenseIds g →
      DenseIds (is.foldl (fun g i => (addEdge g (f i).1 (f i).2.1 (f i).2.2).1) g) := by
  induction is with
  | nil => intro g h; exact h
  | cons i is ih => intro g h; exact ih _ (denseIds_addEdge h _ _ _)

theorem reachable_hundredRing : Reachable hundredRing :=
  reachable_foldl_addEdge (fun i => ((i : Int), (((i + 1) % 100 : Nat) : Int), i)) _ _
    (reachable_addNodes _ _ Reachable.newGraph)

theorem denseIds_hundredRing : DenseIds hundredRing :=
  denseIds_foldl_addEdge (fun i => ((i : Int), (((i + 1) % 100 : Nat) : Int), i)) _ _
    (denseIds_addNodes _)

set_option maxRecDepth 100000 in
theorem edges_hundredRing :
    ∀ i : Nat, i < 100 → hasEdge hundredRing (i : Int) (((i + 1) % 100 : Nat) : Int) := by
  unfold hasEdge
  decide

theorem path_hundredRing :
    ∀ k : Nat, k < 100 → Relation.ReflTransGen (hasEdge hundredRing) 0 (k : Int) := by
  intro k
  induction k with
  | zero => intro _; exact Relation.ReflTransGen.refl
  | succ k ih =>
    intro hk
    have he := edges_hundredRing k (by omega)
    rw [Nat.mod_eq_of_lt hk] at he
    exact (ih (by omega)).tail he

theorem cycle_hundredRing : Relation.TransGen (hasEdge hundredRing) 0 0 :=
  Relation.TransGen.tail' (path_hundredRing 99 (by decide)) (edges_hundredRing 99 (by decide))

theorem cyclic_hundredRing : ¬ Acyclic hundredRing :=
  fun h => h 0 cycle_hundredRing

/-- Every node of the ring is on the cycle, so none can be output. -/
theorem sortable_hundredRing : SortableAtMost hundredRing 41 := by
  refine ⟨[], by simp, ?_⟩
  intro (v : Int) hv hnd
  exfalso
  have hrange : 0 ≤ v ∧ v < ((hundredRing.nodes.length : Nat) : Int) :=
    (denseIds_hundredRing v).1 hv
  have hlen : hundredRing.nodes.length = 100 := by
    have hsn : ∀ (is : List Nat) (g : Graph Nat Nat),
        (is.foldl (fun g (i : Nat) =>
          (addEdge g (i : Int) (((i + 1) % 100 : Nat) : Int) i).1) g).nodes.length
          = g.nodes.length := by
      intro is
      induction is with
      | nil => intro g; rfl
      | cons i is ih => intro g; exact (ih _).trans (addEdge_sameNodes g _ _ _).length
    unfold hundredRing
    rw [hsn, (addNodes_spec (List.replicate 100 0) (NewGraph : Graph Nat Nat) wf_newGraph).2.1]
    rfl
  rw [hlen] at hrange
  have hp := path_hundredRing v.toNat (by omega)
  have hcast : ((v.toNat : Nat) : Int) = v := by omega
  rw [hcast] at hp
  exact hnd ⟨0, cycle_hundredRing, hp⟩

end CyclicBound

/-! ## `TopologicalSort`: contracts -/

section SortContracts

/-- C1 as stated fails twice over.  With 42 nodes and no edges the call ends in
the `len(l) > 40` panic.  With nodes `1, 2` left after node `0` was removed and
the edge `1 → 2`, the working copy cannot be rebuilt and the call returns the
error "Node 2 not found".  Both graphs are reachable and acyclic. -/
theorem dag_sort_can_fail :
    (Reachable fortyTwo ∧ Acyclic fortyTwo ∧
      TopologicalSort storageOrder fortyTwo = .abort .over40) ∧
    (Reachable gappedDag ∧ Acyclic gappedDag ∧
      TopologicalSort storageOrder gappedDag = .ret ([], some (.nodeNotFound 2))) :=
  ⟨⟨reachable_fortyTwo, acyclic_fortyTwo, by decide⟩,
    ⟨reachable_gappedDag, acyclic_gappedDag, by decide⟩⟩

/-- C1 (amended): for every reachable acyclic graph whose node identities are
exactly `0 .. n-1` with `n ≤ 41`, and for every iteration order of every map
loop, `TopologicalSort` returns without error a sequence in which every edge
`(u, v)` of the graph has `u` at a strictly smaller position than `v`. -/
theorem topologicalSort_dag (o : SortOrder N E) (g : Graph N E) (hr : Reachable g)
    (hd : DenseIds g) (hn : g.nodes.length ≤ 41) (hac : Acyclic g) :
    ∃ l, TopologicalSort o g = .ret (l, none) ∧ ∀ u v, hasEdge g u v → Before l u v := by
  obtain ⟨d, d1, l, hwf, hE, hinv, hres⟩ := topologicalSort_outcome o g hr hd hn
  have hacd : Acyclic d := (acyclic_congr hE).2 hac
  have h0 := hinv.final_acyclic hacd
  refine ⟨l, ?_, ?_⟩
  · rw [hres, if_neg (by omega)]
  · intro u v huv
    exact hinv.final_order hwf h0 u v ((hE u v).2 huv)

theorem topologicalSort_dag_witness :
    Reachable triangle ∧ DenseIds triangle ∧ triangle.nodes.length ≤ 41 ∧ Acyclic triangle ∧
    ∃ l, TopologicalSort storageOrder triangle = .ret (l, none) ∧
      ∀ u v, hasEdge triangle u v → Before l u v :=
  ⟨reachable_triangle, denseIds_triangle, by decide, acyclic_triangle,
    topologicalSort_dag storageOrder triangle reachable_triangle denseIds_triangle (by decide)
      acyclic_triangle⟩

/-- C2 as stated fails twice over.  With 43 nodes and the self-loop `42 → 42`
the call ends in the `len(l) > 40` panic instead of returning an error.  With
nodes `1, 2` left after node `0` was removed and the cycle `1 → 2 → 1`, the
error returned is "Node 2 not found", not "Graph is cyclic". -/
theorem cyclic_sort_can_miss :
    (Reachable fortyThreeLoop ∧ ¬ Acyclic fortyThreeLoop ∧
      TopologicalSort storageOrder fortyThreeLoop = .abort .over40) ∧
    (Reachable gappedCycle ∧ ¬ Acyclic gappedCycle ∧
      TopologicalSort storageOrder gappedCycle = .ret ([], some (.nodeNotFound 2))) :=
  ⟨⟨reachable_fortyThreeLoop, cyclic_fortyThreeLoop, by decide⟩,
    ⟨reachable_gappedCycle, cyclic_gappedCycle, by decide⟩⟩

/-- C2 (amended): for every reachable graph whose node identities are exactly
`0 .. n-1`, that contains a directed cycle (a self-loop and a two-node cycle
included), and in which at most 41 nodes are neither on a cycle nor reachable
from one (which is so whenever `n ≤ 42`), `TopologicalSort` returns, for every
iteration order, the "Graph is cyclic" error together with the empty
sequence. -/
theorem topologicalSort_cyclic (o : SortOrder N E) (g : Graph N E) (hr : Reachable g)
    (hd : DenseIds g) (hb : g.nodes.length ≤ 42 ∨ SortableAtMost g 41) (hc : ¬ Acyclic g) :
    TopologicalSort o g = .ret ([], some .cyclic) := by
  have hs : SortableAtMost g 41 := by
    rcases hb with hb | hb
    · exact sortableAtMost_of_cyclic hr.wf hc hb
    · exact hb
  obtain ⟨d, d1, l, hwf, hE, hinv, hres⟩ := topologicalSort_outcome_bound o g hr.wf hd hs
  have hcd : ¬ Acyclic d := fun h => hc ((acyclic_congr hE).1 h)
  have h0 := hinv.final_cyclic hwf hcd
  rw [hres, if_pos h0]

theorem topologicalSort_cyclic_witness :
    (Reachable fortyTwoLoop ∧ DenseIds fortyTwoLoop ∧ fortyTwoLoop.nodes.length ≤ 42 ∧
      ¬ Acyclic fortyTwoLoop ∧
      TopologicalSort storageOrder fortyTwoLoop = .ret ([], some .cyclic)) ∧
    (Reachable fortyThreeTwoCycle ∧ DenseIds fortyThreeTwoCycle ∧
      fortyThreeTwoCycle.nodes.length = 43 ∧ SortableAtMost fortyThreeTwoCycle 41 ∧
      ¬ Acyclic fortyThreeTwoCycle ∧
      TopologicalSort storageOrder fortyThreeTwoCycle = .ret ([], some .cyclic)) :=
  ⟨⟨reachable_fortyTwoLoop, denseIds_fortyTwoLoop, by decide, cyclic_fortyTwoLoop,
      topologicalSort_cyclic storageOrder fortyTwoLoop reachable_fortyTwoLoop
        denseIds_fortyTwoLoop (Or.inl (by decide)) cyclic_fortyTwoLoop⟩,
    ⟨reachable_fortyThreeTwoCycle, denseIds_fortyThreeTwoCycle, by decide,
      sortable_fortyThreeTwoCycle, cyclic_fortyThreeTwoCycle,
      topologicalSort_cyclic storageOrder fortyThreeTwoCycle reachable_fortyThreeTwoCycle
        denseIds_fortyThreeTwoCycle (Or.inr sortable_fortyThreeTwoCycle)
        cyclic_fortyThreeTwoCycle⟩⟩

/-- C3 fails on the code: after `AddNode`, `AddNode`, `RemoveNode(0)` the only
node of the graph is `1`, yet `TopologicalSort` succeeds and returns `[0]`, the
identity that node received in the renumbered working copy. -/
theorem sort_lists_clone_ids :
    Reachable lastOnly ∧ getNode lastOnly 0 = none ∧ (getNode lastOnly 1).isSome = true ∧
    mkeys lastOnly.nodes = [1] ∧
    TopologicalSort storageOrder lastOnly = .ret ([0], none) :=
  ⟨reachable_lastOnly, by decide, by decide, by decide, by decide⟩

end SortContracts

/-! ## `NewGraphFrom` and `clone` in general -/

section Rebuild

theorem addEdges_sameNodes (L : List (EdgeId × E)) :
    ∀ d : Graph N E, SameNodes d (addEdges d L).1 := by
  induction L with
  | nil => intro d; exact SameNodes.refl d
  | cons p rest ih =>
    intro d
    obtain ⟨id, v⟩ := p
    have hsn := addEdge_sameNodes d id.From id.To v
    unfold addEdges
    split
    · rename_i d1 _ err heq
      rw [heq] at hsn; exact hsn
    · rename_i d1 _ heq
      rw [heq] at hsn
      exact hsn.trans (ih d1)

theorem reachable_addEdges (L : List (EdgeId × E)) :
    ∀ d : Graph N E, Reachable d → Reachable (addEdges d L).1 := by
  induction L with
  | nil => intro d h; exact h
  | cons p rest ih =>
    intro d h
    obtain ⟨id, v⟩ := p
    have hr := Reachable.addEdge id.From id.To v h
    unfold addEdges
    split
    · rename_i d1 _ err heq
      rw [heq] at hr; exact hr
    · rename_i d1 _ heq
      rw [heq] at hr
      exact ih d1 hr

/-- The second loop of `NewGraphFrom` succeeds exactly when every key has both
endpoints among the nodes (the keys being distinct and not yet present). -/
theorem addEdges_ok_iff (L : List (EdgeId × E)) :
    ∀ d : Graph N E, (mkeys L).Nodup →
      (∀ p ∈ L, getEdge d p.1.From p.1.To = none) →
      ((addEdges d L).2 = none ↔
        ∀ p ∈ L, (getNode d p.1.From).isSome = true ∧ (getNode d p.1.To).isSome = true) := by
  induction L with
  | nil => intro d _ _; simp [addEdges]
  | cons p rest ih =>
    intro d hnd hnone
    obtain ⟨id, v⟩ := p
    have hk : mkeys ((id, v) :: rest) = id :: mkeys rest := rfl
    rw [hk, List.nodup_cons] at hnd
    have he := hnone (id, v) (List.mem_cons_self _ _)
    by_cases hok : (getNode d id.From).isSome = true ∧ (getNode d id.To).isSome = true
    · have heq := addEdge_eq_of_ok v hok.1 hok.2 he
      have hsn := addEdge_sameNodes d id.From id.To v
      have hE := getEdge_addEdge v hok.1 hok.2 he
      have hstep : addEdges d ((id, v) :: rest) = addEdges (addEdge d id.From id.To v).1 rest := by
        conv_lhs => unfold addEdges
        rw [heq]
      have hrest : ∀ p ∈ rest, getEdge (addEdge d id.From id.To v).1 p.1.From p.1.To = none := by
        intro p hp
        rw [hE, hnone p (List.mem_cons_of_mem _ hp)]
        have hne : ¬ (p.1.From = id.From ∧ p.1.To = id.To) := by
          intro hc
          apply hnd.1
          have : p.1 = id := by
            cases hp1 : p.1; cases id; rw [hp1] at hc; simp_all
          rw [← this]
          exact List.mem_map_of_mem _ hp
        simp [hne]
      rw [hstep, ih _ hnd.2 hrest]
      constructor
      · intro hh p hp
        rcases List.mem_cons.1 hp with rfl | hp
        · exact hok
        · have := hh p hp
          rw [hsn.isSome, hsn.isSome] at this
          exact this
      · intro hh p hp
        rw [hsn.isSome, hsn.isSome]
        exact hh p (List.mem_cons_of_mem _ hp)
    · have hfail := (addEdge_eq_of_not_ok v (fun hc => hok ⟨hc.1, hc.2.1⟩)).2
      constructor
      · intro hh
        exfalso
        unfold addEdges at hh
        split at hh
        · cases hh
        · rename_i d1 _ heq
          rw [heq] at hfail
          exact hfail rfl
      · intro hh
        exact absurd (hh (id, v) (List.mem_cons_self _ _)) hok

theorem cloneNodes_get (d : Graph N E) :
    ∀ (L : List NodeId) (ns : List N), cloneNodes d L = .ret ns →
      ns.length = L.length ∧
      ∀ i : Nat, ns[i]? = (L[i]?).bind (fun id => (getNode d id).map (fun n => n.Data)) := by
  intro L
  induction L with
  | nil =>
    intro ns h
    simp only [cloneNodes] at h
    cases h
    exact ⟨rfl, by intro i; simp⟩
  | cons id rest ih =>
    intro ns h
    unfold cloneNodes at h
    split at h
    · cases h
    · rename_i n hn
      split at h
      · cases h
      · rename_i ns2 hns2
        cases h
        obtain ⟨hlen, hget⟩ := ih ns2 hns2
        refine ⟨by simp [hlen], ?_⟩
        intro i
        cases i with
        | zero => simp [hn]
        | succ i => simpa using hget i

/-- The identities `clone` collects and sorts are the ascending node identities,
whatever the iteration order. -/
theorem clone_nodeIds (ord : IterOrder (NodeId × Node N E)) {g : Graph N E} (h : WF g) :
    ((ord.apply g.nodes).map (fun p => p.2.id)).insertionSort (fun a b => a ≤ b) = sortedIds g := by
  have hmap : (ord.apply g.nodes).map (fun p => p.2.id) = mkeys (ord.apply g.nodes) := by
    unfold mkeys
    apply List.map_congr_left
    intro p hp
    have hp2 : p ∈ g.nodes := (ord.perm g.nodes).mem_iff.1 hp
    exact h.nodeId p.1 p.2 (mget_of_mem h.nodesNodup hp2)
  rw [hmap]
  unfold sortedIds
  apply List.eq_of_perm_of_sorted (r := fun (a b : Int) => a ≤ b)
  · exact (List.perm_insertionSort _ _).trans
      ((mkeys_perm (ord.perm g.nodes)).trans (List.perm_insertionSort _ _).symm)
  · exact List.sorted_insertionSort _ _
  · exact List.sorted_insertionSort _ _

/-- On a well-formed graph `clone` does not abort: it hands the payloads in
ascending identity order and the edge payloads by key to `NewGraphFrom`. -/
theorem clone_eq (o : CloneOrder N E) (g : Graph N E) (h : WF g) :
    ∃ ns es, clone o g = .ret (NewGraphFrom o.built ns es) ∧
      ns.length = g.nodes.length ∧
      (∀ i : Nat, ns[i]? =
        ((sortedIds g)[i]?).bind (fun id => (getNode g id).map (fun n => n.Data))) ∧
      (mkeys es).Nodup ∧
      (∀ k, mget es k = (mget g.edges k).map (fun e => e.Data)) := by
  have hids : ∀ id ∈ sortedIds g, (getNode g id).isSome = true := by
    intro id hid
    unfold sortedIds at hid
    rw [(List.perm_insertionSort _ _).mem_iff] at hid
    exact (mem_mkeys_iff _ _).1 hid
  have hlenIds : (sortedIds g).length = g.nodes.length := by
    unfold sortedIds
    rw [(List.perm_insertionSort _ _).length_eq]
    simp [mkeys]
  obtain ⟨ns, hns, _⟩ := cloneNodes_ok g _ hids
  obtain ⟨hnsLen, hnsGet⟩ := cloneNodes_get g _ ns hns
  have hedges : ∀ p ∈ o.edges.apply g.edges,
      getEdge g p.2.id.From p.2.id.To = some p.2 ∧ p.2.id = p.1 := by
    intro p hp
    have hp2 : p ∈ g.edges := (o.edges.perm g.edges).mem_iff.1 hp
    have hget : mget g.edges p.1 = some p.2 := mget_of_mem h.edgesNodup hp2
    have hid : p.2.id = p.1 := h.edgeId p.1.From p.1.To p.2 hget
    refine ⟨?_, hid⟩
    rw [hid]; exact hget
  have hndE : (mkeys (o.edges.apply g.edges)).Nodup :=
    ((mkeys_perm (o.edges.perm g.edges)).nodup_iff).2 h.edgesNodup
  obtain ⟨es, hes, hnes, hget⟩ := cloneEdges_ok g _ [] hedges hndE List.nodup_nil
  refine ⟨ns, es, ?_, by rw [hnsLen, hlenIds], hnsGet, hnes, ?_⟩
  · unfold clone
    simp only [clone_nodeIds o.nodes h, hns, hes]
  · intro k
    rw [hget, mget_perm (o.edges.perm g.edges) h.edgesNodup]
    cases mget g.edges k <;> rfl

theorem addNodes_get (ns : List N) :
    ∀ d : Graph N E, WF d →
      (∀ k : Int, k < d.nodeIdIncr → getNode (addNodes d ns) k = getNode d k) ∧
      (∀ (i : Nat) (n : N), ns[i]? = some n →
        getNode (addNodes d ns) (d.nodeIdIncr + (i : Int)) =
          some { id := d.nodeIdIncr + (i : Int), Data := n, IncomingConnections := [],
                 OutgoingConnections := [] }) := by
  induction ns with
  | nil =>
    intro d _
    exact ⟨fun _ _ => rfl, by intro i n h; simp at h⟩
  | cons n rest ih =>
    intro d hd
    obtain ⟨h1, h2⟩ := ih (addNode d n).1 (wf_addNode hd n)
    have hstep : addNodes d (n :: rest) = addNodes (addNode d n).1 rest := rfl
    have hincr : (addNode d n).1.nodeIdIncr = d.nodeIdIncr + 1 := rfl
    rw [hincr] at h1 h2
    rw [hstep]
    constructor
    · intro k hk
      rw [h1 k (by omega), getNode_addNode, if_neg (by omega)]
    · intro i m hi
      cases i with
      | zero =>
        simp only [List.getElem?_cons_zero, Option.some.injEq] at hi
        subst hi
        simp only [Nat.cast_zero, add_zero]
        rw [h1 _ (by omega), getNode_addNode, if_pos rfl]
      | succ i =>
        simp only [List.getElem?_cons_succ] at hi
        have := h2 i m hi
        have e : d.nodeIdIncr + ((i + 1 : Nat) : Int) = d.nodeIdIncr + 1 + (i : Int) := by
          push_cast; ring
        rw [e]
        exact this

end Rebuild

section RebuildChar

/-- What `NewGraphFrom` returns when the keys of `edges` are distinct. -/
theorem newGraphFrom_char (ord : IterOrder (EdgeId × E)) (nodes : List N)
    (L : List (EdgeId × E)) (hnd : (mkeys L).Nodup) :
    ((NewGraphFrom ord nodes L).2 = none ↔
      ∀ p ∈ L, inRange nodes.length p.1.From ∧ inRange nodes.length p.1.To) ∧
    Reachable (NewGraphFrom ord nodes L).1 ∧
    (NewGraphFrom ord nodes L).1.nodes.length = nodes.length ∧
    (NewGraphFrom ord nodes L).1.nodeIdIncr = (nodes.length : Int) ∧
    (∀ k : Int, (getNode (NewGraphFrom ord nodes L).1 k).isSome = true ↔
      inRange nodes.length k) ∧
    (∀ i : Nat, (getNode (NewGraphFrom ord nodes L).1 (i : Int)).map (fun x => (x.id, x.Data)) =
      (nodes[i]?).map (fun n => ((i : Int), n))) ∧
    ((NewGraphFrom ord nodes L).2 = none →
      ∀ a b, getEdge (NewGraphFrom ord nodes L).1 a b =
        (mget L ⟨a, b⟩).map (fun v => (⟨⟨a, b⟩, v⟩ : Edge E))) := by
  have hdef : NewGraphFrom ord nodes L
      = addEdges (addNodes (NewGraph : Graph N E) nodes) (ord.apply L) := rfl
  rw [hdef]
  have hwf0 : WF (NewGraph : Graph N E) := wf_newGraph
  obtain ⟨a1, a2, a3, a4⟩ := addNodes_spec nodes (NewGraph : Graph N E) hwf0
  obtain ⟨_, g2⟩ := addNodes_get nodes (NewGraph : Graph N E) hwf0
  have hr0 : Reachable (addNodes (NewGraph : Graph N E) nodes) :=
    reachable_addNodes nodes _ Reachable.newGraph
  have e0 : (NewGraph : Graph N E).nodeIdIncr = 0 := rfl
  have e1 : ∀ k, getNode (NewGraph : Graph N E) k = none := fun _ => rfl
  have e2 : (NewGraph : Graph N E).nodes.length = 0 := rfl
  have e3 : (NewGraph : Graph N E).edges = [] := rfl
  rw [e0] at a3 g2
  rw [e2] at a2
  rw [e3] at a1
  have hnodes0 : ∀ k : Int, (getNode (addNodes (NewGraph : Graph N E) nodes) k).isSome = true ↔
      inRange nodes.length k := by
    intro k
    rw [a4, e0, e1]
    unfold inRange
    simp
  have hsn := addEdges_sameNodes (ord.apply L) (addNodes (NewGraph : Graph N E) nodes)
  have hndB : (mkeys (ord.apply L)).Nodup := ((mkeys_perm (ord.perm L)).nodup_iff).2 hnd
  have hnone0 : ∀ p ∈ ord.apply L,
      getEdge (addNodes (NewGraph : Graph N E) nodes) p.1.From p.1.To = none := by
    intro p _
    unfold getEdge
    rw [a1]; rfl
  have hiff := addEdges_ok_iff (ord.apply L) _ hndB hnone0
  refine ⟨?_, reachable_addEdges _ _ hr0, ?_, ?_, ?_, ?_, ?_⟩
  · rw [hiff]
    constructor
    · intro hh p hp
      have := hh p ((ord.perm L).mem_iff.2 hp)
      exact ⟨(hnodes0 _).1 this.1, (hnodes0 _).1 this.2⟩
    · intro hh p hp
      have := hh p ((ord.perm L).mem_iff.1 hp)
      exact ⟨(hnodes0 _).2 this.1, (hnodes0 _).2 this.2⟩
  · rw [hsn.length, a2]; simp
  · rw [hsn.incr, a3]; simp
  · intro k
    rw [hsn.isSome, hnodes0]
  · intro i
    rw [hsn.data]
    cases hi : nodes[i]? with
    | none =>
      have hlen : nodes.length ≤ i := by
        by_contra hc
        have hlt : i < nodes.length := by omega
        rw [List.getElem?_eq_getElem hlt] at hi
        cases hi
      have hno : ¬ inRange nodes.length (i : Int) := by
        unfold inRange; omega
      have : getNode (addNodes (NewGraph : Graph N E) nodes) (i : Int) = none := by
        cases hg : getNode (addNodes (NewGraph : Graph N E) nodes) (i : Int) with
        | none => rfl
        | some x => exact absurd ((hnodes0 _).1 (by rw [hg]; rfl)) hno
      rw [this]; rfl
    | some n =>
      have := g2 i n hi
      simp only [zero_add] at this
      rw [this]; rfl
  · intro hok a b
    have hpre := hiff.1 hok
    obtain ⟨_, _, _, b4, b5⟩ := addEdges_spec (ord.apply L) _ hr0 hndB
      (fun p hp => ⟨(hpre p hp).1, (hpre p hp).2, hnone0 p hp⟩)
    have hm : mget (ord.apply L) ⟨a, b⟩ = mget L ⟨a, b⟩ := mget_perm (ord.perm L) hnd _
    cases hg : mget L ⟨a, b⟩ with
    | none =>
      rw [hg] at hm
      rw [b5 a b hm]
      unfold getEdge
      rw [a1]; rfl
    | some v =>
      rw [hg] at hm
      rw [b4 a b v hm]; rfl

/-- What a successful `clone` of a well-formed graph returns. -/
theorem clone_success (o : CloneOrder N E) (g : Graph N E) (h : WF g) (d : Graph N E)
    (hc : clone o g = .ret (d, none)) :
    Reachable d ∧ d.nodes.length = g.nodes.length ∧
    d.nodeIdIncr = (g.nodes.length : Int) ∧
    (∀ k : Int, (getNode d k).isSome = true ↔ inRange g.nodes.length k) ∧
    (∀ i : Nat, (getNode d (i : Int)).map (fun x => (x.id, x.Data)) =
      (((sortedIds g)[i]?).bind (fun id => (getNode g id).map (fun n => n.Data))).map
        (fun n => ((i : Int), n))) ∧
    (∀ a b, getEdge d a b = (getEdge g a b).map (fun e => (⟨⟨a, b⟩, e.Data⟩ : Edge E))) := by
  obtain ⟨ns, es, hclone, hlen, hns, hnd, hes⟩ := clone_eq o g h
  rw [hclone] at hc
  have hc2 : NewGraphFrom o.built ns es = (d, none) := by injection hc
  obtain ⟨c1, c2, c3, c4, c5, c6, c7⟩ := newGraphFrom_char o.built ns es hnd
  rw [hc2] at c1 c2 c3 c4 c5 c6 c7
  rw [hlen] at c3 c4 c5
  refine ⟨c2, c3, c4, c5, ?_, ?_⟩
  · intro i
    rw [c6 i, hns i]
  · intro a b
    rw [c7 rfl a b, hes]
    unfold getEdge
    cases mget g.edges ⟨a, b⟩ <;> rfl

/-- On a well-formed graph `clone` returns: a reachable graph with as many
nodes as the source, with or without an error. -/
theorem clone_total (o : CloneOrder N E) (g : Graph N E) (h : WF g) :
    ∃ d e, clone o g = .ret (d, e) ∧ Reachable d ∧ d.nodes.length = g.nodes.length := by
  obtain ⟨ns, es, hclone, hlen, _, hnd, _⟩ := clone_eq o g h
  obtain ⟨_, c2, c3, _⟩ := newGraphFrom_char o.built ns es hnd
  exact ⟨(NewGraphFrom o.built ns es).1, (NewGraphFrom o.built ns es).2, hclone, c2,
    by rw [c3, hlen]⟩

/-- With node identities `0 .. n-1` the ascending identities are `0, 1, .., n-1`. -/
theorem sortedIds_dense {g : Graph N E} (h : WF g) (hd : DenseIds g) :
    sortedIds g = (List.range g.nodes.length).map (fun (i : Nat) => (i : Int)) := by
  unfold sortedIds
  have hnd2 : ((List.range g.nodes.length).map (fun (i : Nat) => (i : Int))).Nodup := by
    apply List.Nodup.map
    · intro a b hab; simpa using hab
    · exact List.nodup_range _
  have hperm : (mkeys g.nodes).Perm ((List.range g.nodes.length).map (fun (i : Nat) => (i : Int))) := by
    rw [List.perm_ext_iff_of_nodup h.nodesNodup hnd2]
    intro k
    rw [mem_mkeys_iff]
    have := hd k
    unfold getNode at this
    rw [this, List.mem_map]
    constructor
    · rintro ⟨h0, h1⟩
      exact ⟨k.toNat, List.mem_range.2 (by omega), Int.toNat_of_nonneg h0⟩
    · rintro ⟨i, hi, rfl⟩
      have := List.mem_range.1 hi
      show 0 ≤ (i : Int) ∧ (i : Int) < (g.nodes.length : Int)
      omega
  apply List.eq_of_perm_of_sorted (r := fun (a b : Int) => a ≤ b)
  · exact (List.perm_insertionSort _ _).trans hperm
  · exact List.sorted_insertionSort _ _
  · unfold List.Sorted
    rw [List.pairwise_map]
    exact (List.pairwise_le_range _).imp (fun hab => by exact_mod_cast hab)

end RebuildChar

/-! ## `clone` and `NewGraphFrom`: contracts -/

section CloneContracts

theorem reachable_fourGap : Reachable fourGap :=
  Reachable.addEdge 1 2 5 (Reachable.removeNode _ 0 (Reachable.addNode 13 reachable_threeNodes))

/-- C11 fails on the code: after `AddNode` three times, `RemoveNode(0)` and
`AddEdge(1, 2)`, `clone` returns the error "Node 2 not found" together with
the half-built copy that has the two renumbered nodes and no edge. -/
theorem clone_fails_after_removal :
    Reachable gappedDag ∧
    clone storageOrder.clone gappedDag
      = .ret (addNodes NewGraph [11, 12], some (.nodeNotFound 2)) :=
  ⟨reachable_gappedDag, by decide⟩

/-- C12 fails on the code: in `fourGap` (nodes `1, 2, 3`, edge `1 → 2` with
payload 5) the ascending identities `1, 2, 3` become `0, 1, 2` in the clone, so
the edge should join clone nodes `0` and `1`; the clone has no edge `0 → 1`
and instead an edge `1 → 2`, which joins the copies of nodes `2` and `3`. -/
theorem clone_keeps_old_edge_keys :
    Reachable fourGap ∧ sortedIds fourGap = [1, 2, 3] ∧
    (getEdge fourGap 1 2).map (fun e => e.Data) = some 5 ∧ getEdge fourGap 2 3 = none ∧
    clone storageOrder.clone fourGap = .ret (fourGapClone, none) ∧
    (getNode fourGapClone 0).map (fun n => n.Data) = (getNode fourGap 1).map (fun n => n.Data) ∧
    (getNode fourGapClone 1).map (fun n => n.Data) = (getNode fourGap 2).map (fun n => n.Data) ∧
    getEdge fourGapClone 0 1 = none ∧
    (getEdge fourGapClone 1 2).map (fun e => e.Data) = some 5 :=
  ⟨reachable_fourGap, by decide, by decide, by decide, by decide, by decide, by decide,
    by decide, by decide⟩

/-- C13: when `clone` succeeds on a reachable graph, the clone's node
identities are exactly `0 .. n-1` (`n` the number of source nodes), clone node
`i` carries the payload of the source node with the `i`-th smallest identity,
the identity counter of the clone is `n`, and the clone's edge collection has
exactly the keys of the source's edge collection with the same payloads. -/
theorem clone_contents (o : CloneOrder N E) (g : Graph N E) (hr : Reachable g) (d : Graph N E)
    (hc : clone o g = .ret (d, none)) :
    d.nodes.length = g.nodes.length ∧
    (∀ k : Int, (getNode d k).isSome = true ↔ (0 ≤ k ∧ k < (g.nodes.length : Int))) ∧
    (∀ i : Nat, (getNode d (i : Int)).map (fun x => x.Data) =
      ((sortedIds g)[i]?).bind (fun id => (getNode g id).map (fun n => n.Data))) ∧
    d.nodeIdIncr = (g.nodes.length : Int) ∧
    (∀ a b, (getEdge d a b).isSome = (getEdge g a b).isSome) ∧
    (∀ a b, (getEdge d a b).map (fun e => (e.id, e.Data)) =
      (getEdge g a b).map (fun e => (e.id, e.Data))) := by
  have h := hr.wf
  obtain ⟨_, c3, c4, c5, c6, c7⟩ := clone_success o g h d hc
  refine ⟨c3, c5, ?_, c4, ?_, ?_⟩
  · intro i
    have := congrArg (Option.map Prod.snd) (c6 i)
    simp only [Option.map_map] at this
    have e1 : (Prod.snd ∘ fun (x : Node N E) => (x.id, x.Data)) = fun x => x.Data := rfl
    have e2 : (Prod.snd ∘ fun (n : N) => ((i : Int), n)) = id := rfl
    rw [e1, e2, Option.map_id] at this
    exact this
  · intro a b
    rw [c7]
    cases getEdge g a b <;> rfl
  · intro a b
    rw [c7]
    cases hg : getEdge g a b with
    | none => rfl
    | some e =>
      have := h.edgeId a b e hg
      simp [this]

theorem clone_contents_witness :
    Reachable fourGap ∧ clone storageOrder.clone fourGap = .ret (fourGapClone, none) ∧
    fourGapClone.nodes.length = fourGap.nodes.length ∧
    (∀ k : Int, (getNode fourGapClone k).isSome = true ↔
      (0 ≤ k ∧ k < (fourGap.nodes.length : Int))) ∧
    (∀ i : Nat, (getNode fourGapClone (i : Int)).map (fun x => x.Data) =
      ((sortedIds fourGap)[i]?).bind (fun id => (getNode fourGap id).map (fun n => n.Data))) ∧
    fourGapClone.nodeIdIncr = (fourGap.nodes.length : Int) ∧
    (∀ a b, (getEdge fourGapClone a b).isSome = (getEdge fourGap a b).isSome) ∧
    (∀ a b, (getEdge fourGapClone a b).map (fun e => (e.id, e.Data)) =
      (getEdge fourGap a b).map (fun e => (e.id, e.Data))) :=
  ⟨reachable_fourGap, by decide,
    clone_contents storageOrder.clone fourGap reachable_fourGap fourGapClone (by decide)⟩

/-- C14: for a map `edges` (distinct keys), `NewGraphFrom(nodes, edges)` returns
an error exactly when some key has `From` or `To` outside `0 .. len(nodes)-1`.
Otherwise the graph has exactly the nodes `0 .. len(nodes)-1`, node `i` carries
`nodes[i]`, the next identity is `len(nodes)`, and the edges are exactly those
of the map with their payloads, the same in the edge collection and in both
adjacency maps. -/
theorem newGraphFrom_contract (ord : IterOrder (EdgeId × E)) (nodes : List N)
    (edges : List (EdgeId × E)) (hnd : (mkeys edges).Nodup) :
    ((NewGraphFrom ord nodes edges).2 ≠ none ↔
      ∃ p ∈ edges, ¬ (inRange nodes.length p.1.From ∧ inRange nodes.length p.1.To)) ∧
    ((NewGraphFrom ord nodes edges).2 = none →
      (∀ k : Int, (getNode (NewGraphFrom ord nodes edges).1 k).isSome = true ↔
        inRange nodes.length k) ∧
      (∀ i : Nat, (getNode (NewGraphFrom ord nodes edges).1 (i : Int)).map
        (fun x => (x.id, x.Data)) = (nodes[i]?).map (fun n => ((i : Int), n))) ∧
      (NewGraphFrom ord nodes edges).1.nodeIdIncr = (nodes.length : Int) ∧
      (∀ a b, getEdge (NewGraphFrom ord nodes edges).1 a b =
        (mget edges ⟨a, b⟩).map (fun v => (⟨⟨a, b⟩, v⟩ : Edge E))) ∧
      (∀ a b, outE (NewGraphFrom ord nodes edges).1 a b =
        getEdge (NewGraphFrom ord nodes edges).1 a b) ∧
      (∀ a b, inE (NewGraphFrom ord nodes edges).1 b a =
        getEdge (NewGraphFrom ord nodes edges).1 a b)) := by
  obtain ⟨c1, c2, _, c4, c5, c6, c7⟩ := newGraphFrom_char ord nodes edges hnd
  constructor
  · rw [Ne, c1]
    push_neg
    rfl
  · intro hok
    exact ⟨c5, c6, c4, c7 hok, c2.wf.outView, c2.wf.inView⟩

theorem newGraphFrom_contract_witness :
    (mkeys [((⟨0, 1⟩ : EdgeId), 5), (⟨1, 0⟩, 6)]).Nodup ∧
    (NewGraphFrom (IterOrder.reversed _) [10, 11] [((⟨0, 1⟩ : EdgeId), 5), (⟨1, 0⟩, 6)]).2 = none ∧
    ((NewGraphFrom (IterOrder.reversed _) [10, 11] [((⟨0, 1⟩ : EdgeId), 7), (⟨1, 2⟩, 8)]).2 ≠ none ↔
      ∃ p ∈ [((⟨0, 1⟩ : EdgeId), 7), (⟨1, 2⟩, 8)],
        ¬ (inRange [10, 11].length p.1.From ∧ inRange [10, 11].length p.1.To)) ∧
    ∀ a b, getEdge
        (NewGraphFrom (IterOrder.reversed _) [10, 11] [((⟨0, 1⟩ : EdgeId), 5), (⟨1, 0⟩, 6)]).1 a b =
      (mget [((⟨0, 1⟩ : EdgeId), 5), (⟨1, 0⟩, 6)] ⟨a, b⟩).map (fun v => (⟨⟨a, b⟩, v⟩ : Edge Nat)) :=
  ⟨by decide, by decide,
    (newGraphFrom_contract (IterOrder.reversed _) [10, 11]
      [((⟨0, 1⟩ : EdgeId), 7), (⟨1, 2⟩, 8)] (by decide)).1,
    ((newGraphFrom_contract (IterOrder.reversed _) [10, 11]
      [((⟨0, 1⟩ : EdgeId), 5), (⟨1, 0⟩, 6)] (by decide)).2 (by decide)).2.2.2.1⟩

/-- C19: on a reachable graph whose node identities are exactly `0 .. n-1` and
whose identity counter is `n`, `clone` succeeds and the clone agrees with the
source in every lookup: node identities and payloads, edges with their keys
and payloads, outgoing and incoming map entries, identity counter and number
of nodes. -/
theorem clone_dense_equal (o : CloneOrder N E) (g : Graph N E) (hr : Reachable g)
    (hd : DenseIds g) (hincr : g.nodeIdIncr = (g.nodes.length : Int)) :
    ∃ d, clone o g = .ret (d, none) ∧
      (∀ k : Int, (getNode d k).map (fun x => (x.id, x.Data)) =
        (getNode g k).map (fun x => (x.id, x.Data))) ∧
      (∀ a b, getEdge d a b = getEdge g a b) ∧
      (∀ a b, outE d a b = outE g a b) ∧
      (∀ a b, inE d b a = inE g b a) ∧
      d.nodeIdIncr = g.nodeIdIncr ∧
      d.nodes.length = g.nodes.length := by
  have h := hr.wf
  obtain ⟨d, hclone, _, _, _, _⟩ := clone_dense o g h hd
  obtain ⟨c2, c3, c4, c5, c6, c7⟩ := clone_success o g h d hclone
  have hE : ∀ a b, getEdge d a b = getEdge g a b := by
    intro a b
    rw [c7]
    cases hg : getEdge g a b with
    | none => rfl
    | some e =>
      have := h.edgeId a b e hg
      cases e
      simp_all
  refine ⟨d, hclone, ?_, hE, ?_, ?_, by rw [c4, hincr], c3⟩
  · intro k
    by_cases hk : inRange g.nodes.length k
    · obtain ⟨hk0, hk1⟩ := hk
      obtain ⟨i, rfl⟩ : ∃ i : Nat, k = (i : Int) := ⟨k.toNat, (Int.toNat_of_nonneg hk0).symm⟩
      have hi : i < g.nodes.length := by omega
      rw [c6 i, sortedIds_dense h hd, List.getElem?_map, List.getElem?_range hi]
      simp only [Option.map_some', Option.some_bind]
      cases hg : getNode g (i : Int) with
      | none => rfl
      | some x =>
        have := h.nodeId _ x hg
        simp [this]
    · have h1 : getNode d k = none := by
        cases hg : getNode d k with
        | none => rfl
        | some x => exact absurd ((c5 k).1 (by rw [hg]; rfl)) hk
      have h2 : getNode g k = none := by
        cases hg : getNode g k with
        | none => rfl
        | some x => exact absurd ((hd k).1 (by rw [hg]; rfl)) hk
      rw [h1, h2]
  · intro a b
    rw [c2.wf.outView, h.outView, hE]
  · intro a b
    rw [c2.wf.inView, h.inView, hE]

theorem clone_dense_equal_witness :
    Reachable triangle ∧ DenseIds triangle ∧
    triangle.nodeIdIncr = (triangle.nodes.length : Int) ∧
    ∃ d, clone (storageOrder.clone) triangle = .ret (d, none) ∧
      (∀ k : Int, (getNode d k).map (fun x => (x.id, x.Data)) =
        (getNode triangle k).map (fun x => (x.id, x.Data))) ∧
      (∀ a b, getEdge d a b = getEdge triangle a b) ∧
      (∀ a b, outE d a b = outE triangle a b) ∧
      (∀ a b, inE d b a = inE triangle b a) ∧
      d.nodeIdIncr = triangle.nodeIdIncr ∧
      d.nodes.length = triangle.nodes.length :=
  ⟨reachable_triangle, denseIds_triangle, by decide,
    clone_dense_equal storageOrder.clone triangle reachable_triangle denseIds_triangle
      (by decide)⟩

end CloneContracts

/-! ## `TopologicalSort`: termination without panic, and the full contract -/

section SortContracts2

/-- When the loop ends with no edge left, the output lists every node once. -/
theorem SortInv.final_perm {d0 d : Graph N E} {l : List NodeId} (h : SortInv d0 d [] l)
    (h0 : WF d0) (hempty : d.edges.length = 0) : l.Perm (mkeys d0.nodes) := by
  rw [edges_empty_iff] at hempty
  have hnd : l.Nodup := by simpa using h.nodup
  rw [List.perm_ext_iff_of_nodup hnd h0.nodesNodup]
  intro v
  rw [mem_mkeys_iff]
  have := h.ready v
  simp only [List.append_nil] at this
  rw [this]
  constructor
  · intro hh; exact hh.1
  · intro hh; exact ⟨hh, fun u => hempty u v⟩

/-- The outcome of `TopologicalSort` on a well-formed graph with identities
`0 .. n-1`, `n ≤ 41`, with the link between the nodes of the working copy and
those of the graph. -/
theorem topologicalSort_outcome_nodes (o : SortOrder N E) (g : Graph N E) (hw : WF g)
    (hd : DenseIds g) (hn : g.nodes.length ≤ 41) :
    ∃ (d d1 : Graph N E) (l : List NodeId), WF d ∧
      (mkeys d.nodes).Perm (mkeys g.nodes) ∧
      (∀ a b, hasEdge d a b ↔ hasEdge g a b) ∧
      SortInv d d1 [] l ∧
      TopologicalSort o g =
        .ret (if d1.edges.length > 0 then ([], some .cyclic) else (l, none)) := by
  obtain ⟨d, hclone, hrd, hlen, hnodes, hedges⟩ := clone_dense o.clone g hw hd
  have hwf := hrd.wf
  obtain ⟨d1, l, hinv, hres⟩ := @sortLoop_spec N E o.out d (by rw [hlen]; exact hn) 42 d
    (seedQueue (o.seed.apply d.nodes)) [] (sortInv_init hwf o.seed) (by simp)
  refine ⟨d, d1, l, hwf, ?_, ?_, hinv, ?_⟩
  · rw [List.perm_ext_iff_of_nodup hwf.nodesNodup hw.nodesNodup]
    intro k
    rw [mem_mkeys_iff, mem_mkeys_iff]
    have := hnodes k
    unfold getNode at this
    rw [this]
  · intro a b
    unfold hasEdge
    rw [hedges]
    cases getEdge g a b <;> simp
  · unfold TopologicalSort
    rw [hclone]
    exact hres

/-- C15 as stated fails: on 42 nodes without edges `TopologicalSort` ends in
the `len(l) > 40` panic, here with every map visited in reverse storage order. -/
theorem sort_can_panic :
    Reachable fortyTwo ∧ fortyTwo.nodes.length = 42 ∧
    TopologicalSort reversedOrder fortyTwo = .abort .over40 :=
  ⟨reachable_fortyTwo, by decide, by decide⟩

/-- C15 (amended): on every reachable graph with at most 41 nodes, and for
every iteration order, `TopologicalSort` returns: either a sequence without
error or an error with the empty sequence.  It does not reach the
`len(l) > 40` panic, nor a nil dereference. -/
theorem topologicalSort_returns (o : SortOrder N E) (g : Graph N E) (hr : Reachable g)
    (hn : g.nodes.length ≤ 41) :
    ∃ l e, TopologicalSort o g = .ret (l, e) ∧ (e = none ∨ l = []) := by
  obtain ⟨d, e, hclone, hrd, hlen⟩ := clone_total o.clone g hr.wf
  cases e with
  | some err =>
    refine ⟨[], some err, ?_, Or.inr rfl⟩
    unfold TopologicalSort
    rw [hclone]
  | none =>
    obtain ⟨d1, l, _, hres⟩ := @sortLoop_spec N E o.out d (by rw [hlen]; exact hn) 42 d
      (seedQueue (o.seed.apply d.nodes)) [] (sortInv_init hrd.wf o.seed) (by simp)
    have hts : TopologicalSort o g =
        .ret (if d1.edges.length > 0 then ([], some .cyclic) else (l, none)) := by
      unfold TopologicalSort
      rw [hclone]
      exact hres
    by_cases hc : d1.edges.length > 0
    · exact ⟨[], some .cyclic, by rw [hts, if_pos hc], Or.inr rfl⟩
    · exact ⟨l, none, by rw [hts, if_neg hc], Or.inl rfl⟩

theorem topologicalSort_returns_witness :
    Reachable gappedCycle ∧ gappedCycle.nodes.length ≤ 41 ∧
    ∃ l e, TopologicalSort reversedOrder gappedCycle = .ret (l, e) ∧ (e = none ∨ l = []) :=
  ⟨reachable_gappedCycle, by decide,
    topologicalSort_returns reversedOrder gappedCycle reachable_gappedCycle (by decide)⟩

/-- C18: on a reachable graph whose node identities are exactly `0 .. n-1`
with `n ≤ 41`, and for every iteration order, `TopologicalSort` returns an
ordering when the graph is acyclic and the "Graph is cyclic" error otherwise;
a returned ordering is a permutation of the graph's node identities in which
every edge goes from an earlier to a later position. -/
theorem topologicalSort_dense (o : SortOrder N E) (g : Graph N E) (hr : Reachable g)
    (hd : DenseIds g) (hn : g.nodes.length ≤ 41) :
    (Acyclic g →
      ∃ l, TopologicalSort o g = .ret (l, none) ∧ l.Perm (mkeys g.nodes) ∧
        ∀ u v, hasEdge g u v → Before l u v) ∧
    (¬ Acyclic g → TopologicalSort o g = .ret ([], some .cyclic)) := by
  obtain ⟨d, d1, l, hwf, hperm, hE, hinv, hres⟩ :=
    topologicalSort_outcome_nodes o g hr.wf hd hn
  constructor
  · intro hac
    have hacd : Acyclic d := (acyclic_congr hE).2 hac
    have h0 := hinv.final_acyclic hacd
    refine ⟨l, by rw [hres, if_neg (by omega)], (hinv.final_perm hwf h0).trans hperm, ?_⟩
    intro u v huv
    exact hinv.final_order hwf h0 u v ((hE u v).2 huv)
  · intro hc
    have hcd : ¬ Acyclic d := fun h => hc ((acyclic_congr hE).1 h)
    rw [hres, if_pos (hinv.final_cyclic hwf hcd)]

theorem topologicalSort_dense_witness :
    Reachable triangle ∧ DenseIds triangle ∧ triangle.nodes.length ≤ 41 ∧ Acyclic triangle ∧
    ∃ l, TopologicalSort reversedOrder triangle = .ret (l, none) ∧
      l.Perm (mkeys triangle.nodes) ∧ ∀ u v, hasEdge triangle u v → Before l u v :=
  ⟨reachable_triangle, denseIds_triangle, by decide, acyclic_triangle,
    (topologicalSort_dense reversedOrder triangle reachable_triangle denseIds_triangle
      (by decide)).1 acyclic_triangle⟩

end SortContracts2

/-! ## Frame conditions of `removeEdge` and `removeNode` -/

section Frames

/-- C17: after `removeEdge(from, to)` on two existing nodes the edge is gone
from the edge collection, from `from`'s outgoing map and from `to`'s incoming
map; every other edge is unchanged in all three views, and every node
identity, node payload and the identity counter are unchanged. -/
theorem removeEdge_post (g : Graph N E) (f t : NodeId)
    (hf : (getNode g f).isSome = true) (ht : (getNode g t).isSome = true) :
    (removeEdge g f t).2 = none ∧
    getEdge (removeEdge g f t).1 f t = none ∧
    (∀ n, getNode (removeEdge g f t).1 f = some n → mget n.OutgoingConnections t = none) ∧
    (∀ n, getNode (removeEdge g f t).1 t = some n → mget n.IncomingConnections f = none) ∧
    (∀ a b, ¬ (a = f ∧ b = t) →
      getEdge (removeEdge g f t).1 a b = getEdge g a b ∧
      outE (removeEdge g f t).1 a b = outE g a b ∧
      inE (removeEdge g f t).1 b a = inE g b a) ∧
    (∀ k, (getNode (removeEdge g f t).1 k).map (fun n => (n.id, n.Data)) =
      (getNode g k).map (fun n => (n.id, n.Data))) ∧
    mkeys (removeEdge g f t).1.nodes = mkeys g.nodes ∧
    (removeEdge g f t).1.nodeIdIncr = g.nodeIdIncr := by
  have hE := getEdge_removeEdge (g := g) hf ht
  have hO := outE_removeEdge (g := g) hf ht
  have hI := inE_removeEdge (g := g) hf ht
  have hsn := removeEdge_sameNodes g f t
  refine ⟨by rw [removeEdge_eq_of_ok hf ht], ?_, ?_, ?_, ?_, hsn.data, hsn.keys, hsn.incr⟩
  · rw [hE]; simp
  · intro n hn
    have := hO f t
    unfold outE at this
    rw [hn] at this
    simpa using this
  · intro n hn
    have := hI f t
    unfold inE at this
    rw [hn] at this
    simpa using this
  · intro a b hab
    exact ⟨by rw [hE, if_neg hab], by rw [hO, if_neg hab], by rw [hI, if_neg hab]⟩

theorem removeEdge_post_witness :
    (getNode triangle 0).isSome = true ∧ (getNode triangle 2).isSome = true ∧
    (removeEdge triangle 0 2).2 = none ∧ getEdge (removeEdge triangle 0 2).1 0 2 = none ∧
    (∀ a b, ¬ (a = 0 ∧ b = 2) →
      getEdge (removeEdge triangle 0 2).1 a b = getEdge triangle a b ∧
      outE (removeEdge triangle 0 2).1 a b = outE triangle a b ∧
      inE (removeEdge triangle 0 2).1 b a = inE triangle b a) :=
  ⟨by decide, by decide, (removeEdge_post triangle 0 2 (by decide) (by decide)).1,
    (removeEdge_post triangle 0 2 (by decide) (by decide)).2.1,
    (removeEdge_post triangle 0 2 (by decide) (by decide)).2.2.2.2.1⟩

/-- C20: `removeNode(n)` on a reachable graph that has node `n` changes nothing
but `n` and its incident edges.  Every other node keeps its identity and
payload; every edge with both endpoints different from `n` is unchanged in the
edge collection and in both adjacency maps; the maps of a remaining node lose
exactly their entry keyed by `n`; the identity counter is unchanged. -/
theorem removeNode_frame (g : Graph N E) (hr : Reachable g) (ord : IterOrder (EdgeId × Edge E))
    (n : NodeId) (hn : (getNode g n).isSome = true) :
    (∀ m, m ≠ n →
      (getNode (removeNode ord g n).1 m).map (fun x => (x.id, x.Data)) =
        (getNode g m).map (fun x => (x.id, x.Data))) ∧
    (∀ u v, u ≠ n → v ≠ n →
      getEdge (removeNode ord g n).1 u v = getEdge g u v ∧
      outE (removeNode ord g n).1 u v = outE g u v ∧
      inE (removeNode ord g n).1 v u = inE g v u) ∧
    (∀ m nm nm2, m ≠ n → getNode g m = some nm → getNode (removeNode ord g n).1 m = some nm2 →
      ∀ k, mget nm2.OutgoingConnections k =
            (if k = n then none else mget nm.OutgoingConnections k) ∧
          mget nm2.IncomingConnections k =
            (if k = n then none else mget nm.IncomingConnections k)) ∧
    (removeNode ord g n).1.nodeIdIncr = g.nodeIdIncr := by
  have h := hr.wf
  have hwf2 := wf_removeNode h ord n
  have hE := getEdge_removeNode h ord hn
  have hN := getNode_removeNode h ord hn
  have hsn := (removeNodeLoop_spec n (mkeys (ord.apply g.edges)) g h (h.iter_endpoints ord)).2.2.1
  refine ⟨?_, ?_, ?_, removeNode_incr ord g n⟩
  · intro m hm
    rw [hN, if_neg (fun e => hm e.symm)]
    exact hsn.data m
  · intro u v hu hv
    have hne : ¬ (u = n ∨ v = n) := fun hc => hc.elim hu hv
    have hg : getEdge (removeNode ord g n).1 u v = getEdge g u v := by rw [hE, if_neg hne]
    exact ⟨hg, by rw [hwf2.outView, h.outView, hg], by rw [hwf2.inView, h.inView, hg]⟩
  · intro m nm nm2 hm hget hget2 k
    have hO := out_entry hwf2 hget2 k
    have hI : mget nm2.IncomingConnections k = getEdge (removeNode ord g n).1 k m := by
      have := hwf2.inView k m
      unfold inE at this
      rw [hget2] at this
      exact this
    have hO0 := out_entry h hget k
    have hI0 : mget nm.IncomingConnections k = getEdge g k m := by
      have := h.inView k m
      unfold inE at this
      rw [hget] at this
      exact this
    rw [hO, hI, hO0, hI0, hE, hE]
    by_cases hk : k = n
    · simp [hk]
    · simp [hk, hm]

theorem removeNode_frame_witness :
    Reachable triangle ∧ (getNode triangle 1).isSome = true ∧
    (∀ u v, u ≠ 1 → v ≠ 1 →
      getEdge (removeNode (IterOrder.reversed _) triangle 1).1 u v = getEdge triangle u v ∧
      outE (removeNode (IterOrder.reversed _) triangle 1).1 u v = outE triangle u v ∧
      inE (removeNode (IterOrder.reversed _) triangle 1).1 v u = inE triangle v u) ∧
    (removeNode (IterOrder.reversed _) triangle 1).1.nodeIdIncr = triangle.nodeIdIncr :=
  ⟨reachable_triangle, by decide,
    (removeNode_frame triangle reachable_triangle (IterOrder.reversed _) 1 (by decide)).2.1,
    (removeNode_frame triangle reachable_triangle (IterOrder.reversed _) 1 (by decide)).2.2.2⟩

end Frames

/-! ## The pointer-level model: calls that leave the existing heap alone -/

namespace Ptr

section FrameRules

variable {α β : Type}

theorem closed_append {base : Nat} {h : Heap N E} (hc : Closed base h) {c : Cell N E}
    (hp : c.ptrsOK base) : Closed base (h ++ [c]) := by
  refine ⟨by rw [List.length_append]; exact Nat.le_add_right_of_le hc.1, ?_⟩
  intro a c2 ha hget
  by_cases hlt : a < h.length
  · rw [List.getElem?_append_left hlt] at hget
    exact hc.2 a c2 ha hget
  · rw [List.getElem?_append_right (by omega)] at hget
    by_cases h0 : a - h.length = 0
    · rw [h0] at hget
      simp at hget
      rw [← hget]; exact hp
    · have : ([c] : List (Cell N E))[a - h.length]? = none := by
        apply List.getElem?_eq_none
        simp; omega
      rw [this] at hget; cases hget

theorem closed_set {base : Nat} {h : Heap N E} (hc : Closed base h) (a : Addr) {c : Cell N E}
    (hp : c.ptrsOK base) : Closed base (h.set a c) := by
  refine ⟨by rw [List.length_set]; exact hc.1, ?_⟩
  intro x c2 hx hget
  rw [List.getElem?_set] at hget
  split at hget
  · split at hget
    · cases hget; exact hp
    · cases hget
  · exact hc.2 x c2 hx hget

theorem frame_refl (base : Nat) (h : Heap N E) : Frame base h h := fun _ _ => rfl

theorem frame_trans {base : Nat} {h1 h2 h3 : Heap N E} (h12 : Frame base h1 h2)
    (h23 : Frame base h2 h3) : Frame base h1 h3 :=
  fun a ha => (h23 a ha).trans (h12 a ha)

theorem keeps_pure (base : Nat) (a : α) {P : α → Prop} (hp : P a) :
    Keeps base (pure a : M N E α) P := by
  intro h a2 h2 hc heq
  have : (pure a : M N E α) h = .ret (a, h) := rfl
  rw [this] at heq
  cases heq
  exact ⟨hc, frame_refl _ _, hp⟩

theorem keeps_bind {base : Nat} {m : M N E α} {f : α → M N E β} {P : α → Prop}
    {Q : β → Prop} (hm : Keeps base m P) (hf : ∀ a, P a → Keeps base (f a) Q) :
    Keeps base (m >>= f) Q := by
  intro h b h2 hc heq
  have hb : (m >>= f) h = M.bind m f h := rfl
  rw [hb] at heq
  unfold M.bind at heq
  split at heq
  · rename_i a h1 hm1
    obtain ⟨c1, f1, p1⟩ := hm h a h1 hc hm1
    obtain ⟨c2, f2, q2⟩ := hf a p1 h1 b h2 c1 heq
    exact ⟨c2, frame_trans f1 f2, q2⟩
  · cases heq

theorem keeps_weaken {base : Nat} {m : M N E α} {P Q : α → Prop} (hm : Keeps base m P)
    (hpq : ∀ a, P a → Q a) : Keeps base m Q := by
  intro h a h2 hc heq
  obtain ⟨c1, f1, p1⟩ := hm h a h2 hc heq
  exact ⟨c1, f1, hpq a p1⟩

theorem keeps_fail (base : Nat) (p : Abort) (P : α → Prop) :
    Keeps base (fail p : M N E α) P := by
  intro h a h2 _ heq
  cases heq

theorem keeps_alloc {base : Nat} {c : Cell N E} (hp : c.ptrsOK base) :
    Keeps base (alloc c) (fun a => base ≤ a) := by
  intro h a h2 hc heq
  have : alloc c h = .ret (h.length, h ++ [c]) := rfl
  rw [this] at heq
  cases heq
  refine ⟨closed_append hc hp, ?_, hc.1⟩
  intro x hx
  exact List.getElem?_append_left (by have := hc.1; omega)

theorem keeps_store {base : Nat} {a : Addr} (ha : base ≤ a) {c : Cell N E}
    (hp : c.ptrsOK base) : Keeps base (store a c) (fun _ => True) := by
  intro h u h2 hc heq
  have : store a c h = .ret ((), h.set a c) := rfl
  rw [this] at heq
  cases heq
  refine ⟨closed_set hc a hp, ?_, trivial⟩
  intro x hx
  rw [List.getElem?_set]
  rw [if_neg (by omega)]

theorem readOnly_keeps {m : M N E α} (hm : ReadOnly m) (base : Nat) :
    Keeps base m (fun _ => True) := by
  intro h a h2 hc heq
  have := hm h a h2 heq
  subst this
  exact ⟨hc, frame_refl _ _, trivial⟩

theorem readOnly_pure (a : α) : ReadOnly (pure a : M N E α) := by
  intro h a2 h2 heq
  have : (pure a : M N E α) h = .ret (a, h) := rfl
  rw [this] at heq
  cases heq
  rfl

theorem readOnly_fail (p : Abort) : ReadOnly (fail p : M N E α) := by
  intro h a h2 heq
  cases heq

theorem readOnly_bind {m : M N E α} {f : α → M N E β} (hm : ReadOnly m)
    (hf : ∀ a, ReadOnly (f a)) : ReadOnly (m >>= f) := by
  intro h b h2 heq
  have hb : (m >>= f) h = M.bind m f h := rfl
  rw [hb] at heq
  unfold M.bind at heq
  split at heq
  · rename_i a h1 hm1
    have := hm h a h1 hm1
    subst this
    exact hf a _ b h2 heq
  · cases heq

end FrameRules

end Ptr

namespace Ptr

section OpRules

variable {α β : Type}

theorem readOnly_readGraph (a : Addr) : ReadOnly (readGraph a : M N E GraphRec) := by
  intro h g h2 heq
  unfold readGraph at heq
  split at heq
  · cases heq; rfl
  · cases heq

theorem readOnly_readNodeMap (a : Addr) :
    ReadOnly (readNodeMap a : M N E (List (NodeId × Addr))) := by
  intro h g h2 heq
  unfold readNodeMap at heq
  split at heq
  · cases heq; rfl
  · cases heq

theorem readOnly_readEdgeMap (a : Addr) :
    ReadOnly (readEdgeMap a : M N E (List (EdgeId × EdgeRec E))) := by
  intro h g h2 heq
  unfold readEdgeMap at heq
  split at heq
  · cases heq; rfl
  · cases heq

theorem readOnly_readAdjMap (a : Addr) :
    ReadOnly (readAdjMap a : M N E (List (NodeId × EdgeRec E))) := by
  intro h g h2 heq
  unfold readAdjMap at heq
  split at heq
  · cases heq; rfl
  · cases heq

theorem readOnly_readNode (a : Addr) : ReadOnly (readNode a : M N E (NodeRec N)) := by
  intro h g h2 heq
  unfold readNode at heq
  split at heq
  · cases heq; rfl
  · cases heq

/-- A `Graph` struct read at or above `base` refers to maps at or above `base`. -/
theorem keeps_readGraph {base : Nat} {a : Addr} (ha : base ≤ a) :
    Keeps base (readGraph a : M N E GraphRec) (fun g => base ≤ g.nodes ∧ base ≤ g.edges) := by
  intro h g h2 hc heq
  unfold readGraph at heq
  split at heq
  · rename_i g0 hget
    cases heq
    exact ⟨hc, frame_refl _ _, hc.2 a _ ha hget⟩
  · cases heq

/-- A node map read at or above `base` holds addresses at or above `base`. -/
theorem keeps_readNodeMap {base : Nat} {a : Addr} (ha : base ≤ a) :
    Keeps base (readNodeMap a : M N E (List (NodeId × Addr))) (fun m => ∀ p ∈ m, base ≤ p.2) := by
  intro h g h2 hc heq
  unfold readNodeMap at heq
  split at heq
  · rename_i g0 hget
    cases heq
    exact ⟨hc, frame_refl _ _, hc.2 a _ ha hget⟩
  · cases heq

/-- A `Node` struct read at or above `base` refers to maps at or above `base`. -/
theorem keeps_readNode {base : Nat} {a : Addr} (ha : base ≤ a) :
    Keeps base (readNode a : M N E (NodeRec N))
      (fun n => base ≤ n.IncomingConnections ∧ base ≤ n.OutgoingConnections) := by
  intro h g h2 hc heq
  unfold readNode at heq
  split at heq
  · rename_i g0 hget
    cases heq
    exact ⟨hc, frame_refl _ _, hc.2 a _ ha hget⟩
  · cases heq

theorem ptrs_mset {base : Nat} {m : List (NodeId × Addr)} (hm : ∀ p ∈ m, base ≤ p.2)
    (id : NodeId) {a : Addr} (ha : base ≤ a) : ∀ p ∈ mset m id a, base ≤ p.2 := by
  intro p hp
  unfold mset at hp
  rcases List.mem_cons.1 hp with rfl | hp
  · exact ha
  · unfold mdel at hp
    exact hm p (List.mem_filter.1 hp).1

theorem mget_ptr {base : Nat} {m : List (NodeId × Addr)} (hm : ∀ p ∈ m, base ≤ p.2)
    {id : NodeId} {a : Addr} (hget : mget m id = some a) : base ≤ a := by
  induction m with
  | nil => simp at hget
  | cons p rest ih =>
    obtain ⟨k, v⟩ := p
    rw [mget_cons] at hget
    split at hget
    · cases hget
      exact hm (k, a) (List.mem_cons_self _ _)
    · exact ih (fun q hq => hm q (List.mem_cons_of_mem _ hq)) hget

theorem keeps_NewGraph (base : Nat) : Keeps base (NewGraph : M N E Addr) (fun d => base ≤ d) := by
  unfold NewGraph
  apply keeps_bind (keeps_alloc (c := .nodeMap []) (by intro p hp; cases hp))
  intro nodes hn
  apply keeps_bind (keeps_alloc (c := .edgeMap []) trivial)
  intro edges he
  refine keeps_weaken (keeps_alloc ?_) (fun _ h => h)
  exact ⟨hn, he⟩

theorem keeps_addNode {base : Nat} {d : Addr} (hd : base ≤ d) (n : N) :
    Keeps base (addNode d n : M N E NodeId) (fun _ => True) := by
  unfold addNode
  apply keeps_bind (keeps_readGraph hd)
  intro g hg
  apply keeps_bind (keeps_alloc (c := .adjMap []) trivial)
  intro inc hinc
  apply keeps_bind (keeps_alloc (c := .adjMap []) trivial)
  intro out hout
  refine keeps_bind (keeps_alloc ?_) ?_
  · exact ⟨hinc, hout⟩
  intro p hp
  apply keeps_bind (keeps_readNodeMap hg.1)
  intro m hm
  refine keeps_bind (keeps_store hg.1 ?_) ?_
  · exact ptrs_mset hm _ hp
  intro _ _
  apply keeps_bind (keeps_readGraph hd)
  intro g2 hg2
  refine keeps_bind (keeps_store hd ?_) ?_
  · exact hg2
  intro _ _
  exact keeps_pure _ _ trivial

theorem readOnly_getNode (d : Addr) (id : NodeId) :
    ReadOnly (getNode d id : M N E (Option Addr)) := by
  unfold getNode
  apply readOnly_bind (readOnly_readGraph d)
  intro g
  apply readOnly_bind (readOnly_readNodeMap _)
  intro m
  exact readOnly_pure _

theorem readOnly_getEdge (d : Addr) (src dst : NodeId) :
    ReadOnly (getEdge d src dst : M N E (Option (EdgeRec E))) := by
  unfold getEdge
  apply readOnly_bind (readOnly_readGraph d)
  intro g
  apply readOnly_bind (readOnly_readEdgeMap _)
  intro m
  exact readOnly_pure _

/-- Looked up in a graph at or above `base`, a node is at or above `base`. -/
theorem keeps_getNode {base : Nat} {d : Addr} (hd : base ≤ d) (id : NodeId) :
    Keeps base (getNode d id : M N E (Option Addr)) (fun r => ∀ a, r = some a → base ≤ a) := by
  unfold getNode
  apply keeps_bind (keeps_readGraph hd)
  intro g hg
  apply keeps_bind (keeps_readNodeMap hg.1)
  intro m hm
  exact keeps_pure _ _ (fun a ha => mget_ptr hm ha)

theorem keeps_addEdge {base : Nat} {d : Addr} (hd : base ≤ d) (src dst : NodeId) (v : E) :
    Keeps base (addEdge d src dst v : M N E (EdgeId × Option Error)) (fun _ => True) := by
  unfold addEdge
  apply keeps_bind (keeps_getNode hd src)
  intro fromNode hf
  apply keeps_bind (keeps_getNode hd dst)
  intro toNode ht
  cases fromNode with
  | none => exact keeps_pure _ _ trivial
  | some pf =>
    cases toNode with
    | none => exact keeps_pure _ _ trivial
    | some pt =>
      dsimp only
      apply keeps_bind (keeps_readGraph hd)
      intro g hg
      apply keeps_bind (readOnly_keeps (readOnly_readEdgeMap _) base)
      intro edges _
      split
      · exact keeps_pure _ _ trivial
      · apply keeps_bind (keeps_readNode (hf pf rfl))
        intro nf hnf
        apply keeps_bind (readOnly_keeps (readOnly_readAdjMap _) base)
        intro outs _
        apply keeps_bind (keeps_store (c := .adjMap _) hnf.2 trivial)
        intro _ _
        apply keeps_bind (keeps_readNode (ht pt rfl))
        intro nt hnt
        apply keeps_bind (readOnly_keeps (readOnly_readAdjMap _) base)
        intro ins _
        apply keeps_bind (keeps_store (c := .adjMap _) hnt.1 trivial)
        intro _ _
        apply keeps_bind (readOnly_keeps (readOnly_readEdgeMap _) base)
        intro edges2 _
        apply keeps_bind (keeps_store (c := .edgeMap _) hg.2 trivial)
        intro _ _
        exact keeps_pure _ _ trivial

theorem keeps_removeEdge {base : Nat} {d : Addr} (hd : base ≤ d) (src dst : NodeId) :
    Keeps base (removeEdge d src dst : M N E (Option Error)) (fun _ => True) := by
  unfold removeEdge
  apply keeps_bind (keeps_getNode hd src)
  intro fromNode hf
  apply keeps_bind (keeps_getNode hd dst)
  intro toNode ht
  cases fromNode with
  | none => exact keeps_pure _ _ trivial
  | some pf =>
    cases toNode with
    | none => exact keeps_pure _ _ trivial
    | some pt =>
      dsimp only
      apply keeps_bind (keeps_readGraph hd)
      intro g hg
      apply keeps_bind (readOnly_keeps (readOnly_readEdgeMap _) base)
      intro edges _
      apply keeps_bind (keeps_store (c := .edgeMap _) hg.2 trivial)
      intro _ _
      apply keeps_bind (keeps_readNode (hf pf rfl))
      intro nf hnf
      apply keeps_bind (readOnly_keeps (readOnly_readAdjMap _) base)
      intro outs _
      apply keeps_bind (keeps_store (c := .adjMap _) hnf.2 trivial)
      intro _ _
      apply keeps_bind (keeps_readNode (ht pt rfl))
      intro nt hnt
      apply keeps_bind (readOnly_keeps (readOnly_readAdjMap _) base)
      intro ins _
      apply keeps_bind (keeps_store (c := .adjMap _) hnt.1 trivial)
      intro _ _
      exact keeps_pure _ _ trivial

end OpRules

end Ptr

namespace Ptr

section LoopRules

theorem keeps_addNodes {base : Nat} {d : Addr} (hd : base ≤ d) (ns : List N) :
    Keeps base (addNodes d ns : M N E Unit) (fun _ => True) := by
  induction ns with
  | nil => exact keeps_pure _ _ trivial
  | cons n rest ih =>
    unfold addNodes
    apply keeps_bind (keeps_addNode hd n)
    intro _ _
    exact ih

theorem keeps_addEdges {base : Nat} {d : Addr} (hd : base ≤ d) (L : List (EdgeId × E)) :
    Keeps base (addEdges d L : M N E (Option Error)) (fun _ => True) := by
  induction L with
  | nil => exact keeps_pure _ _ trivial
  | cons p rest ih =>
    obtain ⟨id, v⟩ := p
    unfold addEdges
    apply keeps_bind (keeps_addEdge hd id.From id.To v)
    intro r _
    split
    · exact keeps_pure _ _ trivial
    · exact ih

/-- `NewGraphFrom` builds its graph at or above `base`. -/
theorem keeps_NewGraphFrom (base : Nat) (ord : IterOrder (EdgeId × E)) (nodes : List N)
    (edges : List (EdgeId × E)) :
    Keeps base (NewGraphFrom ord nodes edges : M N E (Addr × Option Error))
      (fun r => base ≤ r.1) := by
  unfold NewGraphFrom
  apply keeps_bind (keeps_NewGraph base)
  intro d hd
  apply keeps_bind (keeps_addNodes hd nodes)
  intro _ _
  apply keeps_bind (keeps_addEdges hd _)
  intro err _
  exact keeps_pure _ _ hd

theorem readOnly_cloneIds (L : List (NodeId × Addr)) :
    ReadOnly (cloneIds L : M N E (List NodeId)) := by
  induction L with
  | nil => exact readOnly_pure _
  | cons p rest ih =>
    obtain ⟨k, a⟩ := p
    unfold cloneIds
    apply readOnly_bind (readOnly_readNode a)
    intro n
    apply readOnly_bind ih
    intro ids
    exact readOnly_pure _

theorem readOnly_cloneNodes (d : Addr) (L : List NodeId) :
    ReadOnly (cloneNodes d L : M N E (List N)) := by
  induction L with
  | nil => exact readOnly_pure _
  | cons id rest ih =>
    unfold cloneNodes
    apply readOnly_bind (readOnly_getNode d id)
    intro p
    cases p with
    | none => exact readOnly_fail _
    | some a =>
      dsimp only
      apply readOnly_bind (readOnly_readNode a)
      intro n
      apply readOnly_bind ih
      intro ns
      exact readOnly_pure _

theorem readOnly_cloneEdges (d : Addr) (L : List (EdgeId × EdgeRec E)) :
    ∀ acc : List (EdgeId × E), ReadOnly (cloneEdges d L acc : M N E (List (EdgeId × E))) := by
  induction L with
  | nil => intro acc; exact readOnly_pure _
  | cons p rest ih =>
    intro acc
    obtain ⟨k, e⟩ := p
    unfold cloneEdges
    apply readOnly_bind (readOnly_getEdge d _ _)
    intro e2
    cases e2 with
    | none => exact readOnly_fail _
    | some r => exact ih _

/-- `clone` reads the graph it is called on and builds the copy at or above
`base`, wherever the graph itself lives. -/
theorem keeps_clone (base : Nat) (o : CloneOrder E) (d : Addr) :
    Keeps base (clone o d : M N E (Addr × Option Error)) (fun r => base ≤ r.1) := by
  unfold clone
  apply keeps_bind (readOnly_keeps (readOnly_readGraph d) base)
  intro g _
  apply keeps_bind (readOnly_keeps (readOnly_readNodeMap _) base)
  intro nodesMap _
  apply keeps_bind (readOnly_keeps (readOnly_cloneIds _) base)
  intro ids _
  dsimp only
  apply keeps_bind (readOnly_keeps (readOnly_cloneNodes d _) base)
  intro nodes _
  apply keeps_bind (readOnly_keeps (readOnly_readEdgeMap _) base)
  intro edgesMap _
  apply keeps_bind (readOnly_keeps (readOnly_cloneEdges d _ _) base)
  intro edges _
  exact keeps_NewGraphFrom base _ _ _

theorem readOnly_seedQueue (L : List (NodeId × Addr)) :
    ReadOnly (seedQueue L : M N E (List NodeId)) := by
  induction L with
  | nil => exact readOnly_pure _
  | cons p rest ih =>
    obtain ⟨k, a⟩ := p
    unfold seedQueue
    apply readOnly_bind (readOnly_readNode a)
    intro node
    apply readOnly_bind (readOnly_readAdjMap _)
    intro ins
    apply readOnly_bind ih
    intro q
    exact readOnly_pure _

theorem keeps_sortInner {base : Nat} {d : Addr} (hd : base ≤ d)
    (L : List (NodeId × EdgeRec E)) :
    ∀ q : List NodeId, Keeps base (sortInner d L q : M N E (List NodeId)) (fun _ => True) := by
  induction L with
  | nil => intro q; exact keeps_pure _ _ trivial
  | cons p rest ih =>
    intro q
    obtain ⟨k, e⟩ := p
    unfold sortInner
    apply keeps_bind (keeps_removeEdge hd _ _)
    intro _ _
    apply keeps_bind (readOnly_keeps (readOnly_readNode _) base)
    intro m _
    apply keeps_bind (readOnly_keeps (readOnly_readAdjMap _) base)
    intro ins _
    exact ih _

theorem keeps_sortLoop {base : Nat} {d : Addr} (hd : base ≤ d)
    (out : Nat → IterOrder (NodeId × EdgeRec E)) :
    ∀ (fuel : Nat) (q l : List NodeId),
      Keeps base (sortLoop out d fuel q l : M N E (List NodeId × Option Error))
        (fun _ => True) := by
  intro fuel
  induction fuel with
  | zero =>
    intro q l
    cases q with
    | nil =>
      unfold sortLoop
      apply keeps_bind (readOnly_keeps (readOnly_readGraph d) base)
      intro g _
      apply keeps_bind (readOnly_keeps (readOnly_readEdgeMap _) base)
      intro edges _
      exact keeps_pure _ _ trivial
    | cons a rest =>
      unfold sortLoop
      exact keeps_fail _ _ _
  | succ fuel ih =>
    intro q l
    cases q with
    | nil =>
      unfold sortLoop
      apply keeps_bind (readOnly_keeps (readOnly_readGraph d) base)
      intro g _
      apply keeps_bind (readOnly_keeps (readOnly_readEdgeMap _) base)
      intro edges _
      exact keeps_pure _ _ trivial
    | cons a rest =>
      unfold sortLoop
      split
      · exact keeps_fail _ _ _
      · apply keeps_bind (keeps_getNode hd a)
        intro p hp
        cases p with
        | none => exact keeps_fail _ _ _
        | some pa =>
          dsimp only
          apply keeps_bind (readOnly_keeps (readOnly_readNode _) base)
          intro na _
          apply keeps_bind (readOnly_keeps (readOnly_readAdjMap _) base)
          intro outs _
          apply keeps_bind (keeps_sortInner hd _ _)
          intro q2 _
          exact ih _ _

/-- `TopologicalSort` writes only at or above `base`, wherever the graph it is
called on lives. -/
theorem keeps_TopologicalSort (base : Nat) (o : SortOrder E) (original : Addr) :
    Keeps base (TopologicalSort o original : M N E (List NodeId × Option Error))
      (fun _ => True) := by
  unfold TopologicalSort
  apply keeps_bind (keeps_clone base o.clone original)
  intro r hr
  split
  · exact keeps_pure _ _ trivial
  · apply keeps_bind (readOnly_keeps (readOnly_readGraph _) base)
    intro g _
    apply keeps_bind (readOnly_keeps (readOnly_readNodeMap _) base)
    intro nodesMap _
    apply keeps_bind (readOnly_keeps (readOnly_seedQueue _) base)
    intro noIncoming _
    exact keeps_sortLoop hr o.out 42 _ _

theorem closed_length (h : Heap N E) : Closed h.length h := by
  refine ⟨le_refl _, ?_⟩
  intro a c ha hget
  have : h[a]? = none := List.getElem?_eq_none ha
  rw [this] at hget
  cases hget

end LoopRules

section FrameContracts

/-- C16: `Clone` and `TopologicalSort` leave every object that exists when they
are called as it was: if the call returns, with or without an error, the heap
afterwards agrees with the heap before at every address allocated before the
call.  That covers the `Graph` struct with its identity counter, the node and
edge maps, every `Node` struct with its payload, and every incoming and
outgoing map of the graph the call was made on, for every iteration order. -/
theorem clone_and_sort_frame :
    (∀ (o : CloneOrder E) (original : Addr) (h h2 : Heap N E) (r : Addr × Option Error),
      clone o original h = .ret (r, h2) → ∀ a, a < h.length → h2[a]? = h[a]?) ∧
    (∀ (o : SortOrder E) (original : Addr) (h h2 : Heap N E) (r : List NodeId × Option Error),
      TopologicalSort o original h = .ret (r, h2) → ∀ a, a < h.length → h2[a]? = h[a]?) := by
  constructor
  · intro o original h h2 r heq
    exact (keeps_clone h.length o original h r h2 (closed_length h) heq).2.1
  · intro o original h h2 r heq
    exact (keeps_TopologicalSort h.length o original h r h2 (closed_length h) heq).2.1

theorem clone_and_sort_frame_witness :
    (TopologicalSort storageOrder 2 triangleHeap
        = .ret (([0, 1, 2], none), heapAfter (TopologicalSort storageOrder 2) triangleHeap) ∧
      triangleHeap.length = 12 ∧
      (heapAfter (TopologicalSort storageOrder 2) triangleHeap).length = 24 ∧
      ∀ a, a < triangleHeap.length →
        (heapAfter (TopologicalSort storageOrder 2) triangleHeap)[a]? = triangleHeap[a]?) ∧
    (clone storageOrder.clone 2 triangleHeap
        = .ret ((14, none), heapAfter (clone storageOrder.clone 2) triangleHeap) ∧
      ∀ a, a < triangleHeap.length →
        (heapAfter (clone storageOrder.clone 2) triangleHeap)[a]? = triangleHeap[a]?) :=
  ⟨⟨by decide, by decide, by decide,
      (clone_and_sort_frame (N := Nat) (E := Nat)).2 storageOrder 2 triangleHeap
        (heapAfter (TopologicalSort storageOrder 2) triangleHeap) ([0, 1, 2], none) (by decide)⟩,
    ⟨by decide,
      (clone_and_sort_frame (N := Nat) (E := Nat)).1 storageOrder.clone 2 triangleHeap
        (heapAfter (clone storageOrder.clone 2) triangleHeap) (14, none) (by decide)⟩⟩

/-- On the triangle the pointer-level `TopologicalSort` returns what the
value-level one returns. -/
theorem sort_models_agree_on_triangle :
    (match TopologicalSort storageOrder 2 triangleHeap with
      | .ret (r, _) => Outcome.ret r
      | .abort p => .abort p) =
    GenericGraph.TopologicalSort GenericGraph.storageOrder GenericGraph.triangle := by
  decide

/-- On the triangle with the back edge both models return the cyclic error, and
the pointer-level call leaves the twelve cells of the graph as they were. -/
theorem sort_models_agree_on_cycle :
    (match TopologicalSort storageOrder 2 cycleHeap with
      | .ret (r, _) => Outcome.ret r
      | .abort p => .abort p) =
      GenericGraph.TopologicalSort GenericGraph.storageOrder GenericGraph.triangleCycle ∧
    GenericGraph.TopologicalSort GenericGraph.storageOrder GenericGraph.triangleCycle
      = .ret ([], some .cyclic) ∧
    (heapAfter (TopologicalSort storageOrder 2) cycleHeap).take 12 = cycleHeap := by
  decide

end FrameContracts

end Ptr

end GenericGraph
